import Mathlib

/-!
Verification of the circuit compiler of garble-lang-pg.

The repository carries two generations of the compiler core:

* `src/circuit.rs` — the newer, panic-channel-aware `CircuitBuilder` with
  peephole optimization, sub-expression sharing, arithmetic circuit kernels,
  a finalizer (`build`) and the cleartext evaluator `Circuit::eval`.
* `src/compiler.rs` — the older lowering that emits `Gate::InA/InB/Xor/And`
  directly into a plain gate vector (no panic wires, no optimizer), plus the
  `Computation` driver.

Both are embedded below.  Wire values are booleans; wire indices are `Nat`.
Machine integers (`usize`, `u128`) are modelled as `Nat` with explicit
truncation where the source truncates.
-/

namespace Garble

/-- Modelled from the spec: `bits_to_unsigned` / `wires_as_unsigned` from the
missing `compile.rs` module — decodes an MSB-first bit vector into an
unsigned integer (spec §4.7). -/
def wires_as_unsigned (bits : List Bool) : Nat :=
  bits.foldl (fun acc b => 2 * acc + b.toNat) 0

theorem wires_as_unsigned_go (bits : List Bool) :
    ∀ acc : Nat, bits.foldl (fun acc b => 2 * acc + b.toNat) acc =
      acc * 2 ^ bits.length + bits.foldl (fun acc b => 2 * acc + b.toNat) 0 := by
  induction bits with
  | nil => intro acc; simp
  | cons b bs ih =>
    intro acc
    simp only [List.foldl_cons, List.length_cons]
    rw [ih (2 * acc + b.toNat), ih (2 * 0 + b.toNat)]
    ring

theorem wires_as_unsigned_cons (b : Bool) (bs : List Bool) :
    wires_as_unsigned (b :: bs) =
      b.toNat * 2 ^ bs.length + wires_as_unsigned bs := by
  simp only [wires_as_unsigned, List.foldl_cons]
  rw [wires_as_unsigned_go bs (2 * 0 + b.toNat)]
  ring

theorem wires_as_unsigned_nil : wires_as_unsigned [] = 0 := rfl

theorem wires_as_unsigned_lt (bits : List Bool) :
    wires_as_unsigned bits < 2 ^ bits.length := by
  induction bits with
  | nil => simp [wires_as_unsigned]
  | cons b bs ih =>
    rw [wires_as_unsigned_cons]
    simp only [List.length_cons, pow_succ]
    cases b <;> simp [Bool.toNat] <;> omega

theorem wires_as_unsigned_append (xs ys : List Bool) :
    wires_as_unsigned (xs ++ ys) =
      wires_as_unsigned xs * 2 ^ ys.length + wires_as_unsigned ys := by
  induction xs with
  | nil => simp [wires_as_unsigned_nil]
  | cons b bs ih =>
    rw [List.cons_append, wires_as_unsigned_cons, ih, wires_as_unsigned_cons]
    simp only [List.length_append]
    rw [pow_add]
    ring

theorem wires_as_unsigned_replicate_false (n : Nat) :
    wires_as_unsigned (List.replicate n false) = 0 := by
  induction n with
  | zero => rfl
  | succ n ih => rw [List.replicate_succ, wires_as_unsigned_cons, ih]; simp

/-- MSB-first two's-complement reading of a bit vector. -/
def wires_as_signed (bits : List Bool) : Int :=
  (wires_as_unsigned bits : Int) -
    (if bits.getD 0 false then (2 : Int) ^ bits.length else 0)

/-! ## The newer circuit representation (`src/circuit.rs`) -/

/-- `BuilderGate` from `circuit.rs`: builder-internal gates are only XOR and
AND; NOT is `Xor(x, 1)`. -/
inductive BuilderGate where
  | Xor : Nat → Nat → BuilderGate
  | And : Nat → Nat → BuilderGate
deriving DecidableEq, Repr

/-- `PanicReason` from `circuit.rs`. -/
inductive PanicReason where
  | Overflow
  | DivByZero
  | OutOfBounds
deriving DecidableEq, Repr

/-- Modelled from the spec: `MetaInfo` from the missing `token.rs` module — a
source span, start and end (line, column) pairs (spec §4.3/§6). -/
structure MetaInfo where
  start : Nat × Nat
  end_ : Nat × Nat
deriving DecidableEq, Repr

/-- `USIZE_BITS` from `circuit.rs` (the implementation targets 64-bit
`usize`). -/
def USIZE_BITS : Nat := 64

/-- `unsigned_as_usize_bits` from `circuit.rs`: MSB-first bits of `n`
(a `u128` in the source, hence the truncation to the low 64 bits), with each
bit given as the constant wire 0 or 1. -/
def unsigned_as_usize_bits (n : Nat) : List Nat :=
  (List.range USIZE_BITS).map (fun i => (n >>> (USIZE_BITS - 1 - i)) &&& 1)

/-- `PanicResult` from `circuit.rs`: the wires carrying the panic state.  The
source uses `[GateIndex; USIZE_BITS]` arrays; we use lists (their length-64
invariant is tracked where needed). -/
structure PanicResult where
  has_panicked : Nat
  panic_type : List Nat
  start_line : List Nat
  start_column : List Nat
  end_line : List Nat
  end_column : List Nat
deriving DecidableEq, Repr

/-- `PanicReason::as_bits` from `circuit.rs`. -/
def PanicReason.as_bits : PanicReason → List Nat
  | .Overflow => unsigned_as_usize_bits 1
  | .DivByZero => unsigned_as_usize_bits 2
  | .OutOfBounds => unsigned_as_usize_bits 3

/-- `PanicReason::from_num` from `circuit.rs`; the source panics on any
value other than 1, 2, 3, modelled as `none`. -/
def PanicReason.from_num : Nat → Option PanicReason
  | 1 => some .Overflow
  | 2 => some .DivByZero
  | 3 => some .OutOfBounds
  | _ => none

/-- `PanicResult::ok` from `circuit.rs`. -/
def PanicResult.ok : PanicResult where
  has_panicked := 0
  panic_type := PanicReason.Overflow.as_bits
  start_line := List.replicate USIZE_BITS 0
  start_column := List.replicate USIZE_BITS 0
  end_line := List.replicate USIZE_BITS 0
  end_column := List.replicate USIZE_BITS 0

/-- `MAX_OPTIMIZATION_DEPTH` from `circuit.rs`. -/
def MAX_OPTIMIZATION_DEPTH : Nat := 4

/-- `CircuitBuilder` from `circuit.rs`.  The Rust `HashMap`s `cache` and
`negated` are modelled as association lists with insert-at-front (most
recent binding wins, as for `HashMap::insert`). -/
structure CircuitBuilder where
  shift : Nat
  input_gates : List Nat
  gates : List BuilderGate
  cache : List (BuilderGate × Nat)
  negated : List (Nat × Nat)
  gates_optimized : Nat
  gate_counter : Nat
  panic_gates : PanicResult
deriving Repr

/-- Association-list lookup (first binding wins), standing in for
`HashMap::get`. -/
def alookup {α β : Type} [DecidableEq α] : List (α × β) → α → Option β
  | [], _ => none
  | (k, v) :: rest, a => if k = a then some v else alookup rest a

/-- `CircuitBuilder::new` from `circuit.rs`. -/
def CircuitBuilder.new (input_gates : List Nat) : CircuitBuilder where
  shift := 2 + input_gates.sum
  input_gates := input_gates
  gates := []
  cache := []
  negated := []
  gates_optimized := 0
  gate_counter := 2 + input_gates.sum
  panic_gates := PanicResult.ok

/-!
Builder-wire denotation.  Wire 0 is constant false, wire 1 constant true,
wires `2 ≤ w < shift` are party inputs (valued by an assignment `inp`), and
wire `shift + i` is the output of `gates[i]`.  The recursion is fuelled; for
well-formed (topologically ordered) gate lists the fuel `w + 1` suffices and
the value is fuel-independent, which is proved below.
-/

def evalWF (shift : Nat) (gates : List BuilderGate) (inp : Nat → Bool) :
    Nat → Nat → Bool
  | 0, _ => false
  | fuel + 1, w =>
    if w = 0 then false
    else if w = 1 then true
    else if w < shift then inp w
    else
      match gates.get? (w - shift) with
      | some (.Xor a b) => evalWF shift gates inp fuel a ^^ evalWF shift gates inp fuel b
      | some (.And a b) => evalWF shift gates inp fuel a && evalWF shift gates inp fuel b
      | none => false

/-- The value of builder wire `w` under input assignment `inp`. -/
def evalW (shift : Nat) (gates : List BuilderGate) (inp : Nat → Bool) (w : Nat) : Bool :=
  evalWF shift gates inp (w + 1) w

/-- Operand bound for a builder gate. -/
def gateOpsLt (g : BuilderGate) (n : Nat) : Prop :=
  match g with
  | .Xor a b => a < n ∧ b < n
  | .And a b => a < n ∧ b < n

instance (g : BuilderGate) (n : Nat) : Decidable (gateOpsLt g n) := by
  cases g <;> simp [gateOpsLt] <;> infer_instance

/-- Topological well-formedness: every gate refers only to smaller wires. -/
def WfGates (shift : Nat) (gates : List BuilderGate) : Prop :=
  ∀ i g, gates.get? i = some g → gateOpsLt g (shift + i)

theorem wfGates_nil (shift : Nat) : WfGates shift [] := by
  intro i g h; simp at h

theorem wfGates_append (shift : Nat) (g₁ g₂ : List BuilderGate)
    (h₁ : WfGates shift g₁)
    (h₂ : ∀ i g, g₂.get? i = some g → gateOpsLt g (shift + g₁.length + i)) :
    WfGates shift (g₁ ++ g₂) := by
  intro i g h
  by_cases hi : i < g₁.length
  · rw [List.get?_append hi] at h
    exact h₁ i g h
  · rw [List.get?_append_right (by omega)] at h
    have := h₂ (i - g₁.length) g h
    have : gateOpsLt g (shift + g₁.length + (i - g₁.length)) := this
    cases g <;> simp [gateOpsLt] at this ⊢ <;> omega

theorem evalWF_unfold (shift : Nat) (gates : List BuilderGate) (inp : Nat → Bool)
    (f w : Nat) :
    evalWF shift gates inp (f + 1) w =
      if w = 0 then false
      else if w = 1 then true
      else if w < shift then inp w
      else
        match gates.get? (w - shift) with
        | some (.Xor a b) => evalWF shift gates inp f a ^^ evalWF shift gates inp f b
        | some (.And a b) => evalWF shift gates inp f a && evalWF shift gates inp f b
        | none => false := rfl

theorem evalWF_gateXor (shift : Nat) (gates : List BuilderGate) (inp : Nat → Bool)
    (f w a b : Nat) (h0 : w ≠ 0) (h1 : w ≠ 1) (hs : ¬ w < shift)
    (hg : gates.get? (w - shift) = some (.Xor a b)) :
    evalWF shift gates inp (f + 1) w =
      (evalWF shift gates inp f a ^^ evalWF shift gates inp f b) := by
  rw [evalWF_unfold, if_neg h0, if_neg h1, if_neg hs, hg]

theorem evalWF_gateAnd (shift : Nat) (gates : List BuilderGate) (inp : Nat → Bool)
    (f w a b : Nat) (h0 : w ≠ 0) (h1 : w ≠ 1) (hs : ¬ w < shift)
    (hg : gates.get? (w - shift) = some (.And a b)) :
    evalWF shift gates inp (f + 1) w =
      (evalWF shift gates inp f a && evalWF shift gates inp f b) := by
  rw [evalWF_unfold, if_neg h0, if_neg h1, if_neg hs, hg]

theorem evalWF_gateNone (shift : Nat) (gates : List BuilderGate) (inp : Nat → Bool)
    (f w : Nat) (h0 : w ≠ 0) (h1 : w ≠ 1) (hs : ¬ w < shift)
    (hg : gates.get? (w - shift) = none) :
    evalWF shift gates inp (f + 1) w = false := by
  rw [evalWF_unfold, if_neg h0, if_neg h1, if_neg hs, hg]

/-- The fuelled evaluator is fuel-insensitive (for fuel above the wire index)
on well-formed gate lists. -/
theorem evalWF_congr (shift : Nat) (gates : List BuilderGate) (inp : Nat → Bool)
    (hwf : WfGates shift gates) :
    ∀ w f₁ f₂, w < f₁ → w < f₂ →
      evalWF shift gates inp f₁ w = evalWF shift gates inp f₂ w := by
  intro w
  induction w using Nat.strong_induction_on with
  | _ w ih =>
    intro f₁ f₂ h₁ h₂
    match f₁, f₂ with
    | f₁ + 1, f₂ + 1 =>
      by_cases h0 : w = 0
      · subst h0; rfl
      by_cases h1 : w = 1
      · subst h1; rfl
      by_cases hs : w < shift
      · rw [evalWF_unfold, if_neg h0, if_neg h1, if_pos hs,
          evalWF_unfold, if_neg h0, if_neg h1, if_pos hs]
      cases hg : gates.get? (w - shift) with
      | none =>
        rw [evalWF_gateNone shift gates inp f₁ w h0 h1 hs hg,
          evalWF_gateNone shift gates inp f₂ w h0 h1 hs hg]
      | some g =>
        have hops := hwf _ _ hg
        have hwi : shift + (w - shift) = w := by omega
        cases g with
        | Xor a b =>
          simp only [gateOpsLt, hwi] at hops
          rw [evalWF_gateXor shift gates inp f₁ w a b h0 h1 hs hg,
            evalWF_gateXor shift gates inp f₂ w a b h0 h1 hs hg,
            ih a (by omega) f₁ f₂ (by omega) (by omega),
            ih b (by omega) f₁ f₂ (by omega) (by omega)]
        | And a b =>
          simp only [gateOpsLt, hwi] at hops
          rw [evalWF_gateAnd shift gates inp f₁ w a b h0 h1 hs hg,
            evalWF_gateAnd shift gates inp f₂ w a b h0 h1 hs hg,
            ih a (by omega) f₁ f₂ (by omega) (by omega),
            ih b (by omega) f₁ f₂ (by omega) (by omega)]

theorem evalWF_eq_evalW (shift : Nat) (gates : List BuilderGate) (inp : Nat → Bool)
    (hwf : WfGates shift gates) (w f : Nat) (hf : w < f) :
    evalWF shift gates inp f w = evalW shift gates inp w :=
  evalWF_congr shift gates inp hwf w f (w + 1) hf (by omega)

theorem evalW_zero (shift : Nat) (gates : List BuilderGate) (inp : Nat → Bool) :
    evalW shift gates inp 0 = false := by
  simp [evalW, evalWF]

theorem evalW_one (shift : Nat) (gates : List BuilderGate) (inp : Nat → Bool) :
    evalW shift gates inp 1 = true := by
  simp [evalW, evalWF]

theorem evalW_input (shift : Nat) (gates : List BuilderGate) (inp : Nat → Bool)
    (w : Nat) (h2 : 2 ≤ w) (hs : w < shift) :
    evalW shift gates inp w = inp w := by
  have h0 : w ≠ 0 := by omega
  have h1 : w ≠ 1 := by omega
  simp [evalW, evalWF, h0, h1, hs]

theorem evalW_gate_xor (shift : Nat) (gates : List BuilderGate) (inp : Nat → Bool)
    (hwf : WfGates shift gates) (hshift : 2 ≤ shift) (w a b : Nat)
    (hw : shift ≤ w) (hg : gates.get? (w - shift) = some (.Xor a b)) :
    evalW shift gates inp w = (evalW shift gates inp a ^^ evalW shift gates inp b) := by
  have hops := hwf _ _ hg
  have hwi : shift + (w - shift) = w := by omega
  simp only [gateOpsLt, hwi] at hops
  have h0 : w ≠ 0 := by omega
  have h1 : w ≠ 1 := by omega
  have hs : ¬ w < shift := by omega
  rw [evalW, evalWF_gateXor shift gates inp w w a b h0 h1 hs hg,
    evalWF_eq_evalW shift gates inp hwf a w (by omega),
    evalWF_eq_evalW shift gates inp hwf b w (by omega)]

theorem evalW_gate_and (shift : Nat) (gates : List BuilderGate) (inp : Nat → Bool)
    (hwf : WfGates shift gates) (hshift : 2 ≤ shift) (w a b : Nat)
    (hw : shift ≤ w) (hg : gates.get? (w - shift) = some (.And a b)) :
    evalW shift gates inp w = (evalW shift gates inp a && evalW shift gates inp b) := by
  have hops := hwf _ _ hg
  have hwi : shift + (w - shift) = w := by omega
  simp only [gateOpsLt, hwi] at hops
  have h0 : w ≠ 0 := by omega
  have h1 : w ≠ 1 := by omega
  have hs : ¬ w < shift := by omega
  rw [evalW, evalWF_gateAnd shift gates inp w w a b h0 h1 hs hg,
    evalWF_eq_evalW shift gates inp hwf a w (by omega),
    evalWF_eq_evalW shift gates inp hwf b w (by omega)]

/-- Appending gates does not change the value of existing wires. -/
theorem evalWF_append_frame (shift : Nat) (g₁ g₂ : List BuilderGate) (inp : Nat → Bool)
    (hwf : WfGates shift g₁) :
    ∀ f w, w < shift + g₁.length →
      evalWF shift (g₁ ++ g₂) inp f w = evalWF shift g₁ inp f w := by
  intro f
  induction f with
  | zero => intro w _; rfl
  | succ f ih =>
    intro w hw
    by_cases h0 : w = 0
    · subst h0; rfl
    by_cases h1 : w = 1
    · subst h1; rfl
    by_cases hs : w < shift
    · rw [evalWF_unfold, if_neg h0, if_neg h1, if_pos hs,
        evalWF_unfold, if_neg h0, if_neg h1, if_pos hs]
    have hidx : w - shift < g₁.length := by omega
    have happ : (g₁ ++ g₂).get? (w - shift) = g₁.get? (w - shift) :=
      List.get?_append hidx
    cases hg : g₁.get? (w - shift) with
    | none =>
      rw [evalWF_gateNone shift (g₁ ++ g₂) inp f w h0 h1 hs (by rw [happ, hg]),
        evalWF_gateNone shift g₁ inp f w h0 h1 hs hg]
    | some g =>
      have hops := hwf _ _ hg
      have hwi : shift + (w - shift) = w := by omega
      cases g with
      | Xor a b =>
        simp only [gateOpsLt, hwi] at hops
        rw [evalWF_gateXor shift (g₁ ++ g₂) inp f w a b h0 h1 hs (by rw [happ, hg]),
          evalWF_gateXor shift g₁ inp f w a b h0 h1 hs hg,
          ih a (by omega), ih b (by omega)]
      | And a b =>
        simp only [gateOpsLt, hwi] at hops
        rw [evalWF_gateAnd shift (g₁ ++ g₂) inp f w a b h0 h1 hs (by rw [happ, hg]),
          evalWF_gateAnd shift g₁ inp f w a b h0 h1 hs hg,
          ih a (by omega), ih b (by omega)]

theorem evalW_append_frame (shift : Nat) (g₁ g₂ : List BuilderGate) (inp : Nat → Bool)
    (hwf : WfGates shift g₁) (w : Nat) (hw : w < shift + g₁.length) :
    evalW shift (g₁ ++ g₂) inp w = evalW shift g₁ inp w :=
  evalWF_append_frame shift g₁ g₂ inp hwf (w + 1) w hw

/-!
The peephole optimizer of `circuit.rs` (`optimize_gate` / `optimize_xor` /
`optimize_and`).  The Rust guard `depth >= MAX_OPTIMIZATION_DEPTH` is a
dependent `if` here so that the recursion (which bottoms out at that depth)
is visibly terminating.  `if let Some(x) = … { return x }` followed by
fall-through is rendered with `Option.getD`, and the `else if let` chains
with nested matches.
-/

mutual

def optimize_gate (st : CircuitBuilder) (w is_true depth : Nat) : Nat :=
  if _h : MAX_OPTIMIZATION_DEPTH ≤ depth then w
  else if w = is_true then 1
  else if st.shift ≤ w then
    match st.gates.get? (w - st.shift) with
    | some (.Xor x y) => (optimize_xor st x y is_true (depth + 1)).getD w
    | some (.And x y) => (optimize_and st x y is_true (depth + 1)).getD w
    | none => w
  else w
termination_by 2 * (MAX_OPTIMIZATION_DEPTH - depth)

def optimize_xor (st : CircuitBuilder) (x y is_true depth : Nat) : Option Nat :=
  let x := optimize_gate st x is_true depth
  let y := optimize_gate st y is_true depth
  if x = 0 then some y
  else if y = 0 then some x
  else if x = y then some 0
  else
    match alookup st.negated x with
    | some x_negated =>
      if x_negated = y then some 1
      else if y = 1 then some x_negated
      else alookup st.cache (.Xor x y)
    | none =>
      match alookup st.negated y with
      | some y_negated =>
        if y_negated = x then some 1
        else if x = 1 then some y_negated
        else alookup st.cache (.Xor x y)
      | none => alookup st.cache (.Xor x y)
termination_by 2 * (MAX_OPTIMIZATION_DEPTH - depth) + 1

def optimize_and (st : CircuitBuilder) (x y is_true depth : Nat) : Option Nat :=
  let x := optimize_gate st x is_true depth
  let y := optimize_gate st y is_true depth
  if x = 0 ∨ y = 0 then some 0
  else if x = 1 then some y
  else if y = 1 ∨ x = y then some x
  else
    match alookup st.negated x with
    | some x_negated =>
      if x_negated = y then some 0 else alookup st.cache (.And x y)
    | none =>
      match alookup st.negated y with
      | some y_negated =>
        if y_negated = x then some 0 else alookup st.cache (.And x y)
      | none => alookup st.cache (.And x y)
termination_by 2 * (MAX_OPTIMIZATION_DEPTH - depth) + 1

end

/-- `CircuitBuilder::push_xor` from `circuit.rs` (the two conditional
`negated.insert` calls are rendered as conditional extensions of the
`negated` field). -/
def push_xor (x y : Nat) (st : CircuitBuilder) : Nat × CircuitBuilder :=
  match optimize_xor st x y 1 0 with
  | some optimized => (optimized, { st with gates_optimized := st.gates_optimized + 1 })
  | none =>
    let g : BuilderGate := .Xor x y
    let gate_index := st.gate_counter
    let negated1 :=
      if x = 1 then (gate_index, y) :: (y, gate_index) :: st.negated else st.negated
    let negated2 :=
      if y = 1 then (gate_index, x) :: (x, gate_index) :: negated1 else negated1
    (gate_index,
      { st with gate_counter := st.gate_counter + 1,
                gates := st.gates ++ [g],
                cache := (g, gate_index) :: st.cache,
                negated := negated2 })

/-- `CircuitBuilder::push_and` from `circuit.rs` (with its contextual
simplification of each operand under the assumption that the other one is
true). -/
def push_and (x y : Nat) (st : CircuitBuilder) : Nat × CircuitBuilder :=
  let x1 := optimize_gate st x y 0
  let y1 := optimize_gate st y x1 0
  match optimize_and st x1 y1 1 MAX_OPTIMIZATION_DEPTH with
  | some optimized => (optimized, { st with gates_optimized := st.gates_optimized + 1 })
  | none =>
    let g : BuilderGate := .And x1 y1
    let gate_index := st.gate_counter
    (gate_index,
      { st with gate_counter := st.gate_counter + 1,
                gates := st.gates ++ [g],
                cache := (g, gate_index) :: st.cache })

/-- Denotation of a wire of a builder state. -/
def wv (st : CircuitBuilder) (inp : Nat → Bool) (w : Nat) : Bool :=
  evalW st.shift st.gates inp w

/-- Denotation of a builder gate (as a function of its operand wires). -/
def evalBG (st : CircuitBuilder) (inp : Nat → Bool) : BuilderGate → Bool
  | .Xor a b => wv st inp a ^^ wv st inp b
  | .And a b => wv st inp a && wv st inp b

/-- The builder-state invariant: gates are topologically ordered, the gate
counter matches, and the sharing (`cache`) and negation (`negated`) maps are
semantically truthful. -/
structure Sound (st : CircuitBuilder) (inp : Nat → Bool) : Prop where
  hshift : 2 ≤ st.shift
  hcounter : st.gate_counter = st.shift + st.gates.length
  hwf : WfGates st.shift st.gates
  hcache : ∀ g w, alookup st.cache g = some w →
    w < st.gate_counter ∧ gateOpsLt g st.gate_counter ∧
    wv st inp w = evalBG st inp g
  hneg : ∀ a b, alookup st.negated a = some b →
    a < st.gate_counter ∧ b < st.gate_counter ∧
    wv st inp b = ! wv st inp a

theorem Sound.cnt2 {st : CircuitBuilder} {inp : Nat → Bool} (hs : Sound st inp) :
    2 ≤ st.gate_counter := by
  have := hs.hshift
  have := hs.hcounter
  omega

theorem Sound.cnt_pos {st : CircuitBuilder} {inp : Nat → Bool} (hs : Sound st inp) :
    0 < st.gate_counter := lt_of_lt_of_le (by omega) hs.cnt2

theorem wv_zero (st : CircuitBuilder) (inp : Nat → Bool) : wv st inp 0 = false :=
  evalW_zero _ _ _

theorem wv_one (st : CircuitBuilder) (inp : Nat → Bool) : wv st inp 1 = true :=
  evalW_one _ _ _

/-- The optimizer only returns wires below the gate counter. -/
theorem optimize_bound (st : CircuitBuilder) (inp : Nat → Bool) (hs : Sound st inp) :
    ∀ k : Nat,
      (∀ w is_true depth, 2 * (MAX_OPTIMIZATION_DEPTH - depth) ≤ k →
        w < st.gate_counter → optimize_gate st w is_true depth < st.gate_counter) ∧
      (∀ x y is_true depth r, 2 * (MAX_OPTIMIZATION_DEPTH - depth) + 1 ≤ k →
        x < st.gate_counter → y < st.gate_counter →
        optimize_xor st x y is_true depth = some r → r < st.gate_counter) ∧
      (∀ x y is_true depth r, 2 * (MAX_OPTIMIZATION_DEPTH - depth) + 1 ≤ k →
        x < st.gate_counter → y < st.gate_counter →
        optimize_and st x y is_true depth = some r → r < st.gate_counter) := by
  intro k
  induction k with
  | zero =>
    refine ⟨?_, ?_, ?_⟩
    · intro w is_true depth hk hw
      have hd : MAX_OPTIMIZATION_DEPTH ≤ depth := by omega
      rw [optimize_gate, dif_pos hd]
      exact hw
    · intro x y is_true depth r hk; omega
    · intro x y is_true depth r hk; omega
  | succ k ih =>
    obtain ⟨ihg, ihx, iha⟩ := ih
    have hcnt2 := hs.cnt2
    refine ⟨?_, ?_, ?_⟩
    · -- optimize_gate
      intro w is_true depth hk hw
      rw [optimize_gate]
      by_cases hd : MAX_OPTIMIZATION_DEPTH ≤ depth
      · rw [dif_pos hd]; exact hw
      rw [dif_neg hd]
      by_cases hit : w = is_true
      · rw [if_pos hit]; omega
      rw [if_neg hit]
      by_cases hsh : st.shift ≤ w
      · rw [if_pos hsh]
        cases hg : st.gates.get? (w - st.shift) with
        | none => exact hw
        | some g =>
          have hops := hs.hwf _ _ hg
          have hlen : w - st.shift < st.gates.length := List.get?_eq_some.mp hg |>.1
          have hco := hs.hcounter
          cases g with
          | Xor a b =>
            simp only [gateOpsLt] at hops
            cases ho : optimize_xor st a b is_true (depth + 1) with
            | none => simpa [ho] using hw
            | some r =>
              simp only [ho, Option.getD_some]
              exact ihx a b is_true (depth + 1) r (by omega) (by omega) (by omega) ho
          | And a b =>
            simp only [gateOpsLt] at hops
            cases ho : optimize_and st a b is_true (depth + 1) with
            | none => simpa [ho] using hw
            | some r =>
              simp only [ho, Option.getD_some]
              exact iha a b is_true (depth + 1) r (by omega) (by omega) (by omega) ho
      · rw [if_neg hsh]; exact hw
    · -- optimize_xor
      intro x y is_true depth r hk hx hy hr
      rw [optimize_xor] at hr
      have hx1 : optimize_gate st x is_true depth < st.gate_counter :=
        ihg x is_true depth (by omega) hx
      have hy1 : optimize_gate st y is_true depth < st.gate_counter :=
        ihg y is_true depth (by omega) hy
      set x1 := optimize_gate st x is_true depth with hx1def
      set y1 := optimize_gate st y is_true depth with hy1def
      by_cases h1 : x1 = 0
      · rw [if_pos h1] at hr; have := Option.some.inj hr; omega
      rw [if_neg h1] at hr
      by_cases h2 : y1 = 0
      · rw [if_pos h2] at hr; have := Option.some.inj hr; omega
      rw [if_neg h2] at hr
      by_cases h3 : x1 = y1
      · rw [if_pos h3] at hr; have := Option.some.inj hr; omega
      rw [if_neg h3] at hr
      cases hnx : alookup st.negated x1 with
      | some xn =>
        simp only [hnx] at hr
        have hb := hs.hneg _ _ hnx
        by_cases h4 : xn = y1
        · rw [if_pos h4] at hr; have := Option.some.inj hr; omega
        rw [if_neg h4] at hr
        by_cases h5 : y1 = 1
        · rw [if_pos h5] at hr
          have := Option.some.inj hr
          have := hb.2.1
          omega
        rw [if_neg h5] at hr
        exact (hs.hcache _ _ hr).1
      | none =>
        simp only [hnx] at hr
        cases hny : alookup st.negated y1 with
        | some yn =>
          simp only [hny] at hr
          have hb := hs.hneg _ _ hny
          by_cases h4 : yn = x1
          · rw [if_pos h4] at hr; have := Option.some.inj hr; omega
          rw [if_neg h4] at hr
          by_cases h5 : x1 = 1
          · rw [if_pos h5] at hr
            have := Option.some.inj hr
            have := hb.2.1
            omega
          rw [if_neg h5] at hr
          exact (hs.hcache _ _ hr).1
        | none =>
          simp only [hny] at hr
          exact (hs.hcache _ _ hr).1
    · -- optimize_and
      intro x y is_true depth r hk hx hy hr
      rw [optimize_and] at hr
      have hx1 : optimize_gate st x is_true depth < st.gate_counter :=
        ihg x is_true depth (by omega) hx
      have hy1 : optimize_gate st y is_true depth < st.gate_counter :=
        ihg y is_true depth (by omega) hy
      set x1 := optimize_gate st x is_true depth with hx1def
      set y1 := optimize_gate st y is_true depth with hy1def
      by_cases h1 : x1 = 0 ∨ y1 = 0
      · rw [if_pos h1] at hr; have := Option.some.inj hr; omega
      rw [if_neg h1] at hr
      by_cases h2 : x1 = 1
      · rw [if_pos h2] at hr; have := Option.some.inj hr; omega
      rw [if_neg h2] at hr
      by_cases h3 : y1 = 1 ∨ x1 = y1
      · rw [if_pos h3] at hr; have := Option.some.inj hr; omega
      rw [if_neg h3] at hr
      cases hnx : alookup st.negated x1 with
      | some xn =>
        simp only [hnx] at hr
        by_cases h4 : xn = y1
        · rw [if_pos h4] at hr; have := Option.some.inj hr; omega
        rw [if_neg h4] at hr
        exact (hs.hcache _ _ hr).1
      | none =>
        simp only [hnx] at hr
        cases hny : alookup st.negated y1 with
        | some yn =>
          simp only [hny] at hr
          by_cases h4 : yn = x1
          · rw [if_pos h4] at hr; have := Option.some.inj hr; omega
          rw [if_neg h4] at hr
          exact (hs.hcache _ _ hr).1
        | none =>
          simp only [hny] at hr
          exact (hs.hcache _ _ hr).1

/-- The optimizer preserves wire values, provided the contextual assumption
wire (`is_true`) indeed evaluates to true. -/
theorem optimize_val (st : CircuitBuilder) (inp : Nat → Bool) (hs : Sound st inp) :
    ∀ k : Nat,
      (∀ w is_true depth, 2 * (MAX_OPTIMIZATION_DEPTH - depth) ≤ k →
        wv st inp is_true = true →
        wv st inp (optimize_gate st w is_true depth) = wv st inp w) ∧
      (∀ x y is_true depth r, 2 * (MAX_OPTIMIZATION_DEPTH - depth) + 1 ≤ k →
        wv st inp is_true = true →
        optimize_xor st x y is_true depth = some r →
        wv st inp r = (wv st inp x ^^ wv st inp y)) ∧
      (∀ x y is_true depth r, 2 * (MAX_OPTIMIZATION_DEPTH - depth) + 1 ≤ k →
        wv st inp is_true = true →
        optimize_and st x y is_true depth = some r →
        wv st inp r = (wv st inp x && wv st inp y)) := by
  intro k
  induction k with
  | zero =>
    refine ⟨?_, ?_, ?_⟩
    · intro w is_true depth hk hit
      have hd : MAX_OPTIMIZATION_DEPTH ≤ depth := by omega
      rw [optimize_gate, dif_pos hd]
    · intro x y is_true depth r hk; omega
    · intro x y is_true depth r hk; omega
  | succ k ih =>
    obtain ⟨ihg, ihx, iha⟩ := ih
    refine ⟨?_, ?_, ?_⟩
    · -- optimize_gate
      intro w is_true depth hk hit
      rw [optimize_gate]
      by_cases hd : MAX_OPTIMIZATION_DEPTH ≤ depth
      · rw [dif_pos hd]
      rw [dif_neg hd]
      by_cases hweq : w = is_true
      · rw [if_pos hweq, hweq, wv_one, hit]
      rw [if_neg hweq]
      by_cases hsh : st.shift ≤ w
      · rw [if_pos hsh]
        cases hg : st.gates.get? (w - st.shift) with
        | none => rfl
        | some g =>
          cases g with
          | Xor a b =>
            cases ho : optimize_xor st a b is_true (depth + 1) with
            | none => simp [ho]
            | some r =>
              simp only [ho, Option.getD_some]
              rw [ihx a b is_true (depth + 1) r (by omega) hit ho]
              exact (evalW_gate_xor st.shift st.gates inp hs.hwf hs.hshift w a b hsh hg).symm
          | And a b =>
            cases ho : optimize_and st a b is_true (depth + 1) with
            | none => simp [ho]
            | some r =>
              simp only [ho, Option.getD_some]
              rw [iha a b is_true (depth + 1) r (by omega) hit ho]
              exact (evalW_gate_and st.shift st.gates inp hs.hwf hs.hshift w a b hsh hg).symm
      · rw [if_neg hsh]
    · -- optimize_xor
      intro x y is_true depth r hk hit hr
      rw [optimize_xor] at hr
      have hxv : wv st inp (optimize_gate st x is_true depth) = wv st inp x :=
        ihg x is_true depth (by omega) hit
      have hyv : wv st inp (optimize_gate st y is_true depth) = wv st inp y :=
        ihg y is_true depth (by omega) hit
      set x1 := optimize_gate st x is_true depth with hx1def
      set y1 := optimize_gate st y is_true depth with hy1def
      by_cases h1 : x1 = 0
      · rw [if_pos h1] at hr
        obtain rfl := Option.some.inj hr
        rw [hyv, ← hxv, h1, wv_zero, Bool.false_xor]
      rw [if_neg h1] at hr
      by_cases h2 : y1 = 0
      · rw [if_pos h2] at hr
        obtain rfl := Option.some.inj hr
        rw [hxv, ← hyv, h2, wv_zero, Bool.xor_false]
      rw [if_neg h2] at hr
      by_cases h3 : x1 = y1
      · rw [if_pos h3] at hr
        obtain rfl := Option.some.inj hr
        rw [wv_zero, ← hxv, ← hyv, h3, Bool.xor_self]
      rw [if_neg h3] at hr
      cases hnx : alookup st.negated x1 with
      | some xn =>
        simp only [hnx] at hr
        have hb := (hs.hneg _ _ hnx).2.2
        by_cases h4 : xn = y1
        · rw [if_pos h4] at hr
          obtain rfl := Option.some.inj hr
          rw [wv_one, ← hxv, ← hyv, ← h4, hb, Bool.xor_not_self]
        rw [if_neg h4] at hr
        by_cases h5 : y1 = 1
        · rw [if_pos h5] at hr
          obtain rfl := Option.some.inj hr
          rw [hb, hxv, ← hyv, h5, wv_one, Bool.xor_true]
        rw [if_neg h5] at hr
        have hc := (hs.hcache _ _ hr).2.2
        rw [hc]
        simp only [evalBG]
        rw [hxv, hyv]
      | none =>
        simp only [hnx] at hr
        cases hny : alookup st.negated y1 with
        | some yn =>
          simp only [hny] at hr
          have hb := (hs.hneg _ _ hny).2.2
          by_cases h4 : yn = x1
          · rw [if_pos h4] at hr
            obtain rfl := Option.some.inj hr
            rw [wv_one, ← hxv, ← hyv, ← h4, hb, Bool.not_xor_self]
          rw [if_neg h4] at hr
          by_cases h5 : x1 = 1
          · rw [if_pos h5] at hr
            obtain rfl := Option.some.inj hr
            rw [hb, hyv, ← hxv, h5, wv_one, Bool.true_xor]
          rw [if_neg h5] at hr
          have hc := (hs.hcache _ _ hr).2.2
          rw [hc]
          simp only [evalBG]
          rw [hxv, hyv]
        | none =>
          simp only [hny] at hr
          have hc := (hs.hcache _ _ hr).2.2
          rw [hc]
          simp only [evalBG]
          rw [hxv, hyv]
    · -- optimize_and
      intro x y is_true depth r hk hit hr
      rw [optimize_and] at hr
      have hxv : wv st inp (optimize_gate st x is_true depth) = wv st inp x :=
        ihg x is_true depth (by omega) hit
      have hyv : wv st inp (optimize_gate st y is_true depth) = wv st inp y :=
        ihg y is_true depth (by omega) hit
      set x1 := optimize_gate st x is_true depth with hx1def
      set y1 := optimize_gate st y is_true depth with hy1def
      by_cases h1 : x1 = 0 ∨ y1 = 0
      · rw [if_pos h1] at hr
        obtain rfl := Option.some.inj hr
        rw [wv_zero]
        rcases h1 with h1 | h1
        · rw [← hxv, h1, wv_zero, Bool.false_and]
        · rw [← hyv, h1, wv_zero, Bool.and_false]
      rw [if_neg h1] at hr
      by_cases h2 : x1 = 1
      · rw [if_pos h2] at hr
        obtain rfl := Option.some.inj hr
        rw [hyv, ← hxv, h2, wv_one, Bool.true_and]
      rw [if_neg h2] at hr
      by_cases h3 : y1 = 1 ∨ x1 = y1
      · rw [if_pos h3] at hr
        obtain rfl := Option.some.inj hr
        rcases h3 with h3 | h3
        · rw [hxv, ← hyv, h3, wv_one, Bool.and_true]
        · rw [hxv, ← hxv, ← hyv, h3, Bool.and_self, hyv]
      rw [if_neg h3] at hr
      cases hnx : alookup st.negated x1 with
      | some xn =>
        simp only [hnx] at hr
        have hb := (hs.hneg _ _ hnx).2.2
        by_cases h4 : xn = y1
        · rw [if_pos h4] at hr
          obtain rfl := Option.some.inj hr
          rw [wv_zero, ← hxv, ← hyv, ← h4, hb, Bool.and_not_self]
        rw [if_neg h4] at hr
        have hc := (hs.hcache _ _ hr).2.2
        rw [hc]
        simp only [evalBG]
        rw [hxv, hyv]
      | none =>
        simp only [hnx] at hr
        cases hny : alookup st.negated y1 with
        | some yn =>
          simp only [hny] at hr
          have hb := (hs.hneg _ _ hny).2.2
          by_cases h4 : yn = x1
          · rw [if_pos h4] at hr
            obtain rfl := Option.some.inj hr
            rw [wv_zero, ← hxv, ← hyv, ← h4, hb, Bool.not_and_self]
          rw [if_neg h4] at hr
          have hc := (hs.hcache _ _ hr).2.2
          rw [hc]
          simp only [evalBG]
          rw [hxv, hyv]
        | none =>
          simp only [hny] at hr
          have hc := (hs.hcache _ _ hr).2.2
          rw [hc]
          simp only [evalBG]
          rw [hxv, hyv]

/-- Extension relation between builder states: pushes only append gates and
never change the shift, the declared inputs, or (for the non-panic
operations) the panic wires. -/
def ExtOk (st st' : CircuitBuilder) : Prop :=
  st'.shift = st.shift ∧ st'.input_gates = st.input_gates ∧
  st.gate_counter ≤ st'.gate_counter ∧ ∃ ext, st'.gates = st.gates ++ ext

theorem ExtOk.refl (st : CircuitBuilder) : ExtOk st st :=
  ⟨rfl, rfl, le_refl _, [], by simp⟩

theorem ExtOk.trans {s1 s2 s3 : CircuitBuilder} (h1 : ExtOk s1 s2) (h2 : ExtOk s2 s3) :
    ExtOk s1 s3 := by
  obtain ⟨ha1, hb1, hc1, e1, he1⟩ := h1
  obtain ⟨ha2, hb2, hc2, e2, he2⟩ := h2
  exact ⟨ha2.trans ha1, hb2.trans hb1, hc1.trans hc2, e1 ++ e2, by rw [he2, he1, List.append_assoc]⟩

/-- Frame property: wires existing before an extension keep their values. -/
theorem wv_frame {st st' : CircuitBuilder} (inp : Nat → Bool) (hs : Sound st inp)
    (he : ExtOk st st') (w : Nat) (hw : w < st.gate_counter) :
    wv st' inp w = wv st inp w := by
  obtain ⟨hsh, _, _, ext, hg⟩ := he
  rw [wv, wv, hsh, hg]
  exact evalW_append_frame st.shift st.gates ext inp hs.hwf w (by rw [← hs.hcounter]; exact hw)

theorem evalBG_frame {st st' : CircuitBuilder} (inp : Nat → Bool) (hs : Sound st inp)
    (he : ExtOk st st') (g : BuilderGate) (hg : gateOpsLt g st.gate_counter) :
    evalBG st' inp g = evalBG st inp g := by
  cases g with
  | Xor a b =>
    simp only [gateOpsLt] at hg
    simp only [evalBG, wv_frame inp hs he a hg.1, wv_frame inp hs he b hg.2]
  | And a b =>
    simp only [gateOpsLt] at hg
    simp only [evalBG, wv_frame inp hs he a hg.1, wv_frame inp hs he b hg.2]

/-- Adding a semantically valid entry to the `negated` map preserves the
invariant. -/
theorem sound_add_neg {st : CircuitBuilder} {inp : Nat → Bool} (hs : Sound st inp)
    (a b : Nat) (ha : a < st.gate_counter) (hb : b < st.gate_counter)
    (hv : wv st inp b = ! wv st inp a) :
    Sound { st with negated := (a, b) :: st.negated } inp := by
  refine ⟨hs.hshift, hs.hcounter, hs.hwf, ?_, ?_⟩
  · intro g w h
    exact hs.hcache g w h
  · intro a0 b0 h
    simp only [alookup] at h
    by_cases heq : a = a0
    · rw [if_pos heq] at h
      obtain rfl := Option.some.inj h
      subst heq
      exact ⟨ha, hb, hv⟩
    · rw [if_neg heq] at h
      exact hs.hneg a0 b0 h

/-- Specification of `push_xor`: the invariant is preserved, the state only
grows, and the returned wire denotes the XOR of the operands. -/
theorem push_xor_spec (x y : Nat) (st : CircuitBuilder) (inp : Nat → Bool)
    (hs : Sound st inp) (hx : x < st.gate_counter) (hy : y < st.gate_counter)
    (r : Nat) (st' : CircuitBuilder) (h : push_xor x y st = (r, st')) :
    Sound st' inp ∧ ExtOk st st' ∧ st'.panic_gates = st.panic_gates ∧
      r < st'.gate_counter ∧
      wv st' inp r = (wv st inp x ^^ wv st inp y) := by
  cases ho : optimize_xor st x y 1 0 with
  | some opt =>
    rw [push_xor] at h
    simp only [ho] at h
    obtain ⟨rfl, rfl⟩ := Prod.mk.injEq .. |>.mp h
    have hv := (optimize_val st inp hs (2 * MAX_OPTIMIZATION_DEPTH + 1)).2.1
      x y 1 0 opt (by omega) (wv_one st inp) ho
    have hbd := (optimize_bound st inp hs (2 * MAX_OPTIMIZATION_DEPTH + 1)).2.1
      x y 1 0 opt (by omega) hx hy ho
    exact ⟨⟨hs.hshift, hs.hcounter, hs.hwf, hs.hcache, hs.hneg⟩,
      ⟨rfl, rfl, le_refl _, [], by simp⟩, rfl, hbd, hv⟩
  | none =>
    rw [push_xor] at h
    simp only [ho] at h
    set g : BuilderGate := .Xor x y with hgdef
    set idx := st.gate_counter with hidxdef
    set st1 : CircuitBuilder :=
      { st with gate_counter := st.gate_counter + 1,
                gates := st.gates ++ [g],
                cache := (g, idx) :: st.cache } with hst1def
    have hwf1 : WfGates st1.shift st1.gates := by
      show WfGates st.shift (st.gates ++ [g])
      refine wfGates_append st.shift st.gates [g] hs.hwf ?_
      intro i gi hgi
      match i with
      | 0 =>
        simp only [List.get?] at hgi
        obtain rfl := Option.some.inj hgi
        simp only [hgdef, gateOpsLt]
        rw [← hs.hcounter]
        omega
      | i + 1 => simp [List.get?] at hgi
    have hcnt1 : st1.gate_counter = st.gate_counter + 1 := rfl
    have hext1 : ExtOk st st1 := ⟨rfl, rfl, by rw [hcnt1]; omega, [g], rfl⟩
    have hfr : ∀ w, w < st.gate_counter → wv st1 inp w = wv st inp w := by
      intro w hw
      show evalW st.shift (st.gates ++ [g]) inp w = evalW st.shift st.gates inp w
      exact evalW_append_frame st.shift st.gates [g] inp hs.hwf w
        (by rw [← hs.hcounter]; exact hw)
    have hglast : st1.gates.get? (idx - st.shift) = some g := by
      show (st.gates ++ [g]).get? (st.gate_counter - st.shift) = some g
      have hl : st.gate_counter - st.shift = st.gates.length := by
        rw [hs.hcounter]; omega
      rw [hl, List.get?_append_right (le_refl _)]
      simp
    have hvidx : wv st1 inp idx = (wv st inp x ^^ wv st inp y) := by
      have hgx := evalW_gate_xor st.shift st1.gates inp hwf1 hs.hshift idx x y
        (by rw [hidxdef, hs.hcounter]; omega) hglast
      show evalW st.shift st1.gates inp idx = _
      rw [hgx]
      show (wv st1 inp x ^^ wv st1 inp y) = _
      rw [hfr x hx, hfr y hy]
    have hsound1 : Sound st1 inp := by
      refine ⟨hs.hshift, ?_, hwf1, ?_, ?_⟩
      · show st.gate_counter + 1 = st.shift + (st.gates ++ [g]).length
        rw [List.length_append, hs.hcounter]
        simp only [List.length_cons, List.length_nil]
        omega
      · intro g0 w0 hl
        simp only [hst1def, alookup] at hl
        by_cases heq : g = g0
        · rw [if_pos heq] at hl
          obtain rfl := Option.some.inj hl
          subst heq
          refine ⟨by omega, ?_, ?_⟩
          · simp only [hgdef, gateOpsLt]
            constructor <;> omega
          · rw [hvidx]
            show _ = (wv st1 inp x ^^ wv st1 inp y)
            rw [hfr x hx, hfr y hy]
        · rw [if_neg heq] at hl
          obtain ⟨hb1, hb2, hb3⟩ := hs.hcache g0 w0 hl
          refine ⟨by omega, ?_, ?_⟩
          · cases g0 <;> simp only [gateOpsLt] at hb2 ⊢ <;> omega
          · rw [hfr w0 hb1, hb3]
            exact (evalBG_frame inp hs hext1 g0 hb2).symm
      · intro a0 b0 hl
        obtain ⟨hb1, hb2, hb3⟩ := hs.hneg a0 b0 hl
        refine ⟨by omega, by omega, ?_⟩
        rw [hfr a0 hb1, hfr b0 hb2, hb3]
    have hvx : wv st1 inp x = wv st inp x := hfr x hx
    have hvy : wv st1 inp y = wv st inp y := hfr y hy
    have hidxlt : idx < st1.gate_counter := by rw [hcnt1]; omega
    have hxlt1 : x < st1.gate_counter := by rw [hcnt1]; omega
    have hylt1 : y < st1.gate_counter := by rw [hcnt1]; omega
    by_cases hx1 : x = 1
    · by_cases hy1 : y = 1
      · -- x = 1 and y = 1: cannot happen, optimize_xor fires on x = y.
        exfalso
        rw [optimize_xor] at ho
        rw [hx1, hy1] at ho
        simp [optimize_gate, MAX_OPTIMIZATION_DEPTH] at ho
      · rw [if_neg hy1, if_pos hx1] at h
        obtain ⟨rfl, rfl⟩ := Prod.mk.injEq .. |>.mp h
        have hnegv : wv st1 inp idx = ! wv st1 inp y := by
          rw [hvidx, hvy, ← hvx, hx1, wv_one, Bool.true_xor]
        have hs2 : Sound { st1 with negated := (y, idx) :: st1.negated } inp :=
          sound_add_neg hsound1 y idx hylt1 hidxlt hnegv
        have hs3 : Sound { st1 with negated := (idx, y) :: (y, idx) :: st1.negated } inp :=
          sound_add_neg hs2 idx y hidxlt hylt1 (by
              show wv st1 inp y = ! wv st1 inp idx
              rw [hnegv, Bool.not_not])
        refine ⟨hs3, ⟨rfl, rfl, by rw [hcnt1]; omega, [g], rfl⟩, rfl, hidxlt, ?_⟩
        show wv st1 inp idx = _
        rw [hvidx]
    · by_cases hy1 : y = 1
      · rw [if_pos hy1, if_neg hx1] at h
        obtain ⟨rfl, rfl⟩ := Prod.mk.injEq .. |>.mp h
        have hnegv : wv st1 inp idx = ! wv st1 inp x := by
          rw [hvidx, hvx, ← hvy, hy1, wv_one, Bool.xor_true]
        have hs2 : Sound { st1 with negated := (x, idx) :: st1.negated } inp :=
          sound_add_neg hsound1 x idx hxlt1 hidxlt hnegv
        have hs3 : Sound { st1 with negated := (idx, x) :: (x, idx) :: st1.negated } inp :=
          sound_add_neg hs2 idx x hidxlt hxlt1 (by
              show wv st1 inp x = ! wv st1 inp idx
              rw [hnegv, Bool.not_not])
        refine ⟨hs3, ⟨rfl, rfl, by simp [hst1def], [g], rfl⟩, rfl, hidxlt, ?_⟩
        show wv st1 inp idx = _
        rw [hvidx]
      · rw [if_neg hy1, if_neg hx1] at h
        obtain ⟨rfl, rfl⟩ := Prod.mk.injEq .. |>.mp h
        exact ⟨hsound1, hext1, rfl, hidxlt, hvidx⟩

/-- Pushing a raw gate (with operands below the counter) onto the gate list
together with its cache entry preserves the invariant; the fresh wire
denotes the gate function of its operands. -/
theorem push_raw_sound (st : CircuitBuilder) (inp : Nat → Bool) (hs : Sound st inp)
    (g : BuilderGate) (hops : gateOpsLt g st.gate_counter) (st1 : CircuitBuilder)
    (hst1 : st1 = { st with gate_counter := st.gate_counter + 1,
                            gates := st.gates ++ [g],
                            cache := (g, st.gate_counter) :: st.cache }) :
    Sound st1 inp ∧ ExtOk st st1 ∧ st1.panic_gates = st.panic_gates ∧
      st1.gate_counter = st.gate_counter + 1 ∧
      wv st1 inp st.gate_counter = evalBG st inp g ∧
      (∀ w, w < st.gate_counter → wv st1 inp w = wv st inp w) := by
  subst hst1
  set st1 : CircuitBuilder :=
    { st with gate_counter := st.gate_counter + 1,
              gates := st.gates ++ [g],
              cache := (g, st.gate_counter) :: st.cache } with hst1def
  have hwf1 : WfGates st1.shift st1.gates := by
    show WfGates st.shift (st.gates ++ [g])
    refine wfGates_append st.shift st.gates [g] hs.hwf ?_
    intro i gi hgi
    match i with
    | 0 =>
      simp only [List.get?] at hgi
      obtain rfl := Option.some.inj hgi
      have hc := hs.hcounter
      cases g <;> simp only [gateOpsLt] at hops ⊢ <;> omega
    | i + 1 => simp [List.get?] at hgi
  have hcnt1 : st1.gate_counter = st.gate_counter + 1 := rfl
  have hext1 : ExtOk st st1 := ⟨rfl, rfl, by rw [hcnt1]; omega, [g], rfl⟩
  have hfr : ∀ w, w < st.gate_counter → wv st1 inp w = wv st inp w := by
    intro w hw
    show evalW st.shift (st.gates ++ [g]) inp w = evalW st.shift st.gates inp w
    exact evalW_append_frame st.shift st.gates [g] inp hs.hwf w
      (by rw [← hs.hcounter]; exact hw)
  have hglast : st1.gates.get? (st.gate_counter - st.shift) = some g := by
    show (st.gates ++ [g]).get? (st.gate_counter - st.shift) = some g
    have hl : st.gate_counter - st.shift = st.gates.length := by
      rw [hs.hcounter]; omega
    rw [hl, List.get?_append_right (le_refl _)]
    simp
  have hvidx : wv st1 inp st.gate_counter = evalBG st inp g := by
    cases g with
    | Xor a b =>
      simp only [gateOpsLt] at hops
      have hgx := evalW_gate_xor st.shift st1.gates inp hwf1 hs.hshift
        st.gate_counter a b (by rw [hs.hcounter]; omega) hglast
      show evalW st.shift st1.gates inp st.gate_counter = _
      rw [hgx]
      show (wv st1 inp a ^^ wv st1 inp b) = _
      rw [hfr a hops.1, hfr b hops.2]
      rfl
    | And a b =>
      simp only [gateOpsLt] at hops
      have hga := evalW_gate_and st.shift st1.gates inp hwf1 hs.hshift
        st.gate_counter a b (by rw [hs.hcounter]; omega) hglast
      show evalW st.shift st1.gates inp st.gate_counter = _
      rw [hga]
      show (wv st1 inp a && wv st1 inp b) = _
      rw [hfr a hops.1, hfr b hops.2]
      rfl
  have hsound1 : Sound st1 inp := by
    refine ⟨hs.hshift, ?_, hwf1, ?_, ?_⟩
    · show st.gate_counter + 1 = st.shift + (st.gates ++ [g]).length
      rw [List.length_append, hs.hcounter]
      simp only [List.length_cons, List.length_nil]
      omega
    · intro g0 w0 hl
      simp only [hst1def, alookup] at hl
      by_cases heq : g = g0
      · rw [if_pos heq] at hl
        obtain rfl := Option.some.inj hl
        subst heq
        refine ⟨by omega, ?_, ?_⟩
        · cases g <;> simp only [gateOpsLt] at hops ⊢ <;> omega
        · rw [hvidx]
          exact (evalBG_frame inp hs hext1 g hops).symm
      · rw [if_neg heq] at hl
        obtain ⟨hb1, hb2, hb3⟩ := hs.hcache g0 w0 hl
        refine ⟨by omega, ?_, ?_⟩
        · cases g0 <;> simp only [gateOpsLt] at hb2 ⊢ <;> omega
        · rw [hfr w0 hb1, hb3]
          exact (evalBG_frame inp hs hext1 g0 hb2).symm
    · intro a0 b0 hl
      obtain ⟨hb1, hb2, hb3⟩ := hs.hneg a0 b0 hl
      refine ⟨by omega, by omega, ?_⟩
      rw [hfr a0 hb1, hfr b0 hb2, hb3]
  exact ⟨hsound1, hext1, rfl, hcnt1, hvidx, hfr⟩

/-- Specification of `push_and`: the invariant is preserved, the state only
grows, and the returned wire denotes the AND of the operands.  The proof of
the value clause justifies the contextual simplification: each operand may
be rewritten under the assumption that the other one is true. -/
theorem push_and_spec (x y : Nat) (st : CircuitBuilder) (inp : Nat → Bool)
    (hs : Sound st inp) (hx : x < st.gate_counter) (hy : y < st.gate_counter)
    (r : Nat) (st' : CircuitBuilder) (h : push_and x y st = (r, st')) :
    Sound st' inp ∧ ExtOk st st' ∧ st'.panic_gates = st.panic_gates ∧
      r < st'.gate_counter ∧
      wv st' inp r = (wv st inp x && wv st inp y) := by
  rw [push_and] at h
  set x1 := optimize_gate st x y 0 with hx1def
  set y1 := optimize_gate st y x1 0 with hy1def
  have hx1bd : x1 < st.gate_counter :=
    (optimize_bound st inp hs (2 * MAX_OPTIMIZATION_DEPTH + 1)).1 x y 0 (by omega) hx
  have hy1bd : y1 < st.gate_counter :=
    (optimize_bound st inp hs (2 * MAX_OPTIMIZATION_DEPTH + 1)).1 y x1 0 (by omega) hy
  have hA : (wv st inp x1 && wv st inp y1) = (wv st inp x && wv st inp y) := by
    rcases Bool.eq_false_or_eq_true (wv st inp y) with hyv | hyv
    · -- the second operand is true, so the first may be simplified under it
      have hxv : wv st inp x1 = wv st inp x :=
        (optimize_val st inp hs (2 * MAX_OPTIMIZATION_DEPTH + 1)).1 x y 0 (by omega) hyv
      rcases Bool.eq_false_or_eq_true (wv st inp x1) with hx1v | hx1v
      · have hyv2 : wv st inp y1 = wv st inp y :=
          (optimize_val st inp hs (2 * MAX_OPTIMIZATION_DEPTH + 1)).1 y x1 0 (by omega) hx1v
        rw [← hxv, hyv2]
      · rw [← hxv]; simp [hx1v]
    · -- the second operand is false, so both sides are false
      rcases Bool.eq_false_or_eq_true (wv st inp x1) with hx1v | hx1v
      · have hyv2 : wv st inp y1 = wv st inp y :=
          (optimize_val st inp hs (2 * MAX_OPTIMIZATION_DEPTH + 1)).1 y x1 0 (by omega) hx1v
        simp [hyv2, hyv]
      · simp [hx1v, hyv]
  cases ho : optimize_and st x1 y1 1 MAX_OPTIMIZATION_DEPTH with
  | some opt =>
    simp only [ho] at h
    obtain ⟨rfl, rfl⟩ := Prod.mk.injEq .. |>.mp h
    have hv := (optimize_val st inp hs (2 * MAX_OPTIMIZATION_DEPTH + 1)).2.2
      x1 y1 1 MAX_OPTIMIZATION_DEPTH opt (by omega) (wv_one st inp) ho
    have hbd := (optimize_bound st inp hs (2 * MAX_OPTIMIZATION_DEPTH + 1)).2.2
      x1 y1 1 MAX_OPTIMIZATION_DEPTH opt (by omega) hx1bd hy1bd ho
    refine ⟨⟨hs.hshift, hs.hcounter, hs.hwf, hs.hcache, hs.hneg⟩,
      ⟨rfl, rfl, le_refl _, [], by simp⟩, rfl, hbd, ?_⟩
    show wv st inp opt = _
    rw [hv, hA]
  | none =>
    simp only [ho] at h
    obtain ⟨rfl, rfl⟩ := Prod.mk.injEq .. |>.mp h
    obtain ⟨hsound1, hext1, hpg, hcnt1, hvidx, hfr⟩ :=
      push_raw_sound st inp hs (.And x1 y1)
        (by simp only [gateOpsLt]; exact ⟨hx1bd, hy1bd⟩) _ rfl
    refine ⟨hsound1, hext1, hpg, by rw [hcnt1]; omega, ?_⟩
    rw [hvidx]
    show (wv st inp x1 && wv st inp y1) = _
    rw [hA]

/-- `CircuitBuilder::push_not` from `circuit.rs`. -/
def push_not (x : Nat) (st : CircuitBuilder) : Nat × CircuitBuilder :=
  push_xor x 1 st

/-- `CircuitBuilder::push_or` from `circuit.rs`. -/
def push_or (x y : Nat) (st : CircuitBuilder) : Nat × CircuitBuilder :=
  let (x_xor_y, st) := push_xor x y st
  let (x_and_y, st) := push_and x y st
  push_xor x_xor_y x_and_y st

/-- `CircuitBuilder::push_eq` from `circuit.rs`. -/
def push_eq (x y : Nat) (st : CircuitBuilder) : Nat × CircuitBuilder :=
  let (x_xor_y, st) := push_xor x y st
  push_xor x_xor_y 1 st

/-- `CircuitBuilder::push_mux` from `circuit.rs`. -/
def push_mux (s x0 x1 : Nat) (st : CircuitBuilder) : Nat × CircuitBuilder :=
  if x0 = x1 then (x0, st)
  else
    let (not_s, st) := push_not s st
    let (x0_selected, st) := push_and x0 s st
    let (x1_selected, st) := push_and x1 not_s st
    push_xor x0_selected x1_selected st

/-- `CircuitBuilder::push_adder` from `circuit.rs` (two half-adders plus an
OR for the carry). -/
def push_adder (x y carry : Nat) (st : CircuitBuilder) :
    (Nat × Nat) × CircuitBuilder :=
  let (wire_u, st) := push_xor x y st
  let (wire_v, st) := push_and x y st
  let (wire_s, st) := push_xor wire_u carry st
  let (wire_w, st) := push_and wire_u carry st
  let (carry, st) := push_or wire_v wire_w st
  ((wire_s, carry), st)

theorem push_not_spec (x : Nat) (st : CircuitBuilder) (inp : Nat → Bool)
    (hs : Sound st inp) (hx : x < st.gate_counter)
    (r : Nat) (st' : CircuitBuilder) (h : push_not x st = (r, st')) :
    Sound st' inp ∧ ExtOk st st' ∧ st'.panic_gates = st.panic_gates ∧
      r < st'.gate_counter ∧
      wv st' inp r = ! wv st inp x := by
  obtain ⟨h1, h2, h3, h4, h5⟩ := push_xor_spec x 1 st inp hs hx hs.cnt2 r st' h
  refine ⟨h1, h2, h3, h4, ?_⟩
  rw [h5, wv_one, Bool.xor_true]

theorem push_or_spec (x y : Nat) (st : CircuitBuilder) (inp : Nat → Bool)
    (hs : Sound st inp) (hx : x < st.gate_counter) (hy : y < st.gate_counter)
    (r : Nat) (st' : CircuitBuilder) (h : push_or x y st = (r, st')) :
    Sound st' inp ∧ ExtOk st st' ∧ st'.panic_gates = st.panic_gates ∧
      r < st'.gate_counter ∧
      wv st' inp r = (wv st inp x || wv st inp y) := by
  rw [push_or] at h
  rcases hq1 : push_xor x y st with ⟨r1, st1⟩
  simp only [hq1] at h
  obtain ⟨hs1, he1, hp1, hr1, hv1⟩ := push_xor_spec x y st inp hs hx hy r1 st1 hq1
  have hx1 : x < st1.gate_counter := lt_of_lt_of_le hx he1.2.2.1
  have hy1 : y < st1.gate_counter := lt_of_lt_of_le hy he1.2.2.1
  rcases hq2 : push_and x y st1 with ⟨r2, st2⟩
  simp only [hq2] at h
  obtain ⟨hs2, he2, hp2, hr2, hv2⟩ := push_and_spec x y st1 inp hs1 hx1 hy1 r2 st2 hq2
  have hr12 : r1 < st2.gate_counter := lt_of_lt_of_le hr1 he2.2.2.1
  obtain ⟨hs3, he3, hp3, hr3, hv3⟩ := push_xor_spec r1 r2 st2 inp hs2 hr12 hr2 r st' h
  refine ⟨hs3, (he1.trans he2).trans he3, by rw [hp3, hp2, hp1], hr3, ?_⟩
  rw [hv3, wv_frame inp hs1 he2 r1 hr1, hv1, hv2,
    wv_frame inp hs he1 x hx, wv_frame inp hs he1 y hy]
  cases wv st inp x <;> cases wv st inp y <;> rfl

theorem push_eq_spec (x y : Nat) (st : CircuitBuilder) (inp : Nat → Bool)
    (hs : Sound st inp) (hx : x < st.gate_counter) (hy : y < st.gate_counter)
    (r : Nat) (st' : CircuitBuilder) (h : push_eq x y st = (r, st')) :
    Sound st' inp ∧ ExtOk st st' ∧ st'.panic_gates = st.panic_gates ∧
      r < st'.gate_counter ∧
      wv st' inp r = ! (wv st inp x ^^ wv st inp y) := by
  rw [push_eq] at h
  rcases hq1 : push_xor x y st with ⟨r1, st1⟩
  simp only [hq1] at h
  obtain ⟨hs1, he1, hp1, hr1, hv1⟩ := push_xor_spec x y st inp hs hx hy r1 st1 hq1
  obtain ⟨hs2, he2, hp2, hr2, hv2⟩ := push_xor_spec r1 1 st1 inp hs1 hr1 hs1.cnt2 r st' h
  refine ⟨hs2, he1.trans he2, by rw [hp2, hp1], hr2, ?_⟩
  rw [hv2, hv1, wv_one, Bool.xor_true]

theorem push_mux_spec (s x0 x1 : Nat) (st : CircuitBuilder) (inp : Nat → Bool)
    (hs : Sound st inp) (hsel : s < st.gate_counter)
    (hx0 : x0 < st.gate_counter) (hx1 : x1 < st.gate_counter)
    (r : Nat) (st' : CircuitBuilder) (h : push_mux s x0 x1 st = (r, st')) :
    Sound st' inp ∧ ExtOk st st' ∧ st'.panic_gates = st.panic_gates ∧
      r < st'.gate_counter ∧
      wv st' inp r = (if wv st inp s then wv st inp x0 else wv st inp x1) := by
  rw [push_mux] at h
  by_cases heq : x0 = x1
  · rw [if_pos heq] at h
    obtain ⟨rfl, rfl⟩ := Prod.mk.injEq .. |>.mp h
    refine ⟨hs, ExtOk.refl st, rfl, hx0, ?_⟩
    subst heq
    cases wv st inp s <;> simp
  · rw [if_neg heq] at h
    rcases hq1 : push_not s st with ⟨ns, st1⟩
    simp only [hq1] at h
    obtain ⟨hs1, he1, hp1, hr1, hv1⟩ := push_not_spec s st inp hs hsel ns st1 hq1
    have hx0a : x0 < st1.gate_counter := lt_of_lt_of_le hx0 he1.2.2.1
    have hx1a : x1 < st1.gate_counter := lt_of_lt_of_le hx1 he1.2.2.1
    have hsa : s < st1.gate_counter := lt_of_lt_of_le hsel he1.2.2.1
    rcases hq2 : push_and x0 s st1 with ⟨sel0, st2⟩
    simp only [hq2] at h
    obtain ⟨hs2, he2, hp2, hr2, hv2⟩ := push_and_spec x0 s st1 inp hs1 hx0a hsa sel0 st2 hq2
    have hx1b : x1 < st2.gate_counter := lt_of_lt_of_le hx1a he2.2.2.1
    have hnsb : ns < st2.gate_counter := lt_of_lt_of_le hr1 he2.2.2.1
    rcases hq3 : push_and x1 ns st2 with ⟨sel1, st3⟩
    simp only [hq3] at h
    obtain ⟨hs3, he3, hp3, hr3, hv3⟩ := push_and_spec x1 ns st2 inp hs2 hx1b hnsb sel1 st3 hq3
    have hsel0c : sel0 < st3.gate_counter := lt_of_lt_of_le hr2 he3.2.2.1
    obtain ⟨hs4, he4, hp4, hr4, hv4⟩ :=
      push_xor_spec sel0 sel1 st3 inp hs3 hsel0c hr3 r st' h
    refine ⟨hs4, ((he1.trans he2).trans he3).trans he4,
      by rw [hp4, hp3, hp2, hp1], hr4, ?_⟩
    have ha : wv st3 inp sel0 = (wv st inp x0 && wv st inp s) := by
      rw [wv_frame inp hs2 he3 sel0 hr2, hv2,
        wv_frame inp hs he1 x0 hx0, wv_frame inp hs he1 s hsel]
    have hb : wv st3 inp sel1 = (wv st inp x1 && ! wv st inp s) := by
      rw [hv3, wv_frame inp hs1 he2 x1 hx1a, wv_frame inp hs he1 x1 hx1,
        wv_frame inp hs1 he2 ns hr1, hv1]
    rw [hv4, ha, hb]
    cases wv st inp s <;> cases wv st inp x0 <;> cases wv st inp x1 <;> rfl

/-- Specification of `push_adder`: the sum and carry wires satisfy the
full-adder arithmetic identity. -/
theorem push_adder_spec (x y carry : Nat) (st : CircuitBuilder) (inp : Nat → Bool)
    (hs : Sound st inp) (hx : x < st.gate_counter) (hy : y < st.gate_counter)
    (hc : carry < st.gate_counter)
    (s c : Nat) (st' : CircuitBuilder) (h : push_adder x y carry st = ((s, c), st')) :
    Sound st' inp ∧ ExtOk st st' ∧ st'.panic_gates = st.panic_gates ∧
      s < st'.gate_counter ∧ c < st'.gate_counter ∧
      (wv st' inp s).toNat + 2 * (wv st' inp c).toNat =
        (wv st inp x).toNat + (wv st inp y).toNat + (wv st inp carry).toNat := by
  rw [push_adder] at h
  rcases hq1 : push_xor x y st with ⟨u, st1⟩
  simp only [hq1] at h
  obtain ⟨hs1, he1, hp1, hr1, hv1⟩ := push_xor_spec x y st inp hs hx hy u st1 hq1
  have hxa : x < st1.gate_counter := lt_of_lt_of_le hx he1.2.2.1
  have hya : y < st1.gate_counter := lt_of_lt_of_le hy he1.2.2.1
  have hca : carry < st1.gate_counter := lt_of_lt_of_le hc he1.2.2.1
  rcases hq2 : push_and x y st1 with ⟨v, st2⟩
  simp only [hq2] at h
  obtain ⟨hs2, he2, hp2, hr2, hv2⟩ := push_and_spec x y st1 inp hs1 hxa hya v st2 hq2
  have hub : u < st2.gate_counter := lt_of_lt_of_le hr1 he2.2.2.1
  have hcb : carry < st2.gate_counter := lt_of_lt_of_le hca he2.2.2.1
  rcases hq3 : push_xor u carry st2 with ⟨s0, st3⟩
  simp only [hq3] at h
  obtain ⟨hs3, he3, hp3, hr3, hv3⟩ := push_xor_spec u carry st2 inp hs2 hub hcb s0 st3 hq3
  have huc : u < st3.gate_counter := lt_of_lt_of_le hub he3.2.2.1
  have hcc : carry < st3.gate_counter := lt_of_lt_of_le hcb he3.2.2.1
  rcases hq4 : push_and u carry st3 with ⟨w, st4⟩
  simp only [hq4] at h
  obtain ⟨hs4, he4, hp4, hr4, hv4⟩ := push_and_spec u carry st3 inp hs3 huc hcc w st4 hq4
  have hvd : v < st4.gate_counter :=
    lt_of_lt_of_le hr2 (le_trans he3.2.2.1 he4.2.2.1)
  rcases hq5 : push_or v w st4 with ⟨co, st5⟩
  simp only [hq5] at h
  obtain ⟨hs5, he5, hp5, hr5, hv5⟩ := push_or_spec v w st4 inp hs4 hvd hr4 co st5 hq5
  obtain ⟨hsc, rfl⟩ := Prod.mk.injEq .. |>.mp h
  obtain ⟨rfl, rfl⟩ := Prod.mk.injEq .. |>.mp hsc
  have hs0d : s0 < st4.gate_counter := lt_of_lt_of_le hr3 he4.2.2.1
  refine ⟨hs5, (((he1.trans he2).trans he3).trans he4).trans he5,
    by rw [hp5, hp4, hp3, hp2, hp1], lt_of_lt_of_le hs0d he5.2.2.1, hr5, ?_⟩
  -- compute all wire values down to the original operands
  have hvv : wv st2 inp v = (wv st inp x && wv st inp y) := by
    rw [hv2, wv_frame inp hs he1 x hx, wv_frame inp hs he1 y hy]
  have hvs0 : wv st3 inp s0 = ((wv st inp x ^^ wv st inp y) ^^ wv st inp carry) := by
    rw [hv3, wv_frame inp hs1 he2 u hr1, hv1,
      wv_frame inp hs1 he2 carry hca, wv_frame inp hs he1 carry hc]
  have hvw : wv st4 inp w = ((wv st inp x ^^ wv st inp y) && wv st inp carry) := by
    rw [hv4, wv_frame inp hs2 he3 u hub, wv_frame inp hs1 he2 u hr1, hv1,
      wv_frame inp hs2 he3 carry hcb, wv_frame inp hs1 he2 carry hca,
      wv_frame inp hs he1 carry hc]
  have hvco : wv st5 inp co =
      ((wv st inp x && wv st inp y) || ((wv st inp x ^^ wv st inp y) && wv st inp carry)) := by
    rw [hv5, wv_frame inp hs3 he4 v (lt_of_lt_of_le hr2 he3.2.2.1),
      wv_frame inp hs2 he3 v hr2, hvv, hvw]
  have hvs0f : wv st5 inp s0 = ((wv st inp x ^^ wv st inp y) ^^ wv st inp carry) := by
    rw [wv_frame inp hs4 he5 s0 hs0d, wv_frame inp hs3 he4 s0 hr3, hvs0]
  rw [hvs0f, hvco]
  cases wv st inp x <;> cases wv st inp y <;> cases wv st inp carry <;> rfl
/-! ## Wire-vector kernels (`circuit.rs`) -/

/-- All wires of a list are allocated (below the gate counter bound). -/
def BddL (ws : List Nat) (n : Nat) : Prop := ∀ w ∈ ws, w < n

/-- The bit values denoted by a wire vector. -/
def valsL (st : CircuitBuilder) (inp : Nat → Bool) (ws : List Nat) : List Bool :=
  ws.map (wv st inp)

theorem BddL.mono {ws : List Nat} {n m : Nat} (h : BddL ws n) (hnm : n ≤ m) :
    BddL ws m := fun w hw => lt_of_lt_of_le (h w hw) hnm

theorem BddL.nil (n : Nat) : BddL [] n := fun w hw => absurd hw (List.not_mem_nil w)

theorem BddL.cons {w : Nat} {ws : List Nat} {n : Nat} (hw : w < n) (h : BddL ws n) :
    BddL (w :: ws) n := by
  intro a ha
  rcases List.mem_cons.mp ha with rfl | ha
  · exact hw
  · exact h a ha

theorem BddL.head {w : Nat} {ws : List Nat} {n : Nat} (h : BddL (w :: ws) n) : w < n :=
  h w (List.mem_cons_self w ws)

theorem BddL.tail {w : Nat} {ws : List Nat} {n : Nat} (h : BddL (w :: ws) n) : BddL ws n :=
  fun a ha => h a (List.mem_cons_of_mem w ha)

theorem valsL_nil (st : CircuitBuilder) (inp : Nat → Bool) : valsL st inp [] = [] := rfl

theorem valsL_cons (st : CircuitBuilder) (inp : Nat → Bool) (w : Nat) (ws : List Nat) :
    valsL st inp (w :: ws) = wv st inp w :: valsL st inp ws := rfl

theorem valsL_length (st : CircuitBuilder) (inp : Nat → Bool) (ws : List Nat) :
    (valsL st inp ws).length = ws.length := List.length_map ws (wv st inp)

theorem valsL_frame {st st' : CircuitBuilder} (inp : Nat → Bool) (hs : Sound st inp)
    (he : ExtOk st st') {ws : List Nat} (hb : BddL ws st.gate_counter) :
    valsL st' inp ws = valsL st inp ws := by
  induction ws with
  | nil => rfl
  | cons w ws ih =>
    rw [valsL_cons, valsL_cons, wv_frame inp hs he w hb.head, ih hb.tail]

/-- The ripple chain of `CircuitBuilder::push_addition_circuit` (the loop
`for i in (0..bits).rev()`), processing the least-significant (last) wires
first; returns the sum bits, the final carry and the previous carry. -/
def push_addition_rec (x y : List Nat) (carry : Nat) (st : CircuitBuilder) :
    (List Nat × Nat × Nat) × CircuitBuilder :=
  match x, y with
  | x0 :: xs, y0 :: ys =>
    let ((sumT, c, _), st) := push_addition_rec xs ys carry st
    let ((s, c2), st) := push_adder x0 y0 c st
    ((s :: sumT, c2, c), st)
  | _, _ => (([], carry, 0), st)

/-- `CircuitBuilder::push_addition_circuit` from `circuit.rs`. -/
def push_addition_circuit (x y : List Nat) (st : CircuitBuilder) :
    (List Nat × Nat × Nat) × CircuitBuilder :=
  push_addition_rec x y 0 st

theorem add_step_arith (P S_T X_T Y_T As Bc Ax Ay Ac Ac0 : Nat)
    (h1 : As + 2 * Bc = Ax + Ay + Ac)
    (h2 : S_T + P * Ac = X_T + Y_T + Ac0) :
    As * P + S_T + P * 2 * Bc = Ax * P + X_T + (Ay * P + Y_T) + Ac0 := by
  calc As * P + S_T + P * 2 * Bc
      = P * (As + 2 * Bc) + S_T := by ring
    _ = P * (Ax + Ay + Ac) + S_T := by rw [h1]
    _ = Ax * P + Ay * P + (S_T + P * Ac) := by ring
    _ = Ax * P + Ay * P + (X_T + Y_T + Ac0) := by rw [h2]
    _ = Ax * P + X_T + (Ay * P + Y_T) + Ac0 := by ring

/-- Specification of the ripple-carry chain: MSB-first decoding of the sum
plus the weighted carry equals the sum of the decoded operands and the
carry-in. -/
theorem push_addition_rec_spec :
    ∀ (x y : List Nat) (carry : Nat) (st : CircuitBuilder) (inp : Nat → Bool),
      Sound st inp → x.length = y.length →
      BddL x st.gate_counter → BddL y st.gate_counter → carry < st.gate_counter →
      ∀ sum c cPrev st',
        push_addition_rec x y carry st = ((sum, c, cPrev), st') →
        Sound st' inp ∧ ExtOk st st' ∧ st'.panic_gates = st.panic_gates ∧
          sum.length = x.length ∧ BddL sum st'.gate_counter ∧
          c < st'.gate_counter ∧
          wires_as_unsigned (valsL st' inp sum) +
              2 ^ x.length * (wv st' inp c).toNat =
            wires_as_unsigned (valsL st inp x) + wires_as_unsigned (valsL st inp y) +
              (wv st inp carry).toNat := by
  intro x
  induction x with
  | nil =>
    intro y carry st inp hs hlen hbx hby hc sum c cPrev st' h
    match y, hlen with
    | [], _ =>
      simp only [push_addition_rec, Prod.mk.injEq] at h
      obtain ⟨⟨rfl, rfl, rfl⟩, rfl⟩ := h
      refine ⟨hs, ExtOk.refl st, rfl, rfl, BddL.nil _, hc, ?_⟩
      simp [valsL_nil, wires_as_unsigned_nil]
  | cons x0 xs ih =>
    intro y carry st inp hs hlen hbx hby hc sum c cPrev st' h
    match y, hlen with
    | y0 :: ys, hlen =>
      have hlen' : xs.length = ys.length := by
        simpa using hlen
      rw [push_addition_rec] at h
      rcases hq1 : push_addition_rec xs ys carry st with ⟨⟨sumT, c1, cP1⟩, st1⟩
      simp only [hq1] at h
      obtain ⟨hs1, he1, hp1, hlenT, hbT, hc1, heq1⟩ :=
        ih ys carry st inp hs hlen' hbx.tail hby.tail hc sumT c1 cP1 st1 hq1
      have hx0 : x0 < st1.gate_counter := lt_of_lt_of_le hbx.head he1.2.2.1
      have hy0 : y0 < st1.gate_counter := lt_of_lt_of_le hby.head he1.2.2.1
      rcases hq2 : push_adder x0 y0 c1 st1 with ⟨⟨s, c2⟩, st2⟩
      simp only [hq2] at h
      obtain ⟨hs2, he2, hp2, hsb, hcb, heq2⟩ :=
        push_adder_spec x0 y0 c1 st1 inp hs1 hx0 hy0 hc1 s c2 st2 hq2
      obtain ⟨h1, h2⟩ := Prod.mk.injEq .. |>.mp h
      subst h2
      obtain ⟨h3, h4⟩ := Prod.mk.injEq .. |>.mp h1
      subst h3
      obtain ⟨h5, h6⟩ := Prod.mk.injEq .. |>.mp h4
      subst h5
      subst h6
      refine ⟨hs2, he1.trans he2, by rw [hp2, hp1], by simp [hlenT],
        BddL.cons hsb (hbT.mono he2.2.2.1), hcb, ?_⟩
      rw [valsL_cons, wires_as_unsigned_cons,
        valsL_frame inp hs1 he2 hbT, valsL_length, hlenT,
        valsL_cons, valsL_cons, wires_as_unsigned_cons, wires_as_unsigned_cons,
        valsL_length, valsL_length, List.length_cons, hlen']
      have heq2' : (wv st2 inp s).toNat + 2 * (wv st2 inp c2).toNat =
          (wv st inp x0).toNat + (wv st inp y0).toNat + (wv st1 inp c1).toNat := by
        rw [heq2, wv_frame inp hs he1 x0 hbx.head, wv_frame inp hs he1 y0 hby.head]
      have hstep := add_step_arith (2 ^ ys.length)
        (wires_as_unsigned (valsL st1 inp sumT))
        (wires_as_unsigned (valsL st inp xs))
        (wires_as_unsigned (valsL st inp ys))
        (wv st2 inp s).toNat (wv st2 inp c2).toNat
        (wv st inp x0).toNat (wv st inp y0).toNat
        (wv st1 inp c1).toNat (wv st inp carry).toNat
        heq2' (by rw [← hlen']; exact heq1)
      calc (wv st2 inp s).toNat * 2 ^ ys.length +
            wires_as_unsigned (valsL st1 inp sumT) +
            2 ^ (ys.length + 1) * (wv st2 inp c2).toNat
          = (wv st2 inp s).toNat * 2 ^ ys.length +
            wires_as_unsigned (valsL st1 inp sumT) +
            2 ^ ys.length * 2 * (wv st2 inp c2).toNat := by rw [pow_succ]
        _ = (wv st inp x0).toNat * 2 ^ ys.length +
            wires_as_unsigned (valsL st inp xs) +
            ((wv st inp y0).toNat * 2 ^ ys.length +
              wires_as_unsigned (valsL st inp ys)) +
            (wv st inp carry).toNat := hstep

/-- The half-adder chain of `CircuitBuilder::push_negation_circuit` (the
loop `for i in (0..x.len()).rev()` with initial carry 1), processing the
least-significant (last) wires first; returns the negated bits and the final
carry. -/
def push_negation_rec (x : List Nat) (st : CircuitBuilder) :
    (List Nat × Nat) × CircuitBuilder :=
  match x with
  | [] => (([], 1), st)
  | x0 :: xs =>
    let ((negT, carry), st) := push_negation_rec xs st
    let (nx, st) := push_not x0 st
    let (z, st) := push_xor carry nx st
    let (c2, st) := push_and carry nx st
    ((z :: negT, c2), st)

/-- `CircuitBuilder::push_negation_circuit` from `circuit.rs` (flip the bits
and add one). -/
def push_negation_circuit (x : List Nat) (st : CircuitBuilder) :
    List Nat × CircuitBuilder :=
  let ((neg, _), st) := push_negation_rec x st
  (neg, st)

theorem neg_bit_arith (c x : Bool) :
    (c ^^ !x).toNat + 2 * (c && !x).toNat + x.toNat = c.toNat + 1 := by
  cases c <;> cases x <;> rfl

theorem neg_step_arith (P NT XT Az Ac2 Ax0 Ac1 : Nat)
    (h1 : Az + 2 * Ac2 + Ax0 = Ac1 + 1)
    (h2 : NT + P * Ac1 + XT = P) :
    Az * P + NT + P * 2 * Ac2 + (Ax0 * P + XT) = P * 2 := by
  calc Az * P + NT + P * 2 * Ac2 + (Ax0 * P + XT)
      = P * (Az + 2 * Ac2 + Ax0) + (NT + XT) := by ring
    _ = P * (Ac1 + 1) + (NT + XT) := by rw [h1]
    _ = (NT + P * Ac1 + XT) + P := by ring
    _ = P + P := by rw [h2]
    _ = P * 2 := by ring

/-- Specification of the negation chain: it computes the two's complement of
its input (as an `n`-bit value plus a final carry). -/
theorem push_negation_rec_spec :
    ∀ (x : List Nat) (st : CircuitBuilder) (inp : Nat → Bool),
      Sound st inp → BddL x st.gate_counter →
      ∀ neg c st', push_negation_rec x st = ((neg, c), st') →
        Sound st' inp ∧ ExtOk st st' ∧ st'.panic_gates = st.panic_gates ∧
          neg.length = x.length ∧ BddL neg st'.gate_counter ∧
          c < st'.gate_counter ∧
          wires_as_unsigned (valsL st' inp neg) +
              2 ^ x.length * (wv st' inp c).toNat +
              wires_as_unsigned (valsL st inp x) = 2 ^ x.length := by
  intro x
  induction x with
  | nil =>
    intro st inp hs hb neg c st' h
    simp only [push_negation_rec, Prod.mk.injEq] at h
    obtain ⟨⟨rfl, rfl⟩, rfl⟩ := h
    refine ⟨hs, ExtOk.refl st, rfl, rfl, BddL.nil _, hs.cnt2, ?_⟩
    simp [valsL_nil, wires_as_unsigned_nil, wv_one]
  | cons x0 xs ih =>
    intro st inp hs hb neg c st' h
    rw [push_negation_rec] at h
    rcases hq1 : push_negation_rec xs st with ⟨⟨negT, c1⟩, st1⟩
    simp only [hq1] at h
    obtain ⟨hs1, he1, hp1, hlenT, hbT, hc1, heq1⟩ :=
      ih st inp hs hb.tail negT c1 st1 hq1
    have hx0 : x0 < st1.gate_counter := lt_of_lt_of_le hb.head he1.2.2.1
    rcases hq2 : push_not x0 st1 with ⟨nx, st2⟩
    simp only [hq2] at h
    obtain ⟨hs2, he2, hp2, hnx, hvnx⟩ := push_not_spec x0 st1 inp hs1 hx0 nx st2 hq2
    have hc1b : c1 < st2.gate_counter := lt_of_lt_of_le hc1 he2.2.2.1
    rcases hq3 : push_xor c1 nx st2 with ⟨z, st3⟩
    simp only [hq3] at h
    obtain ⟨hs3, he3, hp3, hz, hvz⟩ := push_xor_spec c1 nx st2 inp hs2 hc1b hnx z st3 hq3
    have hc1c : c1 < st3.gate_counter := lt_of_lt_of_le hc1b he3.2.2.1
    have hnxc : nx < st3.gate_counter := lt_of_lt_of_le hnx he3.2.2.1
    rcases hq4 : push_and c1 nx st3 with ⟨c2, st4⟩
    simp only [hq4] at h
    obtain ⟨hs4, he4, hp4, hc2, hvc2⟩ := push_and_spec c1 nx st3 inp hs3 hc1c hnxc c2 st4 hq4
    obtain ⟨h1, h2⟩ := Prod.mk.injEq .. |>.mp h
    subst h2
    obtain ⟨h3, h4⟩ := Prod.mk.injEq .. |>.mp h1
    subst h3
    subst h4
    refine ⟨hs4, ((he1.trans he2).trans he3).trans he4,
      by rw [hp4, hp3, hp2, hp1], by simp [hlenT],
      BddL.cons (lt_of_lt_of_le hz he4.2.2.1)
        (hbT.mono (le_trans he2.2.2.1 (le_trans he3.2.2.1 he4.2.2.1))), hc2, ?_⟩
    -- compute the values of the fresh wires in terms of the original ones
    have hvnx1 : wv st2 inp nx = ! wv st inp x0 := by
      rw [hvnx, wv_frame inp hs he1 x0 hb.head]
    have hvz4 : wv st4 inp z = (wv st1 inp c1 ^^ ! wv st inp x0) := by
      rw [wv_frame inp hs3 he4 z hz, hvz, hvnx1, wv_frame inp hs1 he2 c1 hc1]
    have hvc24 : wv st4 inp c2 = (wv st1 inp c1 && ! wv st inp x0) := by
      rw [hvc2, wv_frame inp hs2 he3 nx hnx, hvnx1,
        wv_frame inp hs2 he3 c1 hc1b, wv_frame inp hs1 he2 c1 hc1]
    have hbit := neg_bit_arith (wv st1 inp c1) (wv st inp x0)
    rw [valsL_cons, wires_as_unsigned_cons, valsL_length, hlenT,
      valsL_frame inp hs1 (he2.trans (he3.trans he4)) hbT,
      valsL_cons, wires_as_unsigned_cons, valsL_length, List.length_cons,
      hvz4, hvc24]
    exact neg_step_arith (2 ^ xs.length)
      (wires_as_unsigned (valsL st1 inp negT))
      (wires_as_unsigned (valsL st inp xs))
      (wv st1 inp c1 ^^ ! wv st inp x0).toNat
      (wv st1 inp c1 && ! wv st inp x0).toNat
      (wv st inp x0).toNat (wv st1 inp c1).toNat
      hbit heq1

/-- Value form of the negation-chain specification: the negated bits decode
to `(2 ^ n - x) mod 2 ^ n`. -/
theorem push_negation_rec_value (x : List Nat) (st : CircuitBuilder) (inp : Nat → Bool)
    (hs : Sound st inp) (hb : BddL x st.gate_counter)
    (neg : List Nat) (c : Nat) (st' : CircuitBuilder)
    (h : push_negation_rec x st = ((neg, c), st')) :
    wires_as_unsigned (valsL st' inp neg) =
      (2 ^ x.length - wires_as_unsigned (valsL st inp x)) % 2 ^ x.length := by
  obtain ⟨hs', he', hp', hlen, hbn, hc, heq⟩ :=
    push_negation_rec_spec x st inp hs hb neg c st' h
  have hNlt : wires_as_unsigned (valsL st' inp neg) < 2 ^ x.length := by
    have := wires_as_unsigned_lt (valsL st' inp neg)
    rwa [valsL_length, hlen] at this
  have hXlt : wires_as_unsigned (valsL st inp x) < 2 ^ x.length := by
    have := wires_as_unsigned_lt (valsL st inp x)
    rwa [valsL_length] at this
  rcases Nat.eq_zero_or_pos (wires_as_unsigned (valsL st inp x)) with hX | hX
  · rw [hX, Nat.sub_zero, Nat.mod_self]
    rw [hX] at heq
    rcases Bool.eq_false_or_eq_true (wv st' inp c) with hcv | hcv <;>
      rw [hcv] at heq <;>
      simp only [Bool.toNat_true, Bool.toNat_false, Nat.mul_one, Nat.mul_zero] at heq <;>
      omega
  · rw [Nat.mod_eq_of_lt (by omega)]
    rcases Bool.eq_false_or_eq_true (wv st' inp c) with hcv | hcv <;>
      rw [hcv] at heq <;>
      simp only [Bool.toNat_true, Bool.toNat_false, Nat.mul_one, Nat.mul_zero] at heq <;>
      omega

/-- `CircuitBuilder::push_subtraction_circuit` from `circuit.rs`: negate `y`
over `n + 1` bits (the top negated bit comes from the constant-true wire),
add to the `n + 1`-bit zero-extension of `x`, and return the low `n` bits
together with the sign (borrow) bit. -/
def push_subtraction_circuit (x y : List Nat) (st : CircuitBuilder) :
    (List Nat × Nat) × CircuitBuilder :=
  let ((zs, carry), st) := push_negation_rec y st
  let (z0, st) := push_xor carry 1 st
  let (_c, st) := push_and carry 1 st
  let ((sum_extended, _, _), st) := push_addition_circuit (0 :: x) (z0 :: zs) st
  ((sum_extended.tail, sum_extended.headD 0), st)

theorem sub_mod_lemma (X Y P : Nat) (hX : X < P) (hY : Y < P) :
    (X + P - Y) % P = if Y ≤ X then X - Y else X + P - Y := by
  by_cases h : Y ≤ X
  · rw [if_pos h]
    have hsplit : X + P - Y = (X - Y) + P := by omega
    rw [hsplit, Nat.add_mod_right, Nat.mod_eq_of_lt (by omega)]
  · rw [if_neg h, Nat.mod_eq_of_lt (by omega)]

theorem Bool.toNat_not_eq (b : Bool) : (!b).toNat = 1 - b.toNat := by
  cases b <;> rfl

theorem sub_arith_master (P X Y ZS R c1 co b : Nat)
    (hX : X < P) (hY : Y < P) (hR : R < P)
    (hc1 : c1 ≤ 1) (hco : co ≤ 1) (hb : b ≤ 1)
    (hneg : ZS + P * c1 + Y = P)
    (hadd : b * P + R + P * 2 * co = X + ((1 - c1) * P + ZS)) :
    R = (X + P - Y) % P ∧ (b = 1 ↔ X < Y) := by
  constructor
  · rw [sub_mod_lemma X Y P hX hY]
    by_cases hxy : Y ≤ X
    · rw [if_pos hxy]
      interval_cases c1 <;> interval_cases co <;> interval_cases b <;> omega
    · rw [if_neg hxy]
      interval_cases c1 <;> interval_cases co <;> interval_cases b <;> omega
  · interval_cases c1 <;> interval_cases co <;> interval_cases b <;>
      (constructor <;> intro h0 <;> omega)

/-- Unfolding equation for `push_subtraction_circuit` in terms of its
intermediate results. -/
theorem push_subtraction_circuit_eq (x y : List Nat) (st : CircuitBuilder)
    (zs : List Nat) (c1 : Nat) (st1 : CircuitBuilder)
    (hq1 : push_negation_rec y st = ((zs, c1), st1))
    (z0 : Nat) (st2 : CircuitBuilder) (hq2 : push_xor c1 1 st1 = (z0, st2))
    (cd : Nat) (st3 : CircuitBuilder) (hq3 : push_and c1 1 st2 = (cd, st3))
    (sumExt : List Nat) (co cp : Nat) (st4 : CircuitBuilder)
    (hq4 : push_addition_circuit (0 :: x) (z0 :: zs) st3 = ((sumExt, co, cp), st4)) :
    push_subtraction_circuit x y st = ((sumExt.tail, sumExt.headD 0), st4) := by
  rw [push_subtraction_circuit, hq1]
  show (match push_xor c1 1 st1 with
    | (z0, st) =>
      match push_and c1 1 st with
      | (_c, st) =>
        match push_addition_circuit (0 :: x) (z0 :: zs) st with
        | ((sum_extended, _, _), st) => ((sum_extended.tail, sum_extended.headD 0), st)) =
    ((sumExt.tail, sumExt.headD 0), st4)
  rw [hq2]
  show (match push_and c1 1 st2 with
    | (_c, st) =>
      match push_addition_circuit (0 :: x) (z0 :: zs) st with
      | ((sum_extended, _, _), st) => ((sum_extended.tail, sum_extended.headD 0), st)) =
    ((sumExt.tail, sumExt.headD 0), st4)
  rw [hq3]
  show (match push_addition_circuit (0 :: x) (z0 :: zs) st3 with
    | ((sum_extended, _, _), st) => ((sum_extended.tail, sum_extended.headD 0), st)) =
    ((sumExt.tail, sumExt.headD 0), st4)
  rw [hq4]

/-- Specification of `push_subtraction_circuit`: the difference bits decode
to `(x + 2 ^ n - y) mod 2 ^ n` and the returned sign wire is set iff the
subtraction borrows (i.e. `x < y`). -/
theorem push_subtraction_circuit_spec (x y : List Nat) (st : CircuitBuilder)
    (inp : Nat → Bool) (hs : Sound st inp) (hlen : x.length = y.length)
    (hbx : BddL x st.gate_counter) (hby : BddL y st.gate_counter)
    (diff : List Nat) (sign : Nat) (st' : CircuitBuilder)
    (h : push_subtraction_circuit x y st = ((diff, sign), st')) :
    Sound st' inp ∧ ExtOk st st' ∧ st'.panic_gates = st.panic_gates ∧
      diff.length = x.length ∧ BddL diff st'.gate_counter ∧
      sign < st'.gate_counter ∧
      wires_as_unsigned (valsL st' inp diff) =
        (wires_as_unsigned (valsL st inp x) + 2 ^ x.length -
          wires_as_unsigned (valsL st inp y)) % 2 ^ x.length ∧
      wv st' inp sign =
        decide (wires_as_unsigned (valsL st inp x) < wires_as_unsigned (valsL st inp y)) := by
  rcases hq1 : push_negation_rec y st with ⟨⟨zs, c1⟩, st1⟩
  obtain ⟨hs1, he1, hp1, hlenZ, hbZ, hc1, heqN⟩ :=
    push_negation_rec_spec y st inp hs hby zs c1 st1 hq1
  rcases hq2 : push_xor c1 1 st1 with ⟨z0, st2⟩
  obtain ⟨hs2, he2, hp2, hz0, hvz0⟩ :=
    push_xor_spec c1 1 st1 inp hs1 hc1 hs1.cnt2 z0 st2 hq2
  rcases hq3 : push_and c1 1 st2 with ⟨cdead, st3⟩
  obtain ⟨hs3, he3, hp3, hcd, hvcd⟩ :=
    push_and_spec c1 1 st2 inp hs2 (lt_of_lt_of_le hc1 he2.2.2.1) hs2.cnt2 cdead st3 hq3
  have hbx3 : BddL (0 :: x) st3.gate_counter :=
    BddL.cons (lt_of_lt_of_le hs.cnt_pos
        (le_trans he1.2.2.1 (le_trans he2.2.2.1 he3.2.2.1)))
      (hbx.mono (le_trans he1.2.2.1 (le_trans he2.2.2.1 he3.2.2.1)))
  have hbz3 : BddL (z0 :: zs) st3.gate_counter :=
    BddL.cons (lt_of_lt_of_le hz0 he3.2.2.1)
      (hbZ.mono (le_trans he2.2.2.1 he3.2.2.1))
  have hlen3 : (0 :: x).length = (z0 :: zs).length := by
    simp [hlenZ, hlen]
  rcases hq4 : push_addition_circuit (0 :: x) (z0 :: zs) st3 with ⟨⟨sumExt, co, cp⟩, st4⟩
  have hq4r : push_addition_rec (0 :: x) (z0 :: zs) 0 st3 = ((sumExt, co, cp), st4) := hq4
  obtain ⟨hs4, he4, hp4, hlenS, hbS, hco, heqA⟩ :=
    push_addition_rec_spec (0 :: x) (z0 :: zs) 0 st3 inp hs3 hlen3 hbx3 hbz3
      (lt_of_lt_of_le hs.cnt_pos
        (le_trans he1.2.2.1 (le_trans he2.2.2.1 he3.2.2.1)))
      sumExt co cp st4 hq4r
  rw [push_subtraction_circuit_eq x y st zs c1 st1 hq1 z0 st2 hq2 cdead st3 hq3
    sumExt co cp st4 hq4] at h
  obtain ⟨h1, h2⟩ := Prod.mk.injEq .. |>.mp h
  subst h2
  obtain ⟨h3, h4⟩ := Prod.mk.injEq .. |>.mp h1
  subst h3
  subst h4
  -- the extended sum has length n + 1, so it has a head and a tail
  match sumExt, hlenS, hbS, heqA with
  | b :: rest, hlenS, hbS, heqA =>
    have hlenR : rest.length = x.length := by simpa using hlenS
    have heS : ExtOk st st4 :=
      ((he1.trans he2).trans he3).trans he4
    have hXlt : wires_as_unsigned (valsL st inp x) < 2 ^ x.length := by
      have := wires_as_unsigned_lt (valsL st inp x)
      rwa [valsL_length] at this
    have hYlt : wires_as_unsigned (valsL st inp y) < 2 ^ x.length := by
      have := wires_as_unsigned_lt (valsL st inp y)
      rwa [valsL_length, ← hlen] at this
    have hRlt : wires_as_unsigned (valsL st4 inp rest) < 2 ^ x.length := by
      have := wires_as_unsigned_lt (valsL st4 inp rest)
      rwa [valsL_length, hlenR] at this
    -- value of the top negated bit
    have hvz03 : wv st3 inp z0 = ! wv st1 inp c1 := by
      rw [wv_frame inp hs2 he3 z0 hz0, hvz0, wv_one, Bool.xor_true]
    -- unfold the addition equation
    have heqA2 : (wv st4 inp b).toNat * 2 ^ x.length +
        wires_as_unsigned (valsL st4 inp rest) +
        2 ^ x.length * 2 * (wv st4 inp co).toNat =
        wires_as_unsigned (valsL st inp x) +
          ((1 - (wv st1 inp c1).toNat) * 2 ^ x.length +
            wires_as_unsigned (valsL st1 inp zs)) := by
      have e := heqA
      rw [valsL_cons, valsL_cons, valsL_cons, wires_as_unsigned_cons,
        wires_as_unsigned_cons, wires_as_unsigned_cons] at e
      rw [valsL_length, valsL_length, valsL_length, hlenR, hlenZ, ← hlen] at e
      rw [wv_zero, hvz03, Bool.toNat_not_eq] at e
      rw [valsL_frame inp hs (he1.trans (he2.trans he3)) hbx] at e
      rw [valsL_frame inp hs1 (he2.trans he3) hbZ] at e
      simp only [Bool.toNat_false, List.length_cons, pow_succ] at e
      calc (wv st4 inp b).toNat * 2 ^ x.length +
            wires_as_unsigned (valsL st4 inp rest) +
            2 ^ x.length * 2 * (wv st4 inp co).toNat
          = (wv st4 inp b).toNat * 2 ^ x.length +
            wires_as_unsigned (valsL st4 inp rest) +
            2 ^ x.length * 2 * (wv st4 inp co).toNat + 0 * 2 ^ x.length := by ring
        _ = _ := by omega
    have heqN2 : wires_as_unsigned (valsL st1 inp zs) +
        2 ^ x.length * (wv st1 inp c1).toNat +
        wires_as_unsigned (valsL st inp y) = 2 ^ x.length := by
      rw [hlen]; exact heqN
    obtain ⟨hval, hsgn⟩ := sub_arith_master (2 ^ x.length)
      (wires_as_unsigned (valsL st inp x)) (wires_as_unsigned (valsL st inp y))
      (wires_as_unsigned (valsL st1 inp zs)) (wires_as_unsigned (valsL st4 inp rest))
      (wv st1 inp c1).toNat (wv st4 inp co).toNat (wv st4 inp b).toNat
      hXlt hYlt hRlt (Bool.toNat_le _) (Bool.toNat_le _) (Bool.toNat_le _)
      heqN2 heqA2
    refine ⟨hs4, heS, by rw [hp4, hp3, hp2, hp1], ?_, ?_, ?_, ?_, ?_⟩
    · show rest.length = x.length
      exact hlenR
    · show BddL rest st4.gate_counter
      exact hbS.tail
    · show b < st4.gate_counter
      exact hbS.head
    · exact hval
    · show wv st4 inp b = _
      rcases Bool.eq_false_or_eq_true (wv st4 inp b) with hbv | hbv
      · rw [hbv]
        symm
        rw [decide_eq_true_eq]
        apply hsgn.mp
        rw [hbv]
        rfl
      · rw [hbv]
        symm
        rw [decide_eq_false_iff_not]
        intro hlt
        have hcontra := hsgn.mpr hlt
        rw [hbv] at hcontra
        simp at hcontra

/-- The overflow fold of `push_unsigned_division_circuit`
(`for y in y.iter().copied().take(shift_amount) { overflow = push_or(overflow, y) }`). -/
def push_or_fold : List Nat → Nat → CircuitBuilder → Nat × CircuitBuilder
  | [], acc, st => (acc, st)
  | w :: ws, acc, st =>
    let (acc2, st) := push_or acc w st
    push_or_fold ws acc2 st

/-- Elementwise mux of two wire vectors with a shared selector
(`remainder[i] = push_mux(carry_or_overflow, remainder[i], x_sub[i])`,
in index order). -/
def push_mux_vec (s : Nat) : List Nat → List Nat → CircuitBuilder → List Nat × CircuitBuilder
  | a0 :: arest, b0 :: brest, st =>
    let (m, st) := push_mux s a0 b0 st
    let (ms, st) := push_mux_vec s arest brest st
    (m :: ms, st)
  | _, _, st => ([], st)

/-- One iteration of the restoring-division loop of
`CircuitBuilder::push_unsigned_division_circuit` at shift amount `s`. -/
def push_division_step (bits s : Nat) (q r y : List Nat) (st : CircuitBuilder) :
    (List Nat × List Nat) × CircuitBuilder :=
  let (overflow, st) := push_or_fold (y.take s) 0 st
  let y_shifted := y.drop s ++ List.replicate s 0
  let ((x_sub, carry), st) := push_subtraction_circuit r y_shifted st
  let (carry_or_overflow, st) := push_or carry overflow st
  let (r2, st) := push_mux_vec carry_or_overflow r x_sub st
  let (quotient_bit, st) := push_not carry st
  let (qb, st) := push_mux overflow 0 quotient_bit st
  ((q.set (bits - s - 1) qb, r2), st)

/-- The loop `for shift_amount in (0..bits).rev()` of
`CircuitBuilder::push_unsigned_division_circuit`; the first argument of the
recursion is the number of iterations still to run (the next shift amount
plus one). -/
def push_division_loop (bits : Nat) :
    Nat → List Nat → List Nat → List Nat → CircuitBuilder →
    (List Nat × List Nat) × CircuitBuilder
  | 0, q, r, _y, st => ((q, r), st)
  | s + 1, q, r, y, st =>
    let ((q2, r2), st) := push_division_step bits s q r y st
    push_division_loop bits s q2 r2 y st

/-- `CircuitBuilder::push_unsigned_division_circuit` from `circuit.rs`
(restoring division; quotient starts all-zero, remainder starts as `x`). -/
def push_unsigned_division_circuit (x y : List Nat) (st : CircuitBuilder) :
    (List Nat × List Nat) × CircuitBuilder :=
  push_division_loop x.length x.length (List.replicate x.length 0) x y st

theorem push_or_fold_spec :
    ∀ (ws : List Nat) (acc : Nat) (st : CircuitBuilder) (inp : Nat → Bool),
      Sound st inp → BddL ws st.gate_counter → acc < st.gate_counter →
      ∀ r st', push_or_fold ws acc st = (r, st') →
        Sound st' inp ∧ ExtOk st st' ∧ st'.panic_gates = st.panic_gates ∧
          r < st'.gate_counter ∧
          wv st' inp r = (wv st inp acc || (valsL st inp ws).any id) := by
  intro ws
  induction ws with
  | nil =>
    intro acc st inp hs hb hacc r st' h
    simp only [push_or_fold, Prod.mk.injEq] at h
    obtain ⟨rfl, rfl⟩ := h
    exact ⟨hs, ExtOk.refl st, rfl, hacc, by simp [valsL_nil]⟩
  | cons w ws ih =>
    intro acc st inp hs hb hacc r st' h
    rw [push_or_fold] at h
    rcases hq1 : push_or acc w st with ⟨acc2, st1⟩
    simp only [hq1] at h
    obtain ⟨hs1, he1, hp1, hacc2, hv1⟩ := push_or_spec acc w st inp hs hacc hb.head acc2 st1 hq1
    obtain ⟨hs2, he2, hp2, hr, hv2⟩ :=
      ih acc2 st1 inp hs1 (hb.tail.mono he1.2.2.1) hacc2 r st' h
    refine ⟨hs2, he1.trans he2, by rw [hp2, hp1], hr, ?_⟩
    rw [hv2, hv1, valsL_frame inp hs he1 hb.tail, valsL_cons]
    simp [Bool.or_assoc]

theorem push_mux_vec_spec :
    ∀ (a b : List Nat) (sel : Nat) (st : CircuitBuilder) (inp : Nat → Bool),
      Sound st inp → a.length = b.length →
      BddL a st.gate_counter → BddL b st.gate_counter → sel < st.gate_counter →
      ∀ out st', push_mux_vec sel a b st = (out, st') →
        Sound st' inp ∧ ExtOk st st' ∧ st'.panic_gates = st.panic_gates ∧
          out.length = a.length ∧ BddL out st'.gate_counter ∧
          valsL st' inp out =
            (if wv st inp sel then valsL st inp a else valsL st inp b) := by
  intro a
  induction a with
  | nil =>
    intro b sel st inp hs hlen hba hbb hsel out st' h
    match b, hlen with
    | [], _ =>
      simp only [push_mux_vec, Prod.mk.injEq] at h
      obtain ⟨rfl, rfl⟩ := h
      refine ⟨hs, ExtOk.refl st, rfl, rfl, BddL.nil _, by simp [valsL_nil]⟩
  | cons a0 arest ih =>
    intro b sel st inp hs hlen hba hbb hsel out st' h
    match b, hlen with
    | b0 :: brest, hlen =>
      have hlen' : arest.length = brest.length := by simpa using hlen
      rw [push_mux_vec] at h
      rcases hq1 : push_mux sel a0 b0 st with ⟨m, st1⟩
      simp only [hq1] at h
      obtain ⟨hs1, he1, hp1, hm, hv1⟩ :=
        push_mux_spec sel a0 b0 st inp hs hsel hba.head hbb.head m st1 hq1
      rcases hq2 : push_mux_vec sel arest brest st1 with ⟨ms, st2⟩
      simp only [hq2] at h
      obtain ⟨rfl, rfl⟩ := Prod.mk.injEq .. |>.mp h
      obtain ⟨hs2, he2, hp2, hlen2, hb2, hv2⟩ :=
        ih brest sel st1 inp hs1 hlen' (hba.tail.mono he1.2.2.1)
          (hbb.tail.mono he1.2.2.1) (lt_of_lt_of_le hsel he1.2.2.1) ms st2 hq2
      refine ⟨hs2, he1.trans he2, by rw [hp2, hp1], by simp [hlen2],
        BddL.cons (lt_of_lt_of_le hm he2.2.2.1) hb2, ?_⟩
      rw [valsL_cons, hv2, wv_frame inp hs1 he2 m hm, hv1,
        valsL_frame inp hs he1 hba.tail, valsL_frame inp hs he1 hbb.tail,
        wv_frame inp hs he1 sel hsel]
      cases wv st inp sel <;> simp [valsL_cons]

theorem valsL_take (st : CircuitBuilder) (inp : Nat → Bool) (s : Nat) (l : List Nat) :
    valsL st inp (l.take s) = (valsL st inp l).take s := by
  simp [valsL, List.map_take]

theorem valsL_drop (st : CircuitBuilder) (inp : Nat → Bool) (s : Nat) (l : List Nat) :
    valsL st inp (l.drop s) = (valsL st inp l).drop s := by
  simp [valsL, List.map_drop]

theorem valsL_append (st : CircuitBuilder) (inp : Nat → Bool) (l1 l2 : List Nat) :
    valsL st inp (l1 ++ l2) = valsL st inp l1 ++ valsL st inp l2 := List.map_append ..

theorem valsL_replicate_zero (st : CircuitBuilder) (inp : Nat → Bool) (s : Nat) :
    valsL st inp (List.replicate s 0) = List.replicate s false := by
  rw [valsL, List.map_replicate, wv_zero]

theorem valsL_set (st : CircuitBuilder) (inp : Nat → Bool) (l : List Nat) (i w : Nat) :
    valsL st inp (l.set i w) = (valsL st inp l).set i (wv st inp w) :=
  List.map_set ..

/-- Splitting an MSB-first decode at position `s`. -/
theorem wires_as_unsigned_take_drop (l : List Bool) (s : Nat) (hs : s ≤ l.length) :
    wires_as_unsigned l =
      wires_as_unsigned (l.take s) * 2 ^ (l.length - s) +
        wires_as_unsigned (l.drop s) := by
  conv_lhs => rw [← List.take_append_drop s l]
  rw [wires_as_unsigned_append, List.length_drop]

theorem wires_as_unsigned_append_replicate_false (l : List Bool) (s : Nat) :
    wires_as_unsigned (l ++ List.replicate s false) = wires_as_unsigned l * 2 ^ s := by
  rw [wires_as_unsigned_append, wires_as_unsigned_replicate_false, List.length_replicate]
  omega

theorem wires_as_unsigned_eq_zero_iff (l : List Bool) :
    wires_as_unsigned l = 0 ↔ l.any id = false := by
  induction l with
  | nil => simp [wires_as_unsigned_nil]
  | cons b bs ih =>
    rw [wires_as_unsigned_cons]
    have hp : 0 < 2 ^ bs.length := Nat.pos_pow_of_pos _ (by omega)
    cases b
    · simp only [Bool.toNat_false, Nat.zero_mul, Nat.zero_add, List.any_cons, id_eq,
        Bool.false_or]
      exact ih
    · simp only [Bool.toNat_true, Nat.one_mul, List.any_cons, id_eq, Bool.true_or]
      refine ⟨fun h0 => absurd h0 (by omega), fun h0 => absurd h0 (by simp)⟩

/-- Setting a bit that was previously false adds its weight to the decode. -/
theorem wires_as_unsigned_set (l : List Bool) (i : Nat) (b : Bool) :
    ∀ (hi : i < l.length) (hz : l.getD i false = false),
      wires_as_unsigned (l.set i b) =
        wires_as_unsigned l + b.toNat * 2 ^ (l.length - 1 - i) := by
  induction l generalizing i with
  | nil => intro hi hz; simp at hi
  | cons c cs ih =>
    intro hi hz
    match i with
    | 0 =>
      simp only [List.getD, List.get?, Option.getD_some] at hz
      subst hz
      simp only [List.set, wires_as_unsigned_cons, List.length_cons, Bool.toNat_false]
      have hexp : cs.length + 1 - 1 - 0 = cs.length := by omega
      rw [hexp]
      omega
    | i + 1 =>
      have hi2 : i < cs.length := by simpa using hi
      have hz2 : cs.getD i false = false := by
        simpa [List.getD, List.get?] using hz
      simp only [List.set, wires_as_unsigned_cons, List.length_set, List.length_cons]
      rw [ih i hi2 hz2]
      have hexp : cs.length + 1 - 1 - (i + 1) = cs.length - 1 - i := by omega
      rw [hexp]
      omega

theorem BddL.take {ws : List Nat} {n : Nat} (h : BddL ws n) (s : Nat) :
    BddL (ws.take s) n := fun w hw => h w (List.take_subset s ws hw)

theorem BddL.drop {ws : List Nat} {n : Nat} (h : BddL ws n) (s : Nat) :
    BddL (ws.drop s) n := fun w hw => h w (List.drop_subset s ws hw)

theorem BddL.append {ws vs : List Nat} {n : Nat} (h1 : BddL ws n) (h2 : BddL vs n) :
    BddL (ws ++ vs) n := fun w hw => by
  rcases List.mem_append.mp hw with hw | hw
  · exact h1 w hw
  · exact h2 w hw

theorem BddL.replicate_zero {n : Nat} (hn : 0 < n) (s : Nat) :
    BddL (List.replicate s 0) n := fun w hw => by
  rw [List.eq_of_mem_replicate hw]; exact hn

theorem BddL.set {ws : List Nat} {n : Nat} (h : BddL ws n) (i w : Nat) (hw : w < n) :
    BddL (ws.set i w) n := fun v hv => by
  rcases List.mem_or_eq_of_mem_set hv with hv | hv
  · exact h v hv
  · rw [hv]; exact hw

theorem getD_set_of_ne (l : List Bool) (i j : Nat) (b : Bool) (hij : i ≠ j) :
    (l.set i b).getD j false = l.getD j false := by
  induction l generalizing i j with
  | nil => simp [List.set]
  | cons c cs ih =>
    match i, j with
    | 0, 0 => exact absurd rfl hij
    | 0, j + 1 => simp [List.set, List.getD, List.get?]
    | i + 1, 0 => simp [List.set, List.getD, List.get?]
    | i + 1, j + 1 =>
      simp only [List.set, List.getD, List.get?]
      have := ih i j (by omega)
      simpa [List.getD] using this

/-- Unfolding equation for `push_division_step` in terms of its intermediate
results. -/
theorem push_division_step_eq (bits s : Nat) (q r y : List Nat) (st : CircuitBuilder)
    (ov : Nat) (st1 : CircuitBuilder)
    (hq1 : push_or_fold (y.take s) 0 st = (ov, st1))
    (xsub : List Nat) (carry : Nat) (st2 : CircuitBuilder)
    (hq2 : push_subtraction_circuit r (y.drop s ++ List.replicate s 0) st1 =
      ((xsub, carry), st2))
    (cov : Nat) (st3 : CircuitBuilder) (hq3 : push_or carry ov st2 = (cov, st3))
    (r2 : List Nat) (st4 : CircuitBuilder)
    (hq4 : push_mux_vec cov r xsub st3 = (r2, st4))
    (qb0 : Nat) (st5 : CircuitBuilder) (hq5 : push_not carry st4 = (qb0, st5))
    (qb : Nat) (st6 : CircuitBuilder) (hq6 : push_mux ov 0 qb0 st5 = (qb, st6)) :
    push_division_step bits s q r y st = ((q.set (bits - s - 1) qb, r2), st6) := by
  rw [push_division_step, hq1]
  show (match push_subtraction_circuit r (y.drop s ++ List.replicate s 0) st1 with
    | ((x_sub, carry), st) =>
      match push_or carry ov st with
      | (carry_or_overflow, st) =>
        match push_mux_vec carry_or_overflow r x_sub st with
        | (rm, st) =>
          match push_not carry st with
          | (quotient_bit, st) =>
            match push_mux ov 0 quotient_bit st with
            | (qm, st) => ((q.set (bits - s - 1) qm, rm), st)) =
    ((q.set (bits - s - 1) qb, r2), st6)
  rw [hq2]
  show (match push_or carry ov st2 with
    | (carry_or_overflow, st) =>
      match push_mux_vec carry_or_overflow r xsub st with
      | (rm, st) =>
        match push_not carry st with
        | (quotient_bit, st) =>
          match push_mux ov 0 quotient_bit st with
          | (qm, st) => ((q.set (bits - s - 1) qm, rm), st)) =
    ((q.set (bits - s - 1) qb, r2), st6)
  rw [hq3]
  show (match push_mux_vec cov r xsub st3 with
    | (rm, st) =>
      match push_not carry st with
      | (quotient_bit, st) =>
        match push_mux ov 0 quotient_bit st with
        | (qm, st) => ((q.set (bits - s - 1) qm, rm), st)) =
    ((q.set (bits - s - 1) qb, r2), st6)
  rw [hq4]
  show (match push_not carry st4 with
    | (quotient_bit, st) =>
      match push_mux ov 0 quotient_bit st with
      | (qm, st) => ((q.set (bits - s - 1) qm, r2), st)) =
    ((q.set (bits - s - 1) qb, r2), st6)
  rw [hq5]
  show (match push_mux ov 0 qb0 st5 with
    | (qm, st) => ((q.set (bits - s - 1) qm, r2), st)) =
    ((q.set (bits - s - 1) qb, r2), st6)
  rw [hq6]

/-- Specification of one division-loop iteration: it preserves the running
identity `Y * Q + R = Y * Q0 + R0`, shrinks the remainder bound from
`Y * 2 ^ (s + 1)` to `Y * 2 ^ s`, and keeps the still-unset quotient bits
zero. -/
theorem push_division_step_spec (bits s : Nat) (q r y : List Nat)
    (st : CircuitBuilder) (inp : Nat → Bool) (hs : Sound st inp)
    (hsb : s < bits) (hlq : q.length = bits) (hlr : r.length = bits)
    (hly : y.length = bits)
    (hbq : BddL q st.gate_counter) (hbr : BddL r st.gate_counter)
    (hby : BddL y st.gate_counter)
    (hqz : ∀ j, bits - 1 - s ≤ j → (valsL st inp q).getD j false = false)
    (q2 r2 : List Nat) (st' : CircuitBuilder)
    (h : push_division_step bits s q r y st = ((q2, r2), st')) :
    Sound st' inp ∧ ExtOk st st' ∧ st'.panic_gates = st.panic_gates ∧
      q2.length = bits ∧ r2.length = bits ∧
      BddL q2 st'.gate_counter ∧ BddL r2 st'.gate_counter ∧
      (∀ j, bits - s ≤ j → (valsL st' inp q2).getD j false = false) ∧
      wires_as_unsigned (valsL st inp y) * wires_as_unsigned (valsL st' inp q2) +
          wires_as_unsigned (valsL st' inp r2) =
        wires_as_unsigned (valsL st inp y) * wires_as_unsigned (valsL st inp q) +
          wires_as_unsigned (valsL st inp r) ∧
      (wires_as_unsigned (valsL st inp r) <
          wires_as_unsigned (valsL st inp y) * 2 ^ (s + 1) →
        wires_as_unsigned (valsL st' inp r2) <
          wires_as_unsigned (valsL st inp y) * 2 ^ s) := by
  rcases hq1 : push_or_fold (y.take s) 0 st with ⟨ov, st1⟩
  obtain ⟨hs1, he1, hp1, hov, hvov⟩ :=
    push_or_fold_spec (y.take s) 0 st inp hs (hby.take s) hs.cnt_pos ov st1 hq1
  have hlys : (y.drop s ++ List.replicate s 0).length = r.length := by
    simp only [List.length_append, List.length_drop, List.length_replicate, hly, hlr]
    omega
  have hbys : BddL (y.drop s ++ List.replicate s 0) st1.gate_counter :=
    BddL.append ((hby.drop s).mono he1.2.2.1)
      (BddL.replicate_zero (lt_of_lt_of_le hs.cnt_pos he1.2.2.1) s)
  rcases hq2 : push_subtraction_circuit r (y.drop s ++ List.replicate s 0) st1
    with ⟨⟨xsub, carry⟩, st2⟩
  obtain ⟨hs2, he2, hp2, hlxs, hbxs, hcar, heqS, hvsgn⟩ :=
    push_subtraction_circuit_spec r (y.drop s ++ List.replicate s 0) st1 inp hs1
      hlys.symm (hbr.mono he1.2.2.1) hbys xsub carry st2 hq2
  rcases hq3 : push_or carry ov st2 with ⟨cov, st3⟩
  obtain ⟨hs3, he3, hp3, hcov, hvcov⟩ :=
    push_or_spec carry ov st2 inp hs2 hcar (lt_of_lt_of_le hov he2.2.2.1) cov st3 hq3
  have heC : ExtOk st st3 := (he1.trans he2).trans he3
  rcases hq4 : push_mux_vec cov r xsub st3 with ⟨r2v, st4⟩
  obtain ⟨hs4, he4, hp4, hlr2, hbr2, hvr2⟩ :=
    push_mux_vec_spec r xsub cov st3 inp hs3 hlxs.symm
      (hbr.mono heC.2.2.1) (hbxs.mono he3.2.2.1) hcov r2v st4 hq4
  rcases hq5 : push_not carry st4 with ⟨qb0, st5⟩
  obtain ⟨hs5, he5, hp5, hqb0, hvqb0⟩ :=
    push_not_spec carry st4 inp hs4 (lt_of_lt_of_le hcar (he3.trans he4).2.2.1) qb0 st5 hq5
  rcases hq6 : push_mux ov 0 qb0 st5 with ⟨qb, st6⟩
  obtain ⟨hs6, he6, hp6, hqb, hvqb⟩ :=
    push_mux_spec ov 0 qb0 st5 inp hs5
      (lt_of_lt_of_le hov (((he2.trans he3).trans he4).trans he5).2.2.1)
      (lt_of_lt_of_le hs.cnt_pos ((((he1.trans he2).trans he3).trans he4).trans he5).2.2.1)
      hqb0 qb st6 hq6
  rw [push_division_step_eq bits s q r y st ov st1 hq1 xsub carry st2 hq2
    cov st3 hq3 r2v st4 hq4 qb0 st5 hq5 qb st6 hq6] at h
  obtain ⟨h1, h2⟩ := Prod.mk.injEq .. |>.mp h
  subst h2
  obtain ⟨h3, h4⟩ := Prod.mk.injEq .. |>.mp h1
  subst h3
  subst h4
  have heE : ExtOk st st6 := ((heC.trans he4).trans he5).trans he6
  -- value of the overflow wire: OR of the top `s` bits of the divisor
  have hTval : wv st1 inp ov = ((valsL st inp y).take s).any id := by
    rw [hvov, wv_zero, Bool.false_or, valsL_take]
  have hov_iff : wv st1 inp ov = true ↔
      wires_as_unsigned ((valsL st inp y).take s) ≠ 0 := by
    rw [hTval, Ne, wires_as_unsigned_eq_zero_iff]
    cases ((valsL st inp y).take s).any id <;> simp
  -- splitting the divisor value at position `s`
  have hYsplit : wires_as_unsigned (valsL st inp y) =
      wires_as_unsigned ((valsL st inp y).take s) * 2 ^ (bits - s) +
        wires_as_unsigned ((valsL st inp y).drop s) := by
    have hd := wires_as_unsigned_take_drop (valsL st inp y) s
      (by rw [valsL_length, hly]; omega)
    rw [valsL_length, hly] at hd
    exact hd
  -- the value of the shifted divisor
  have hYSval : wires_as_unsigned (valsL st1 inp (y.drop s ++ List.replicate s 0)) =
      wires_as_unsigned ((valsL st inp y).drop s) * 2 ^ s := by
    rw [valsL_append, valsL_replicate_zero, wires_as_unsigned_append_replicate_false,
      valsL_drop, valsL_frame inp hs he1 hby]
  have hXfr : valsL st1 inp r = valsL st inp r := valsL_frame inp hs he1 hbr
  have heqS2 : wires_as_unsigned (valsL st2 inp xsub) =
      (wires_as_unsigned (valsL st inp r) + 2 ^ bits -
        wires_as_unsigned ((valsL st inp y).drop s) * 2 ^ s) % 2 ^ bits := by
    rw [heqS, hXfr, hYSval, hlr]
  have hvsgn2 : wv st2 inp carry =
      decide (wires_as_unsigned (valsL st inp r) <
        wires_as_unsigned ((valsL st inp y).drop s) * 2 ^ s) := by
    rw [hvsgn, hXfr, hYSval]
  have hvcov2 : wv st3 inp cov = (wv st2 inp carry || wv st1 inp ov) := by
    rw [hvcov, wv_frame inp hs1 he2 ov hov]
  have hvqb2 : wv st6 inp qb =
      (if wv st1 inp ov then false else ! wv st2 inp carry) := by
    have hov5 : wv st5 inp ov = wv st1 inp ov :=
      wv_frame inp hs1 ((he2.trans he3).trans (he4.trans he5)) ov hov
    have hqb05 : wv st5 inp qb0 = ! wv st2 inp carry := by
      rw [hvqb0, wv_frame inp hs2 (he3.trans he4) carry hcar]
    rw [hvqb, wv_zero, hov5, hqb05]
  have hQset : wires_as_unsigned (valsL st6 inp (q.set (bits - s - 1) qb)) =
      wires_as_unsigned (valsL st inp q) + (wv st6 inp qb).toNat * 2 ^ s := by
    rw [valsL_set, valsL_frame inp hs heE hbq]
    have hidx : bits - s - 1 < (valsL st inp q).length := by
      rw [valsL_length, hlq]; omega
    have hzero : (valsL st inp q).getD (bits - s - 1) false = false :=
      hqz _ (by omega)
    rw [wires_as_unsigned_set _ _ _ hidx hzero, valsL_length, hlq]
    have hexp : bits - 1 - (bits - s - 1) = s := by omega
    rw [hexp]
  have hR2val : valsL st6 inp r2v =
      (if (wv st2 inp carry || wv st1 inp ov) then valsL st inp r
        else valsL st2 inp xsub) := by
    rw [valsL_frame inp hs4 (he5.trans he6) hbr2, hvr2, hvcov2,
      valsL_frame inp hs heC hbr, valsL_frame inp hs2 he3 hbxs]
  have hXlt : wires_as_unsigned (valsL st inp r) < 2 ^ bits := by
    have hl := wires_as_unsigned_lt (valsL st inp r)
    rwa [valsL_length, hlr] at hl
  have hmain :
      wires_as_unsigned (valsL st inp y) *
          wires_as_unsigned (valsL st6 inp (q.set (bits - s - 1) qb)) +
        wires_as_unsigned (valsL st6 inp r2v) =
        wires_as_unsigned (valsL st inp y) * wires_as_unsigned (valsL st inp q) +
          wires_as_unsigned (valsL st inp r) ∧
      (wires_as_unsigned (valsL st inp r) <
          wires_as_unsigned (valsL st inp y) * 2 ^ (s + 1) →
        wires_as_unsigned (valsL st6 inp r2v) <
          wires_as_unsigned (valsL st inp y) * 2 ^ s) := by
    rcases Bool.eq_false_or_eq_true (wv st1 inp ov) with hbo | hbo
    · -- the shifted divisor overflowed: restore, quotient bit is zero
      have hT1 : 1 ≤ wires_as_unsigned ((valsL st inp y).take s) := by
        have hne := hov_iff.mp hbo
        omega
      have hYge : 2 ^ (bits - s) ≤ wires_as_unsigned (valsL st inp y) := by
        calc 2 ^ (bits - s) = 1 * 2 ^ (bits - s) := (one_mul _).symm
          _ ≤ wires_as_unsigned ((valsL st inp y).take s) * 2 ^ (bits - s) :=
            Nat.mul_le_mul_right _ hT1
          _ ≤ _ := by rw [hYsplit]; omega
      have hRR : valsL st6 inp r2v = valsL st inp r := by
        rw [hR2val, hbo]; simp
      have hQQ : wires_as_unsigned (valsL st6 inp (q.set (bits - s - 1) qb)) =
          wires_as_unsigned (valsL st inp q) := by
        rw [hQset, hvqb2, hbo]; simp
      refine ⟨by rw [hRR, hQQ], fun _ => ?_⟩
      rw [hRR]
      calc wires_as_unsigned (valsL st inp r) < 2 ^ bits := hXlt
        _ = 2 ^ (bits - s) * 2 ^ s := by rw [← pow_add]; congr 1; omega
        _ ≤ wires_as_unsigned (valsL st inp y) * 2 ^ s :=
          Nat.mul_le_mul_right _ hYge
    · -- no overflow: the top `s` bits of the divisor are zero
      have hT0 : wires_as_unsigned ((valsL st inp y).take s) = 0 := by
        by_contra hne
        have hcontra := hov_iff.mpr hne
        rw [hbo] at hcontra
        cases hcontra
      have hYD : wires_as_unsigned (valsL st inp y) =
          wires_as_unsigned ((valsL st inp y).drop s) := by
        rw [hYsplit, hT0, Nat.zero_mul, Nat.zero_add]
      rcases Bool.eq_false_or_eq_true (wv st2 inp carry) with hbc | hbc
      · -- borrow: the remainder is smaller than the shifted divisor; restore
        have hlt : wires_as_unsigned (valsL st inp r) <
            wires_as_unsigned ((valsL st inp y).drop s) * 2 ^ s := by
          have hd := hvsgn2
          rw [hbc] at hd
          exact of_decide_eq_true hd.symm
        have hRR : valsL st6 inp r2v = valsL st inp r := by
          rw [hR2val, hbc]; simp
        have hQQ : wires_as_unsigned (valsL st6 inp (q.set (bits - s - 1) qb)) =
            wires_as_unsigned (valsL st inp q) := by
          rw [hQset, hvqb2, hbo, hbc]; simp
        refine ⟨by rw [hRR, hQQ], fun _ => ?_⟩
        rw [hRR, hYD]
        exact hlt
      · -- no borrow, no overflow: keep the difference, set the quotient bit
        have hge : wires_as_unsigned ((valsL st inp y).drop s) * 2 ^ s ≤
            wires_as_unsigned (valsL st inp r) := by
          have hd := hvsgn2
          rw [hbc] at hd
          have hnot := of_decide_eq_false hd.symm
          omega
        have hDlt : wires_as_unsigned ((valsL st inp y).drop s) * 2 ^ s < 2 ^ bits :=
          lt_of_le_of_lt hge hXlt
        have hRRl : valsL st6 inp r2v = valsL st2 inp xsub := by
          rw [hR2val, hbc, hbo]; simp
        have hRR : wires_as_unsigned (valsL st6 inp r2v) =
            wires_as_unsigned (valsL st inp r) -
              wires_as_unsigned ((valsL st inp y).drop s) * 2 ^ s := by
          rw [hRRl, heqS2, sub_mod_lemma _ _ _ hXlt hDlt, if_pos hge]
        have hQQ : wires_as_unsigned (valsL st6 inp (q.set (bits - s - 1) qb)) =
            wires_as_unsigned (valsL st inp q) + 2 ^ s := by
          rw [hQset, hvqb2, hbo, hbc]; simp
        constructor
        · rw [hQQ, hRR, Nat.mul_add, hYD]
          omega
        · intro hbound
          rw [hYD] at hbound
          rw [hRR, hYD]
          have hps : wires_as_unsigned ((valsL st inp y).drop s) * 2 ^ (s + 1) =
              wires_as_unsigned ((valsL st inp y).drop s) * 2 ^ s +
                wires_as_unsigned ((valsL st inp y).drop s) * 2 ^ s := by
            rw [pow_succ]; ring
          omega
  refine ⟨hs6, heE, by rw [hp6, hp5, hp4, hp3, hp2, hp1],
    by simp [List.length_set, hlq], by rw [hlr2, hlr],
    BddL.set (hbq.mono heE.2.2.1) _ qb hqb,
    hbr2.mono (he5.trans he6).2.2.1, ?_, hmain.1, hmain.2⟩
  intro j hj
  rw [valsL_set, getD_set_of_ne _ _ _ _ (by omega),
    valsL_frame inp hs heE hbq]
  exact hqz j (by omega)

theorem getD_replicate_false (n j : Nat) :
    (List.replicate n false).getD j false = false := by
  induction n generalizing j with
  | zero => simp [List.getD]
  | succ n ih =>
    match j with
    | 0 => simp [List.replicate, List.getD, List.get?]
    | j + 1 =>
      simp only [List.replicate, List.getD, List.get?]
      simpa [List.getD] using ih j

/-- The freshly created builder state satisfies the invariant for every
input assignment. -/
theorem sound_new (input_gates : List Nat) (inp : Nat → Bool) :
    Sound (CircuitBuilder.new input_gates) inp := by
  refine ⟨?_, ?_, wfGates_nil _, ?_, ?_⟩
  · show 2 ≤ 2 + input_gates.sum
    omega
  · show 2 + input_gates.sum = 2 + input_gates.sum + ([] : List BuilderGate).length
    simp
  · intro g w h
    simp [CircuitBuilder.new, alookup] at h
  · intro a b h
    simp [CircuitBuilder.new, alookup] at h

/-- The division loop run for `c` iterations preserves the running identity
`Y * Q + R` and, given the incoming bound `R < Y * 2 ^ c`, delivers a final
remainder below `Y`. -/
theorem push_division_loop_spec :
    ∀ (c : Nat) (q r : List Nat) (bits : Nat) (y : List Nat) (st : CircuitBuilder)
      (inp : Nat → Bool), Sound st inp → c ≤ bits →
      q.length = bits → r.length = bits → y.length = bits →
      BddL q st.gate_counter → BddL r st.gate_counter → BddL y st.gate_counter →
      (∀ j, bits - c ≤ j → (valsL st inp q).getD j false = false) →
      ∀ q2 r2 st', push_division_loop bits c q r y st = ((q2, r2), st') →
        Sound st' inp ∧ ExtOk st st' ∧ st'.panic_gates = st.panic_gates ∧
          q2.length = bits ∧ r2.length = bits ∧
          BddL q2 st'.gate_counter ∧ BddL r2 st'.gate_counter ∧
          wires_as_unsigned (valsL st inp y) *
              wires_as_unsigned (valsL st' inp q2) +
              wires_as_unsigned (valsL st' inp r2) =
            wires_as_unsigned (valsL st inp y) *
                wires_as_unsigned (valsL st inp q) +
              wires_as_unsigned (valsL st inp r) ∧
          (wires_as_unsigned (valsL st inp r) <
              wires_as_unsigned (valsL st inp y) * 2 ^ c →
            wires_as_unsigned (valsL st' inp r2) <
              wires_as_unsigned (valsL st inp y)) := by
  intro c
  induction c with
  | zero =>
    intro q r bits y st inp hs hc hlq hlr hly hbq hbr hby hqz q2 r2 st' h
    rw [push_division_loop] at h
    obtain ⟨h1, h2⟩ := Prod.mk.injEq .. |>.mp h
    subst h2
    obtain ⟨h3, h4⟩ := Prod.mk.injEq .. |>.mp h1
    subst h3
    subst h4
    refine ⟨hs, ExtOk.refl st, rfl, hlq, hlr, hbq, hbr, rfl, ?_⟩
    intro hp
    rwa [pow_zero, Nat.mul_one] at hp
  | succ c ih =>
    intro q r bits y st inp hs hc hlq hlr hly hbq hbr hby hqz q2 r2 st' h
    rw [push_division_loop] at h
    rcases hstep : push_division_step bits c q r y st with ⟨⟨q1, r1⟩, stm⟩
    simp only [hstep] at h
    obtain ⟨hsm, hem, hpm, hlq1, hlr1, hbq1, hbr1, hz1, heq1, hbnd1⟩ :=
      push_division_step_spec bits c q r y st inp hs (by omega) hlq hlr hly
        hbq hbr hby (fun j hj => hqz j (by omega)) q1 r1 stm hstep
    obtain ⟨hs2, he2, hp2, hlq2, hlr2, hbq2, hbr2, heq2, hbnd2⟩ :=
      ih q1 r1 bits y stm inp hsm (by omega) hlq1 hlr1 hly
        hbq1 hbr1 (hby.mono hem.2.2.1) hz1 q2 r2 st' h
    have hYfr : valsL stm inp y = valsL st inp y := valsL_frame inp hs hem hby
    rw [hYfr] at heq2 hbnd2
    refine ⟨hs2, hem.trans he2, by rw [hp2, hpm], hlq2, hlr2, hbq2, hbr2,
      heq2.trans heq1, ?_⟩
    intro hp
    exact hbnd2 (hbnd1 hp)

/-- C1: `push_unsigned_division_circuit` computes floor division with
remainder: for operand vectors of width `n ≥ 1` whose divisor denotes a
nonzero value, the returned quotient and remainder wire-vectors decode to
`x / y` and `x mod y`. -/
theorem C1_unsigned_division_correct (x y : List Nat) (st : CircuitBuilder)
    (inp : Nat → Bool) (hs : Sound st inp)
    (hn : 1 ≤ x.length) (hlen : y.length = x.length)
    (hbx : BddL x st.gate_counter) (hby : BddL y st.gate_counter)
    (hY : wires_as_unsigned (valsL st inp y) ≠ 0)
    (quot rem : List Nat) (st' : CircuitBuilder)
    (h : push_unsigned_division_circuit x y st = ((quot, rem), st')) :
    wires_as_unsigned (valsL st' inp quot) =
        wires_as_unsigned (valsL st inp x) / wires_as_unsigned (valsL st inp y) ∧
      wires_as_unsigned (valsL st' inp rem) =
        wires_as_unsigned (valsL st inp x) % wires_as_unsigned (valsL st inp y) := by
  rw [push_unsigned_division_circuit] at h
  have hzeros : ∀ j, x.length - x.length ≤ j →
      (valsL st inp (List.replicate x.length 0)).getD j false = false := by
    intro j hj
    rw [valsL_replicate_zero]
    exact getD_replicate_false _ _
  obtain ⟨hs2, he2, hp2, hlq2, hlr2, hbq2, hbr2, heq2, hbnd2⟩ :=
    push_division_loop_spec x.length (List.replicate x.length 0) x x.length y st inp
      hs (le_refl _) (by simp) rfl hlen (BddL.replicate_zero hs.cnt_pos _) hbx hby
      hzeros quot rem st' h
  have hQ0 : wires_as_unsigned (valsL st inp (List.replicate x.length 0)) = 0 := by
    rw [valsL_replicate_zero, wires_as_unsigned_replicate_false]
  have hXlt : wires_as_unsigned (valsL st inp x) < 2 ^ x.length := by
    have hl := wires_as_unsigned_lt (valsL st inp x)
    rwa [valsL_length] at hl
  have hprem : wires_as_unsigned (valsL st inp x) <
      wires_as_unsigned (valsL st inp y) * 2 ^ x.length :=
    calc wires_as_unsigned (valsL st inp x) < 2 ^ x.length := hXlt
      _ = 1 * 2 ^ x.length := (one_mul _).symm
      _ ≤ wires_as_unsigned (valsL st inp y) * 2 ^ x.length :=
        Nat.mul_le_mul_right _ (by omega)
  have hRlt := hbnd2 hprem
  rw [hQ0, Nat.mul_zero, Nat.zero_add] at heq2
  constructor
  · rw [← heq2, Nat.mul_add_div (Nat.pos_of_ne_zero hY), Nat.div_eq_of_lt hRlt,
      Nat.add_zero]
  · rw [← heq2, Nat.mul_add_mod, Nat.mod_eq_of_lt hRlt]

theorem C1_unsigned_division_correct_witness :
    wires_as_unsigned (valsL
          (push_unsigned_division_circuit [2] [2] (CircuitBuilder.new [1])).2
          (fun w => decide (w = 2))
          (push_unsigned_division_circuit [2] [2] (CircuitBuilder.new [1])).1.1) =
        wires_as_unsigned
            (valsL (CircuitBuilder.new [1]) (fun w => decide (w = 2)) [2]) /
          wires_as_unsigned
            (valsL (CircuitBuilder.new [1]) (fun w => decide (w = 2)) [2]) ∧
      wires_as_unsigned (valsL
          (push_unsigned_division_circuit [2] [2] (CircuitBuilder.new [1])).2
          (fun w => decide (w = 2))
          (push_unsigned_division_circuit [2] [2] (CircuitBuilder.new [1])).1.2) =
        wires_as_unsigned
            (valsL (CircuitBuilder.new [1]) (fun w => decide (w = 2)) [2]) %
          wires_as_unsigned
            (valsL (CircuitBuilder.new [1]) (fun w => decide (w = 2)) [2]) :=
  C1_unsigned_division_correct [2] [2] (CircuitBuilder.new [1])
    (fun w => decide (w = 2)) (sound_new [1] _) (by decide) rfl
    (by intro w hw; rw [List.mem_singleton] at hw; subst hw; decide)
    (by intro w hw; rw [List.mem_singleton] at hw; subst hw; decide)
    (by decide) _ _ _ rfl

/-- `CircuitBuilder::push_signed_division_circuit` from `circuit.rs`.  The
Rust function mutates `x` and `y` in place through `&mut` references; the
embedding returns the final contents of both operand vectors alongside the
`(quotient, remainder)` result. -/
def push_signed_division_circuit (x y : List Nat) (st : CircuitBuilder) :
    ((List Nat × List Nat) × List Nat × List Nat) × CircuitBuilder :=
  let (is_result_neg, st) := push_xor (x.headD 0) (y.headD 0) st
  let (x_negated, st) := push_negation_circuit x st
  let x_sign_bit := x.headD 0
  let (xa, st) := push_mux_vec x_sign_bit x_negated x st
  let (y_negated, st) := push_negation_circuit y st
  let y_sign_bit := y.headD 0
  let (ya, st) := push_mux_vec y_sign_bit y_negated y st
  let ((quotient, remainder), st) := push_unsigned_division_circuit xa ya st
  let (quot_neg, st) := push_negation_circuit quotient st
  let (qf, st) := push_mux_vec is_result_neg quot_neg quotient st
  let (rem_neg, st) := push_negation_circuit remainder st
  let (rf, st) := push_mux_vec x_sign_bit rem_neg remainder st
  (((qf, rf), xa, ya), st)

theorem push_negation_circuit_spec (v : List Nat) (st : CircuitBuilder)
    (inp : Nat → Bool) (hs : Sound st inp) (hbv : BddL v st.gate_counter)
    (neg : List Nat) (st' : CircuitBuilder)
    (h : push_negation_circuit v st = (neg, st')) :
    Sound st' inp ∧ ExtOk st st' ∧ st'.panic_gates = st.panic_gates ∧
      neg.length = v.length ∧ BddL neg st'.gate_counter ∧
      wires_as_unsigned (valsL st' inp neg) =
        (2 ^ v.length - wires_as_unsigned (valsL st inp v)) % 2 ^ v.length := by
  rw [push_negation_circuit] at h
  rcases hq : push_negation_rec v st with ⟨⟨negr, c⟩, stA⟩
  simp only [hq] at h
  obtain ⟨rfl, rfl⟩ := Prod.mk.injEq .. |>.mp h
  obtain ⟨hs1, he1, hp1, hlen, hb1, hc, _⟩ :=
    push_negation_rec_spec v st inp hs hbv negr c stA hq
  exact ⟨hs1, he1, hp1, hlen, hb1,
    push_negation_rec_value v st inp hs hbv negr c stA hq⟩

theorem push_unsigned_division_circuit_ext (x y : List Nat) (st : CircuitBuilder)
    (inp : Nat → Bool) (hs : Sound st inp) (hlen : y.length = x.length)
    (hbx : BddL x st.gate_counter) (hby : BddL y st.gate_counter)
    (quot rem : List Nat) (st' : CircuitBuilder)
    (h : push_unsigned_division_circuit x y st = ((quot, rem), st')) :
    Sound st' inp ∧ ExtOk st st' ∧ st'.panic_gates = st.panic_gates ∧
      quot.length = x.length ∧ rem.length = x.length ∧
      BddL quot st'.gate_counter ∧ BddL rem st'.gate_counter := by
  rw [push_unsigned_division_circuit] at h
  obtain ⟨hs2, he2, hp2, hlq, hlr, hbq, hbr, _, _⟩ :=
    push_division_loop_spec x.length (List.replicate x.length 0) x x.length y st inp
      hs (le_refl _) (by simp) rfl hlen (BddL.replicate_zero hs.cnt_pos _) hbx hby
      (fun j hj => by rw [valsL_replicate_zero]; exact getD_replicate_false _ _)
      quot rem st' h
  exact ⟨hs2, he2, hp2, hlq, hlr, hbq, hbr⟩

/-- The absolute value of a two's-complement (MSB-first) bit list, in terms
of its unsigned decode. -/
theorem signed_natAbs (l : List Bool) :
    (wires_as_signed l).natAbs =
      if l.getD 0 false then (2 ^ l.length - wires_as_unsigned l) % 2 ^ l.length
      else wires_as_unsigned l := by
  have hU := wires_as_unsigned_lt l
  rw [wires_as_signed]
  cases hh : l.getD 0 false
  · simp
  · have h1 : 1 ≤ wires_as_unsigned l := by
      cases l with
      | nil => simp [List.getD] at hh
      | cons b bs =>
        rw [List.getD_cons_zero] at hh
        subst hh
        have hp := Nat.pos_pow_of_pos bs.length (show 0 < 2 by omega)
        rw [wires_as_unsigned_cons, Bool.toNat_true, Nat.one_mul]
        omega
    have hle : wires_as_unsigned l ≤ 2 ^ l.length := le_of_lt hU
    have hcast : (wires_as_unsigned l : Int) - (2 : Int) ^ l.length =
        -(((2 ^ l.length - wires_as_unsigned l : Nat)) : Int) := by
      push_cast [hle]
      ring
    simp only [if_true]
    rw [hcast, Int.natAbs_neg, Int.natAbs_ofNat, Nat.mod_eq_of_lt (by omega)]

theorem wv_headD (st : CircuitBuilder) (inp : Nat → Bool) (v : List Nat)
    (hv : 1 ≤ v.length) :
    wv st inp (v.headD 0) = (valsL st inp v).getD 0 false := by
  cases v with
  | nil => simp at hv
  | cons a as => rw [valsL_cons, List.getD_cons_zero]; rfl

theorem headD_lt (v : List Nat) (n : Nat) (hv : 1 ≤ v.length)
    (hb : BddL v n) : v.headD 0 < n := by
  cases v with
  | nil => simp at hv
  | cons a as => exact hb.head

/-- The absolute-value block of `push_signed_division_circuit`: negate an
operand and mux the negation against the original on the operand's sign
bit; the result decodes to the absolute value of the signed operand. -/
theorem push_abs_block (v : List Nat) (st : CircuitBuilder) (inp : Nat → Bool)
    (hs : Sound st inp) (hn : 1 ≤ v.length) (hbv : BddL v st.gate_counter)
    (neg : List Nat) (stA : CircuitBuilder)
    (hq1 : push_negation_circuit v st = (neg, stA))
    (va : List Nat) (stB : CircuitBuilder)
    (hq2 : push_mux_vec (v.headD 0) neg v stA = (va, stB)) :
    Sound stB inp ∧ ExtOk st stB ∧ stB.panic_gates = st.panic_gates ∧
      va.length = v.length ∧ BddL va stB.gate_counter ∧
      wires_as_unsigned (valsL stB inp va) =
        (wires_as_signed (valsL st inp v)).natAbs := by
  obtain ⟨hsA, heA, hpA, hlenN, hbN, hvalN⟩ :=
    push_negation_circuit_spec v st inp hs hbv neg stA hq1
  have hsel : v.headD 0 < stA.gate_counter :=
    lt_of_lt_of_le (headD_lt v st.gate_counter hn hbv) heA.2.2.1
  obtain ⟨hsB, heB, hpB, hlenA, hbA, hvA⟩ :=
    push_mux_vec_spec neg v (v.headD 0) stA inp hsA hlenN hbN
      (hbv.mono heA.2.2.1) hsel va stB hq2
  have hselv : wv stA inp (v.headD 0) = (valsL st inp v).getD 0 false := by
    rw [wv_frame inp hs heA _ (headD_lt v st.gate_counter hn hbv), wv_headD st inp v hn]
  have hvfr : valsL stA inp v = valsL st inp v := valsL_frame inp hs heA hbv
  refine ⟨hsB, heA.trans heB, by rw [hpB, hpA], by rw [hlenA, hlenN], hbA, ?_⟩
  rw [hvA, hselv, hvfr, signed_natAbs]
  cases (valsL st inp v).getD 0 false
  · simp
  · simp only [if_true]
    rw [hvalN, valsL_length]

/-- Unfolding equation for `push_signed_division_circuit` in terms of its
intermediate results. -/
theorem push_signed_division_circuit_eq (x y : List Nat) (st : CircuitBuilder)
    (irn : Nat) (st1 : CircuitBuilder)
    (hq1 : push_xor (x.headD 0) (y.headD 0) st = (irn, st1))
    (xn : List Nat) (st2 : CircuitBuilder)
    (hq2 : push_negation_circuit x st1 = (xn, st2))
    (xa : List Nat) (st3 : CircuitBuilder)
    (hq3 : push_mux_vec (x.headD 0) xn x st2 = (xa, st3))
    (yn : List Nat) (st4 : CircuitBuilder)
    (hq4 : push_negation_circuit y st3 = (yn, st4))
    (ya : List Nat) (st5 : CircuitBuilder)
    (hq5 : push_mux_vec (y.headD 0) yn y st4 = (ya, st5))
    (q r : List Nat) (st6 : CircuitBuilder)
    (hq6 : push_unsigned_division_circuit xa ya st5 = ((q, r), st6))
    (qn : List Nat) (st7 : CircuitBuilder)
    (hq7 : push_negation_circuit q st6 = (qn, st7))
    (qf : List Nat) (st8 : CircuitBuilder)
    (hq8 : push_mux_vec irn qn q st7 = (qf, st8))
    (rn : List Nat) (st9 : CircuitBuilder)
    (hq9 : push_negation_circuit r st8 = (rn, st9))
    (rf : List Nat) (st10 : CircuitBuilder)
    (hq10 : push_mux_vec (x.headD 0) rn r st9 = (rf, st10)) :
    push_signed_division_circuit x y st = (((qf, rf), xa, ya), st10) := by
  rw [push_signed_division_circuit, hq1]
  show (match push_negation_circuit x st1 with
    | (x_negated, st) =>
      match push_mux_vec (x.headD 0) x_negated x st with
      | (xam, st) =>
        match push_negation_circuit y st with
        | (y_negated, st) =>
          match push_mux_vec (y.headD 0) y_negated y st with
          | (yam, st) =>
            match push_unsigned_division_circuit xam yam st with
            | ((quotient, remainder), st) =>
              match push_negation_circuit quotient st with
              | (quot_neg, st) =>
                match push_mux_vec irn quot_neg quotient st with
                | (qfm, st) =>
                  match push_negation_circuit remainder st with
                  | (rem_neg, st) =>
                    match push_mux_vec (x.headD 0) rem_neg remainder st with
                    | (rfm, st) => (((qfm, rfm), xam, yam), st)) =
    (((qf, rf), xa, ya), st10)
  rw [hq2]
  show (match push_mux_vec (x.headD 0) xn x st2 with
    | (xam, st) =>
      match push_negation_circuit y st with
      | (y_negated, st) =>
        match push_mux_vec (y.headD 0) y_negated y st with
        | (yam, st) =>
          match push_unsigned_division_circuit xam yam st with
          | ((quotient, remainder), st) =>
            match push_negation_circuit quotient st with
            | (quot_neg, st) =>
              match push_mux_vec irn quot_neg quotient st with
              | (qfm, st) =>
                match push_negation_circuit remainder st with
                | (rem_neg, st) =>
                  match push_mux_vec (x.headD 0) rem_neg remainder st with
                  | (rfm, st) => (((qfm, rfm), xam, yam), st)) =
    (((qf, rf), xa, ya), st10)
  rw [hq3]
  show (match push_negation_circuit y st3 with
    | (y_negated, st) =>
      match push_mux_vec (y.headD 0) y_negated y st with
      | (yam, st) =>
        match push_unsigned_division_circuit xa yam st with
        | ((quotient, remainder), st) =>
          match push_negation_circuit quotient st with
          | (quot_neg, st) =>
            match push_mux_vec irn quot_neg quotient st with
            | (qfm, st) =>
              match push_negation_circuit remainder st with
              | (rem_neg, st) =>
                match push_mux_vec (x.headD 0) rem_neg remainder st with
                | (rfm, st) => (((qfm, rfm), xa, yam), st)) =
    (((qf, rf), xa, ya), st10)
  rw [hq4]
  show (match push_mux_vec (y.headD 0) yn y st4 with
    | (yam, st) =>
      match push_unsigned_division_circuit xa yam st with
      | ((quotient, remainder), st) =>
        match push_negation_circuit quotient st with
        | (quot_neg, st) =>
          match push_mux_vec irn quot_neg quotient st with
          | (qfm, st) =>
            match push_negation_circuit remainder st with
            | (rem_neg, st) =>
              match push_mux_vec (x.headD 0) rem_neg remainder st with
              | (rfm, st) => (((qfm, rfm), xa, yam), st)) =
    (((qf, rf), xa, ya), st10)
  rw [hq5]
  show (match push_unsigned_division_circuit xa ya st5 with
    | ((quotient, remainder), st) =>
      match push_negation_circuit quotient st with
      | (quot_neg, st) =>
        match push_mux_vec irn quot_neg quotient st with
        | (qfm, st) =>
          match push_negation_circuit remainder st with
          | (rem_neg, st) =>
            match push_mux_vec (x.headD 0) rem_neg remainder st with
            | (rfm, st) => (((qfm, rfm), xa, ya), st)) =
    (((qf, rf), xa, ya), st10)
  rw [hq6]
  show (match push_negation_circuit q st6 with
    | (quot_neg, st) =>
      match push_mux_vec irn quot_neg q st with
      | (qfm, st) =>
        match push_negation_circuit r st with
        | (rem_neg, st) =>
          match push_mux_vec (x.headD 0) rem_neg r st with
          | (rfm, st) => (((qfm, rfm), xa, ya), st)) =
    (((qf, rf), xa, ya), st10)
  rw [hq7]
  show (match push_mux_vec irn qn q st7 with
    | (qfm, st) =>
      match push_negation_circuit r st with
      | (rem_neg, st) =>
        match push_mux_vec (x.headD 0) rem_neg r st with
        | (rfm, st) => (((qfm, rfm), xa, ya), st)) =
    (((qf, rf), xa, ya), st10)
  rw [hq8]
  show (match push_negation_circuit r st8 with
    | (rem_neg, st) =>
      match push_mux_vec (x.headD 0) rem_neg r st with
      | (rfm, st) => (((qf, rfm), xa, ya), st)) =
    (((qf, rf), xa, ya), st10)
  rw [hq9]
  show (match push_mux_vec (x.headD 0) rn r st9 with
    | (rfm, st) => (((qf, rfm), xa, ya), st)) =
    (((qf, rf), xa, ya), st10)
  rw [hq10]

/-- C9: `push_signed_division_circuit` mutates its operand vectors in
place — after the call, the caller's `x` and `y` vectors hold wires that
decode (in the final builder state) to the absolute values of the original
signed operands, rather than the original operand wires. -/
theorem C9_signed_division_mutates_operands_to_abs (x y : List Nat)
    (st : CircuitBuilder) (inp : Nat → Bool) (hs : Sound st inp)
    (hn : 1 ≤ x.length) (hlen : y.length = x.length)
    (hbx : BddL x st.gate_counter) (hby : BddL y st.gate_counter)
    (qr : List Nat × List Nat) (xa ya : List Nat) (st' : CircuitBuilder)
    (h : push_signed_division_circuit x y st = ((qr, xa, ya), st')) :
    xa.length = x.length ∧ ya.length = y.length ∧
      wires_as_unsigned (valsL st' inp xa) =
        (wires_as_signed (valsL st inp x)).natAbs ∧
      wires_as_unsigned (valsL st' inp ya) =
        (wires_as_signed (valsL st inp y)).natAbs := by
  have hny : 1 ≤ y.length := by omega
  rcases hq1 : push_xor (x.headD 0) (y.headD 0) st with ⟨irn, st1⟩
  obtain ⟨hs1, he1, hp1, hirn, _⟩ :=
    push_xor_spec (x.headD 0) (y.headD 0) st inp hs
      (headD_lt x st.gate_counter hn hbx) (headD_lt y st.gate_counter hny hby)
      irn st1 hq1
  rcases hq2 : push_negation_circuit x st1 with ⟨xn, st2⟩
  rcases hq3 : push_mux_vec (x.headD 0) xn x st2 with ⟨xav, st3⟩
  obtain ⟨hs3, he3, hp3, hlxa, hbxa, hvxa⟩ :=
    push_abs_block x st1 inp hs1 hn (hbx.mono he1.2.2.1) xn st2 hq2 xav st3 hq3
  rcases hq4 : push_negation_circuit y st3 with ⟨yn, st4⟩
  rcases hq5 : push_mux_vec (y.headD 0) yn y st4 with ⟨yav, st5⟩
  obtain ⟨hs5, he5, hp5, hlya, hbya, hvya⟩ :=
    push_abs_block y st3 inp hs3 hny (hby.mono (he1.trans he3).2.2.1)
      yn st4 hq4 yav st5 hq5
  rcases hq6 : push_unsigned_division_circuit xav yav st5 with ⟨⟨q, r⟩, st6⟩
  obtain ⟨hs6, he6, hp6, hlq, hlr, hbq, hbr⟩ :=
    push_unsigned_division_circuit_ext xav yav st5 inp hs5
      (by rw [hlya, hlxa, hlen]) (hbxa.mono he5.2.2.1) hbya q r st6 hq6
  rcases hq7 : push_negation_circuit q st6 with ⟨qn, st7⟩
  obtain ⟨hs7, he7, hp7, hlqn, hbqn, _⟩ :=
    push_negation_circuit_spec q st6 inp hs6 hbq qn st7 hq7
  rcases hq8 : push_mux_vec irn qn q st7 with ⟨qf, st8⟩
  obtain ⟨hs8, he8, hp8, hlqf, hbqf, _⟩ :=
    push_mux_vec_spec qn q irn st7 inp hs7 hlqn hbqn (hbq.mono he7.2.2.1)
      (lt_of_lt_of_le hirn ((((he3.trans he5).trans he6).trans he7).2.2.1))
      qf st8 hq8
  rcases hq9 : push_negation_circuit r st8 with ⟨rn, st9⟩
  obtain ⟨hs9, he9, hp9, hlrn, hbrn, _⟩ :=
    push_negation_circuit_spec r st8 inp hs8 (hbr.mono (he7.trans he8).2.2.1)
      rn st9 hq9
  rcases hq10 : push_mux_vec (x.headD 0) rn r st9 with ⟨rf, st10⟩
  obtain ⟨hs10, he10, hp10, hlrf, hbrf, _⟩ :=
    push_mux_vec_spec rn r (x.headD 0) st9 inp hs9
      (by rw [hlrn]) hbrn (hbr.mono ((he7.trans he8).trans he9).2.2.1)
      (lt_of_lt_of_le (headD_lt x st.gate_counter hn hbx)
        ((((((((he1.trans he3).trans he5).trans he6).trans he7).trans
          he8).trans he9).2.2.1)))
      rf st10 hq10
  rw [push_signed_division_circuit_eq x y st irn st1 hq1 xn st2 hq2 xav st3 hq3
    yn st4 hq4 yav st5 hq5 q r st6 hq6 qn st7 hq7 qf st8 hq8 rn st9 hq9
    rf st10 hq10] at h
  obtain ⟨h1, h2⟩ := Prod.mk.injEq .. |>.mp h
  subst h2
  obtain ⟨h3, h4⟩ := Prod.mk.injEq .. |>.mp h1
  obtain ⟨h5, h6⟩ := Prod.mk.injEq .. |>.mp h4
  subst h5
  subst h6
  subst h3
  have hexa : ExtOk st3 st10 :=
    ((((he5.trans he6).trans he7).trans he8).trans he9).trans he10
  have heya : ExtOk st5 st10 :=
    (((he6.trans he7).trans he8).trans he9).trans he10
  refine ⟨hlxa, by rw [hlya], ?_, ?_⟩
  · rw [valsL_frame inp hs3 hexa hbxa, hvxa,
      valsL_frame inp hs he1 hbx]
  · rw [valsL_frame inp hs5 heya hbya, hvya,
      valsL_frame inp hs1 he3 (hby.mono he1.2.2.1),
      valsL_frame inp hs he1 hby]

theorem C9_signed_division_mutates_operands_to_abs_witness :
    (push_signed_division_circuit [2] [3] (CircuitBuilder.new [2])).1.2.1.length =
        List.length [2] ∧
      (push_signed_division_circuit [2] [3] (CircuitBuilder.new [2])).1.2.2.length =
        List.length [3] ∧
      wires_as_unsigned (valsL
          (push_signed_division_circuit [2] [3] (CircuitBuilder.new [2])).2
          (fun w => decide (w = 2))
          (push_signed_division_circuit [2] [3] (CircuitBuilder.new [2])).1.2.1) =
        (wires_as_signed
          (valsL (CircuitBuilder.new [2]) (fun w => decide (w = 2)) [2])).natAbs ∧
      wires_as_unsigned (valsL
          (push_signed_division_circuit [2] [3] (CircuitBuilder.new [2])).2
          (fun w => decide (w = 2))
          (push_signed_division_circuit [2] [3] (CircuitBuilder.new [2])).1.2.2) =
        (wires_as_signed
          (valsL (CircuitBuilder.new [2]) (fun w => decide (w = 2)) [3])).natAbs :=
  C9_signed_division_mutates_operands_to_abs [2] [3] (CircuitBuilder.new [2])
    (fun w => decide (w = 2)) (sound_new [2] _) (by decide) rfl
    (by intro w hw; rw [List.mem_singleton] at hw; subst hw; decide)
    (by intro w hw; rw [List.mem_singleton] at hw; subst hw; decide)
    _ _ _ _ rfl

/-- C6 (amended): the algebraic identities of the push operations hold for
every wire `x` that the optimizer leaves in place (`optimize_gate st x 1 0 =
x`) — in particular for the constant wires and every input wire below
`shift`.  Over arbitrary builder states the optimizer may rewrite `x` to an
equivalent wire, so the proviso is necessary (see the counterexample). -/
theorem C6_push_identities (st : CircuitBuilder) (x : Nat)
    (hsh : 2 ≤ st.shift) (halloc : x < st.gate_counter)
    (hx : optimize_gate st x 1 0 = x) :
    (push_xor x 0 st).1 = x ∧ (push_and x 1 st).1 = x ∧
      (push_and x x st).1 = x ∧ (push_xor x x st).1 = 0 ∧
      ∀ s, (push_mux s x x st).1 = x := by
  have h0 : optimize_gate st 0 1 0 = 0 := by
    rw [optimize_gate, dif_neg (by decide), if_neg (by decide), if_neg (by omega)]
  have h1x : optimize_gate st 1 x 0 = 1 := by
    rw [optimize_gate, dif_neg (by decide)]
    by_cases hx1 : 1 = x
    · rw [if_pos hx1]
    · rw [if_neg hx1, if_neg (by omega)]
  have hMw : ∀ w t, optimize_gate st w t MAX_OPTIMIZATION_DEPTH = w := by
    intro w t
    rw [optimize_gate, dif_pos (le_refl _)]
  have hxor0 : (push_xor x 0 st).1 = x := by
    have hox : optimize_xor st x 0 1 0 = some x := by
      simp only [optimize_xor, hx, h0]
      by_cases hx0 : x = 0
      · simp [hx0]
      · simp [hx0]
    rw [push_xor, hox]
  have hand1 : (push_and x 1 st).1 = x := by
    have hoa : optimize_and st x 1 1 MAX_OPTIMIZATION_DEPTH = some x := by
      simp only [optimize_and, hMw]
      by_cases hx0 : x = 0
      · simp [hx0]
      · by_cases hx1 : x = 1
        · simp [hx0, hx1]
        · simp [hx0, hx1]
    simp only [push_and, hx, h1x, hoa]
  have handxx : (push_and x x st).1 = x := by
    have hxx : optimize_gate st x x 0 = 1 := by
      rw [optimize_gate, dif_neg (by decide), if_pos rfl]
    have hoa : optimize_and st 1 x 1 MAX_OPTIMIZATION_DEPTH = some x := by
      simp only [optimize_and, hMw]
      by_cases hx0 : x = 0
      · simp [hx0]
      · simp [hx0]
    simp only [push_and, hxx, hx, hoa]
  have hxorxx : (push_xor x x st).1 = 0 := by
    have hox : optimize_xor st x x 1 0 = some 0 := by
      simp only [optimize_xor, hx]
      by_cases hx0 : x = 0
      · simp [hx0]
      · simp [hx0]
    rw [push_xor, hox]
  refine ⟨hxor0, hand1, handxx, hxorxx, ?_⟩
  intro s
  rw [push_mux, if_pos rfl]

theorem C6_push_identities_witness :
    (push_xor 2 0 (CircuitBuilder.new [1])).1 = 2 ∧
      (push_and 2 1 (CircuitBuilder.new [1])).1 = 2 ∧
      (push_and 2 2 (CircuitBuilder.new [1])).1 = 2 ∧
      (push_xor 2 2 (CircuitBuilder.new [1])).1 = 0 ∧
      (push_mux 0 2 2 (CircuitBuilder.new [1])).1 = 2 :=
  have h := C6_push_identities (CircuitBuilder.new [1]) 2 (by decide) (by decide)
    (by rw [optimize_gate, dif_neg (by decide), if_neg (by decide), if_neg (by decide)])
  ⟨h.1, h.2.1, h.2.2.1, h.2.2.2.1, h.2.2.2.2 0⟩

/-- A well-formed builder state whose gate list contains a gate the
optimizer rewrites to a constant (`Xor 2 2` denotes `false`): wire 3 is
allocated, yet `push_xor 3 0` returns wire 0 instead of wire 3. -/
def cbC6 : CircuitBuilder where
  shift := 3
  input_gates := [1]
  gates := [BuilderGate.Xor 2 2]
  cache := []
  negated := []
  gates_optimized := 0
  gate_counter := 4
  panic_gates := PanicResult.ok

/-- C6 counterexample: over arbitrary builder states the identity
`push_xor (x, 0) = x` fails for an allocated wire that the optimizer
rewrites. -/
theorem C6_push_identities_counterexample :
    2 ≤ cbC6.shift ∧ 3 < cbC6.gate_counter ∧ WfGates cbC6.shift cbC6.gates ∧
      (push_xor 3 0 cbC6).1 ≠ 3 := by
  refine ⟨by decide, by decide, ?_, ?_⟩
  · intro i g h
    match i, h with
    | 0, h =>
      have h2 : some (BuilderGate.Xor 2 2) = some g := h
      obtain rfl := Option.some.inj h2
      exact ⟨by decide, by decide⟩
    | i + 1, h => exact nomatch h
  · have hg22 : optimize_xor cbC6 2 2 1 1 = some 0 := by
      have h2 : optimize_gate cbC6 2 1 1 = 2 := by
        rw [optimize_gate, dif_neg (by decide), if_neg (by decide), if_neg (by decide)]
      simp only [optimize_xor, h2]
      simp
    have hg3 : optimize_gate cbC6 3 1 0 = 0 := by
      rw [optimize_gate, dif_neg (by decide), if_neg (by decide), if_pos (by decide)]
      show (optimize_xor cbC6 2 2 1 1).getD 3 = 0
      rw [hg22]
      rfl
    have hg0 : optimize_gate cbC6 0 1 0 = 0 := by
      rw [optimize_gate, dif_neg (by decide), if_neg (by decide), if_neg (by decide)]
    have hox : optimize_xor cbC6 3 0 1 0 = some 0 := by
      simp only [optimize_xor, hg3, hg0]
      simp
    have hres : (push_xor 3 0 cbC6).1 = 0 := by
      rw [push_xor, hox]
    rw [hres]
    decide

/-- `unsigned_to_bits` from `compiler.rs`: appends `size` bits of `n`
(MSB-first, `(n >> (size - 1 - i)) & 1 == 1`) to the accumulator. -/
def unsigned_to_bits (n : Nat) (size : Nat) (bits : List Bool) : List Bool :=
  bits ++ (List.range size).map (fun i => Nat.testBit n (size - 1 - i))

theorem mod_two_pow_succ (n w : Nat) :
    n % 2 ^ (w + 1) = (n / 2 % 2 ^ w) * 2 + n % 2 := by
  have hP : 0 < 2 ^ w := Nat.pos_pow_of_pos w (by omega)
  conv_lhs => rw [← Nat.div_add_mod n 2]
  rw [pow_succ]
  conv_lhs => rw [← Nat.div_add_mod (n / 2) (2 ^ w)]
  have h1 : 2 * (2 ^ w * (n / 2 / 2 ^ w) + n / 2 % 2 ^ w) + n % 2
      = (2 ^ w * 2) * (n / 2 / 2 ^ w) + ((n / 2 % 2 ^ w) * 2 + n % 2) := by ring
  rw [h1, Nat.mul_add_mod]
  have h2 : n / 2 % 2 ^ w < 2 ^ w := Nat.mod_lt _ hP
  have h3 : n % 2 < 2 := Nat.mod_lt _ (by omega)
  rw [Nat.mod_eq_of_lt (by omega)]

/-- The MSB-first bit map of width `w` decodes to `n mod 2 ^ w`. -/
theorem unsigned_bits_val :
    ∀ (w n : Nat),
      wires_as_unsigned ((List.range w).map (fun i => Nat.testBit n (w - 1 - i))) =
        n % 2 ^ w := by
  intro w
  induction w with
  | zero =>
    intro n
    rw [List.range_zero, List.map_nil, wires_as_unsigned_nil, pow_zero, Nat.mod_one]
  | succ w ih =>
    intro n
    rw [List.range_succ, List.map_append]
    have hpre : ∀ i ∈ List.range w,
        Nat.testBit n (w + 1 - 1 - i) = Nat.testBit (n / 2) (w - 1 - i) := by
      intro i hi
      rw [List.mem_range] at hi
      have he : w + 1 - 1 - i = (w - 1 - i) + 1 := by omega
      rw [he, Nat.testBit_succ]
    rw [List.map_congr_left hpre]
    simp only [List.map_cons, List.map_nil]
    have hidx : w + 1 - 1 - w = 0 := by omega
    rw [hidx, wires_as_unsigned_append]
    have hsing : wires_as_unsigned [Nat.testBit n 0] = (Nat.testBit n 0).toNat := by
      rw [wires_as_unsigned_cons, wires_as_unsigned_nil]
      simp
    have hbit : (Nat.testBit n 0).toNat = n % 2 := by
      rw [Nat.testBit_zero]
      rcases Nat.mod_two_eq_zero_or_one n with h2 | h2 <;> simp [h2]
    rw [hsing, hbit, ih (n / 2), mod_two_pow_succ]
    simp

/-- C7 (amended): `unsigned_to_bits` always produces exactly `size` bits
(appended to the accumulator) and they are the MSB-first encoding of
`n mod 2 ^ size`; in particular they encode `n` itself exactly when
`n < 2 ^ size`, and for larger `n` the function silently truncates instead
of reporting an error. -/
theorem C7_unsigned_to_bits_encoding (n size : Nat) (bits : List Bool) :
    (unsigned_to_bits n size bits).length = bits.length + size ∧
      wires_as_unsigned (unsigned_to_bits n size []) = n % 2 ^ size := by
  constructor
  · simp [unsigned_to_bits]
  · rw [unsigned_to_bits, List.nil_append, unsigned_bits_val]

/-- C7 counterexample: for `n = 2 ≥ 2 ^ 1` the function does not fail — it
returns the truncated encoding `[false]`. -/
theorem C7_unsigned_to_bits_counterexample :
    unsigned_to_bits 2 1 [] = [false] ∧
      wires_as_unsigned (unsigned_to_bits 2 1 []) = 0 ∧ 2 ^ 1 ≤ 2 := by
  refine ⟨by decide, by decide, by decide⟩

/-- The interleaved four-way mux loop of `CircuitBuilder::push_panic_if`
(one iteration muxes `start_line[i]`, `start_column[i]`, `end_line[i]`,
`end_column[i]`, in that order). -/
def push_mux_quad (sel : Nat) (a b c d e f g k : List Nat) (st : CircuitBuilder) :
    (List Nat × List Nat × List Nat × List Nat) × CircuitBuilder :=
  match a with
  | [] => (([], [], [], []), st)
  | a0 :: as_ =>
    match b with
    | [] => (([], [], [], []), st)
    | b0 :: bs =>
      match c with
      | [] => (([], [], [], []), st)
      | c0 :: cs =>
        match d with
        | [] => (([], [], [], []), st)
        | d0 :: ds =>
          match e with
          | [] => (([], [], [], []), st)
          | e0 :: es =>
            match f with
            | [] => (([], [], [], []), st)
            | f0 :: fs =>
              match g with
              | [] => (([], [], [], []), st)
              | g0 :: gs =>
                match k with
                | [] => (([], [], [], []), st)
                | k0 :: ks =>
                  let (ma, st) := push_mux sel a0 e0 st
                  let (mb, st) := push_mux sel b0 f0 st
                  let (mc, st) := push_mux sel c0 g0 st
                  let (md, st) := push_mux sel d0 k0 st
                  let ((ra, rb, rc, rd), st) :=
                    push_mux_quad sel as_ bs cs ds es fs gs ks st
                  ((ma :: ra, mb :: rb, mc :: rc, md :: rd), st)

/-- Unfolding equation for one iteration of `push_mux_quad`. -/
theorem push_mux_quad_eq (sel : Nat) (a0 b0 c0 d0 e0 f0 g0 k0 : Nat)
    (as_ bs cs ds es fs gs ks : List Nat) (st : CircuitBuilder)
    (ma : Nat) (st1 : CircuitBuilder) (hq1 : push_mux sel a0 e0 st = (ma, st1))
    (mb : Nat) (st2 : CircuitBuilder) (hq2 : push_mux sel b0 f0 st1 = (mb, st2))
    (mc : Nat) (st3 : CircuitBuilder) (hq3 : push_mux sel c0 g0 st2 = (mc, st3))
    (md : Nat) (st4 : CircuitBuilder) (hq4 : push_mux sel d0 k0 st3 = (md, st4))
    (ta tb tc td : List Nat) (st5 : CircuitBuilder)
    (hq5 : push_mux_quad sel as_ bs cs ds es fs gs ks st4 =
      ((ta, tb, tc, td), st5)) :
    push_mux_quad sel (a0 :: as_) (b0 :: bs) (c0 :: cs) (d0 :: ds)
      (e0 :: es) (f0 :: fs) (g0 :: gs) (k0 :: ks) st =
      ((ma :: ta, mb :: tb, mc :: tc, md :: td), st5) := by
  rw [push_mux_quad, hq1]
  show (match push_mux sel b0 f0 st1 with
    | (mb, st) =>
      match push_mux sel c0 g0 st with
      | (mc, st) =>
        match push_mux sel d0 k0 st with
        | (md, st) =>
          match push_mux_quad sel as_ bs cs ds es fs gs ks st with
          | ((ra, rb, rc, rd), st) =>
            ((ma :: ra, mb :: rb, mc :: rc, md :: rd), st)) =
    ((ma :: ta, mb :: tb, mc :: tc, md :: td), st5)
  rw [hq2]
  show (match push_mux sel c0 g0 st2 with
    | (mc, st) =>
      match push_mux sel d0 k0 st with
      | (md, st) =>
        match push_mux_quad sel as_ bs cs ds es fs gs ks st with
        | ((ra, rb, rc, rd), st) =>
          ((ma :: ra, mb :: rb, mc :: rc, md :: rd), st)) =
    ((ma :: ta, mb :: tb, mc :: tc, md :: td), st5)
  rw [hq3]
  show (match push_mux sel d0 k0 st3 with
    | (md, st) =>
      match push_mux_quad sel as_ bs cs ds es fs gs ks st with
      | ((ra, rb, rc, rd), st) =>
        ((ma :: ra, mb :: rb, mc :: rc, md :: rd), st)) =
    ((ma :: ta, mb :: tb, mc :: tc, md :: td), st5)
  rw [hq4]
  show (match push_mux_quad sel as_ bs cs ds es fs gs ks st4 with
    | ((ra, rb, rc, rd), st) =>
      ((ma :: ra, mb :: rb, mc :: rc, md :: rd), st)) =
    ((ma :: ta, mb :: tb, mc :: tc, md :: td), st5)
  rw [hq5]

theorem push_mux_quad_spec :
    ∀ (a : List Nat) (b c d a2 b2 c2 d2 : List Nat) (sel : Nat)
      (st : CircuitBuilder) (inp : Nat → Bool),
      Sound st inp →
      b.length = a.length → c.length = a.length → d.length = a.length →
      a2.length = a.length → b2.length = a.length → c2.length = a.length →
      d2.length = a.length →
      BddL a st.gate_counter → BddL b st.gate_counter → BddL c st.gate_counter →
      BddL d st.gate_counter → BddL a2 st.gate_counter → BddL b2 st.gate_counter →
      BddL c2 st.gate_counter → BddL d2 st.gate_counter →
      sel < st.gate_counter →
      ∀ ra rb rc rd st',
        push_mux_quad sel a b c d a2 b2 c2 d2 st = ((ra, rb, rc, rd), st') →
        Sound st' inp ∧ ExtOk st st' ∧ st'.panic_gates = st.panic_gates ∧
          ra.length = a.length ∧ rb.length = a.length ∧ rc.length = a.length ∧
          rd.length = a.length ∧
          BddL ra st'.gate_counter ∧ BddL rb st'.gate_counter ∧
          BddL rc st'.gate_counter ∧ BddL rd st'.gate_counter ∧
          valsL st' inp ra =
            (if wv st inp sel then valsL st inp a else valsL st inp a2) ∧
          valsL st' inp rb =
            (if wv st inp sel then valsL st inp b else valsL st inp b2) ∧
          valsL st' inp rc =
            (if wv st inp sel then valsL st inp c else valsL st inp c2) ∧
          valsL st' inp rd =
            (if wv st inp sel then valsL st inp d else valsL st inp d2) := by
  intro a
  induction a with
  | nil =>
    intro b c d a2 b2 c2 d2 sel st inp hs hlb hlc hld hla2 hlb2 hlc2 hld2
      hba hbb hbc hbd hba2 hbb2 hbc2 hbd2 hsel ra rb rc rd st' h
    obtain rfl : b = [] := List.length_eq_zero.mp (by simpa using hlb)
    obtain rfl : c = [] := List.length_eq_zero.mp (by simpa using hlc)
    obtain rfl : d = [] := List.length_eq_zero.mp (by simpa using hld)
    obtain rfl : a2 = [] := List.length_eq_zero.mp (by simpa using hla2)
    obtain rfl : b2 = [] := List.length_eq_zero.mp (by simpa using hlb2)
    obtain rfl : c2 = [] := List.length_eq_zero.mp (by simpa using hlc2)
    obtain rfl : d2 = [] := List.length_eq_zero.mp (by simpa using hld2)
    have h2 : ((([] : List Nat), ([] : List Nat), ([] : List Nat), ([] : List Nat)),
        st) = ((ra, rb, rc, rd), st') := h
    obtain ⟨h1, h2⟩ := Prod.mk.injEq .. |>.mp h2
    subst h2
    obtain ⟨h3, h4⟩ := Prod.mk.injEq .. |>.mp h1
    obtain ⟨h5, h6⟩ := Prod.mk.injEq .. |>.mp h4
    obtain ⟨h7, h8⟩ := Prod.mk.injEq .. |>.mp h6
    subst h3
    subst h5
    subst h7
    subst h8
    refine ⟨hs, ExtOk.refl st, rfl, rfl, rfl, rfl, rfl,
      BddL.nil _, BddL.nil _, BddL.nil _, BddL.nil _, ?_, ?_, ?_, ?_⟩ <;>
      cases wv st inp sel <;> simp [valsL_nil]
  | cons a0 as_ ih =>
    intro b c d a2 b2 c2 d2 sel st inp hs hlb hlc hld hla2 hlb2 hlc2 hld2
      hba hbb hbc hbd hba2 hbb2 hbc2 hbd2 hsel ra rb rc rd st' h
    rcases b with _ | ⟨b0, bs⟩
    · rw [List.length_nil, List.length_cons] at hlb; omega
    rcases c with _ | ⟨c0, cs⟩
    · rw [List.length_nil, List.length_cons] at hlc; omega
    rcases d with _ | ⟨d0, ds⟩
    · rw [List.length_nil, List.length_cons] at hld; omega
    rcases a2 with _ | ⟨e0, es⟩
    · rw [List.length_nil, List.length_cons] at hla2; omega
    rcases b2 with _ | ⟨f0, fs⟩
    · rw [List.length_nil, List.length_cons] at hlb2; omega
    rcases c2 with _ | ⟨g0, gs⟩
    · rw [List.length_nil, List.length_cons] at hlc2; omega
    rcases d2 with _ | ⟨k0, ks⟩
    · rw [List.length_nil, List.length_cons] at hld2; omega
    rcases hq1 : push_mux sel a0 e0 st with ⟨ma, st1⟩
    obtain ⟨hs1, he1, hp1, hma, hva⟩ :=
      push_mux_spec sel a0 e0 st inp hs hsel hba.head hba2.head ma st1 hq1
    rcases hq2 : push_mux sel b0 f0 st1 with ⟨mb, st2⟩
    obtain ⟨hs2, he2, hp2, hmb, hvb⟩ :=
      push_mux_spec sel b0 f0 st1 inp hs1 (lt_of_lt_of_le hsel he1.2.2.1)
        (lt_of_lt_of_le hbb.head he1.2.2.1) (lt_of_lt_of_le hbb2.head he1.2.2.1)
        mb st2 hq2
    rcases hq3 : push_mux sel c0 g0 st2 with ⟨mc, st3⟩
    obtain ⟨hs3, he3, hp3, hmc, hvc⟩ :=
      push_mux_spec sel c0 g0 st2 inp hs2
        (lt_of_lt_of_le hsel (he1.trans he2).2.2.1)
        (lt_of_lt_of_le hbc.head (he1.trans he2).2.2.1)
        (lt_of_lt_of_le hbc2.head (he1.trans he2).2.2.1) mc st3 hq3
    rcases hq4 : push_mux sel d0 k0 st3 with ⟨md, st4⟩
    obtain ⟨hs4, he4, hp4, hmd, hvd⟩ :=
      push_mux_spec sel d0 k0 st3 inp hs3
        (lt_of_lt_of_le hsel ((he1.trans he2).trans he3).2.2.1)
        (lt_of_lt_of_le hbd.head ((he1.trans he2).trans he3).2.2.1)
        (lt_of_lt_of_le hbd2.head ((he1.trans he2).trans he3).2.2.1) md st4 hq4
    have he14 : ExtOk st st4 := ((he1.trans he2).trans he3).trans he4
    rcases hq5 : push_mux_quad sel as_ bs cs ds es fs gs ks st4
      with ⟨⟨ta, tb, tc, td⟩, st5⟩
    rw [push_mux_quad_eq sel a0 b0 c0 d0 e0 f0 g0 k0 as_ bs cs ds es fs gs ks st
      ma st1 hq1 mb st2 hq2 mc st3 hq3 md st4 hq4 ta tb tc td st5 hq5] at h
    obtain ⟨h1, h2⟩ := Prod.mk.injEq .. |>.mp h
    subst h2
    obtain ⟨h3, h4⟩ := Prod.mk.injEq .. |>.mp h1
    obtain ⟨h5, h6⟩ := Prod.mk.injEq .. |>.mp h4
    obtain ⟨h7, h8⟩ := Prod.mk.injEq .. |>.mp h6
    subst h3
    subst h5
    subst h7
    subst h8
    obtain ⟨hs5, he5, hp5, hlta, hltb, hltc, hltd, hbta, hbtb, hbtc, hbtd,
        hvta, hvtb, hvtc, hvtd⟩ :=
      ih bs cs ds es fs gs ks sel st4 inp hs4
        (by simpa using hlb) (by simpa using hlc) (by simpa using hld)
        (by simpa using hla2) (by simpa using hlb2) (by simpa using hlc2)
        (by simpa using hld2)
        (hba.tail.mono he14.2.2.1) (hbb.tail.mono he14.2.2.1)
        (hbc.tail.mono he14.2.2.1) (hbd.tail.mono he14.2.2.1)
        (hba2.tail.mono he14.2.2.1) (hbb2.tail.mono he14.2.2.1)
        (hbc2.tail.mono he14.2.2.1) (hbd2.tail.mono he14.2.2.1)
        (lt_of_lt_of_le hsel he14.2.2.1) ta tb tc td st5 hq5
    have hesel : wv st4 inp sel = wv st inp sel :=
      wv_frame inp hs he14 sel hsel
    have hma5 : wv st5 inp ma = wv st1 inp ma :=
      wv_frame inp hs1 (((he2.trans he3).trans he4).trans he5) ma hma
    have hmb5 : wv st5 inp mb = wv st2 inp mb :=
      wv_frame inp hs2 ((he3.trans he4).trans he5) mb hmb
    have hmc5 : wv st5 inp mc = wv st3 inp mc :=
      wv_frame inp hs3 (he4.trans he5) mc hmc
    have hmd5 : wv st5 inp md = wv st4 inp md :=
      wv_frame inp hs4 he5 md hmd
    refine ⟨hs5, he14.trans he5, by rw [hp5, hp4, hp3, hp2, hp1],
      by simp [hlta], by simp [hltb], by simp [hltc], by simp [hltd],
      BddL.cons (lt_of_lt_of_le hma (((he2.trans he3).trans he4).trans he5).2.2.1) hbta,
      BddL.cons (lt_of_lt_of_le hmb ((he3.trans he4).trans he5).2.2.1) hbtb,
      BddL.cons (lt_of_lt_of_le hmc ((he4.trans he5).2.2.1)) hbtc,
      BddL.cons (lt_of_lt_of_le hmd he5.2.2.1) hbtd, ?_, ?_, ?_, ?_⟩
    · rw [valsL_cons, hvta, hesel, hma5, hva,
        valsL_frame inp hs he14 hba.tail, valsL_frame inp hs he14 hba2.tail]
      cases wv st inp sel <;> simp [valsL_cons]
    · rw [valsL_cons, hvtb, hesel, hmb5, hvb,
        wv_frame inp hs he1 sel hsel,
        wv_frame inp hs he1 b0 hbb.head, wv_frame inp hs he1 f0 hbb2.head,
        valsL_frame inp hs he14 hbb.tail, valsL_frame inp hs he14 hbb2.tail]
      cases wv st inp sel <;> simp [valsL_cons]
    · rw [valsL_cons, hvtc, hesel, hmc5, hvc,
        wv_frame inp hs (he1.trans he2) sel hsel,
        wv_frame inp hs (he1.trans he2) c0 hbc.head,
        wv_frame inp hs (he1.trans he2) g0 hbc2.head,
        valsL_frame inp hs he14 hbc.tail, valsL_frame inp hs he14 hbc2.tail]
      cases wv st inp sel <;> simp [valsL_cons]
    · rw [valsL_cons, hvtd, hesel, hmd5, hvd,
        wv_frame inp hs ((he1.trans he2).trans he3) sel hsel,
        wv_frame inp hs ((he1.trans he2).trans he3) d0 hbd.head,
        wv_frame inp hs ((he1.trans he2).trans he3) k0 hbd2.head,
        valsL_frame inp hs he14 hbd.tail, valsL_frame inp hs he14 hbd2.tail]
      cases wv st inp sel <;> simp [valsL_cons]

theorem wv_bit_const (st : CircuitBuilder) (inp : Nat → Bool) (n k : Nat) :
    wv st inp ((n >>> k) &&& 1) = Nat.testBit n k := by
  rw [Nat.and_one_is_mod, Nat.shiftRight_eq_div_pow, Nat.testBit_to_div_mod]
  rcases Nat.mod_two_eq_zero_or_one (n / 2 ^ k) with h | h <;> rw [h]
  · rw [wv_zero]
    simp
  · rw [wv_one]
    simp

/-- The constant wires produced by `unsigned_as_usize_bits` denote the
MSB-first bits of `n`. -/
theorem valsL_usize_bits (st : CircuitBuilder) (inp : Nat → Bool) (n : Nat) :
    valsL st inp (unsigned_as_usize_bits n) =
      (List.range USIZE_BITS).map (fun i => Nat.testBit n (USIZE_BITS - 1 - i)) := by
  rw [valsL, unsigned_as_usize_bits, List.map_map]
  apply List.map_congr_left
  intro i _
  exact wv_bit_const st inp n (USIZE_BITS - 1 - i)

theorem usize_bits_value (st : CircuitBuilder) (inp : Nat → Bool) (n : Nat) :
    wires_as_unsigned (valsL st inp (unsigned_as_usize_bits n)) =
      n % 2 ^ USIZE_BITS := by
  rw [valsL_usize_bits, unsigned_bits_val]

theorem usize_bits_length (n : Nat) :
    (unsigned_as_usize_bits n).length = USIZE_BITS := by
  rw [unsigned_as_usize_bits, List.length_map, List.length_range]

theorem BddL_usize_bits (n c : Nat) (hc : 2 ≤ c) :
    BddL (unsigned_as_usize_bits n) c := by
  intro w hw
  rw [unsigned_as_usize_bits] at hw
  obtain ⟨i, _, rfl⟩ := List.mem_map.mp hw
  have hm := Nat.and_one_is_mod (n >>> (USIZE_BITS - 1 - i))
  omega

/-- The numeric encoding of a `PanicReason` (as in `PanicReason::as_bits`
and `PanicReason::from_num`). -/
def reason_num : PanicReason → Nat
  | .Overflow => 1
  | .DivByZero => 2
  | .OutOfBounds => 3

theorem as_bits_eq (r : PanicReason) :
    r.as_bits = unsigned_as_usize_bits (reason_num r) := by
  cases r <;> rfl

theorem as_bits_length (r : PanicReason) : r.as_bits.length = USIZE_BITS := by
  rw [as_bits_eq, usize_bits_length]

theorem reason_num_lt (r : PanicReason) : reason_num r < 2 ^ USIZE_BITS := by
  cases r <;> decide

/-- `CircuitBuilder::push_panic_if` from `circuit.rs`: OR the condition into
`has_panicked`, then mux every span wire and every reason wire on the
previous `has_panicked` (the in-place elementwise array writes are rendered
as building the new wire lists). -/
def push_panic_if (cond : Nat) (reason : PanicReason) (meta : MetaInfo)
    (st : CircuitBuilder) : CircuitBuilder :=
  let already_panicked := st.panic_gates.has_panicked
  let (hp, st1) := push_or st.panic_gates.has_panicked cond st
  let ((sl, sc, el, ec), st2) :=
    push_mux_quad already_panicked
      st.panic_gates.start_line st.panic_gates.start_column
      st.panic_gates.end_line st.panic_gates.end_column
      (unsigned_as_usize_bits meta.start.1) (unsigned_as_usize_bits meta.start.2)
      (unsigned_as_usize_bits meta.end_.1) (unsigned_as_usize_bits meta.end_.2) st1
  let (pt, st3) :=
    push_mux_vec already_panicked st.panic_gates.panic_type reason.as_bits st2
  { st3 with panic_gates :=
      { has_panicked := hp, panic_type := pt, start_line := sl,
        start_column := sc, end_line := el, end_column := ec } }

/-- Unfolding equation for `push_panic_if`. -/
theorem push_panic_if_eq (cond : Nat) (reason : PanicReason) (meta : MetaInfo)
    (st : CircuitBuilder)
    (hp : Nat) (st1 : CircuitBuilder)
    (hq1 : push_or st.panic_gates.has_panicked cond st = (hp, st1))
    (sl sc el ec : List Nat) (st2 : CircuitBuilder)
    (hq2 : push_mux_quad st.panic_gates.has_panicked
      st.panic_gates.start_line st.panic_gates.start_column
      st.panic_gates.end_line st.panic_gates.end_column
      (unsigned_as_usize_bits meta.start.1) (unsigned_as_usize_bits meta.start.2)
      (unsigned_as_usize_bits meta.end_.1) (unsigned_as_usize_bits meta.end_.2)
      st1 = ((sl, sc, el, ec), st2))
    (pt : List Nat) (st3 : CircuitBuilder)
    (hq3 : push_mux_vec st.panic_gates.has_panicked st.panic_gates.panic_type
      reason.as_bits st2 = (pt, st3)) :
    push_panic_if cond reason meta st =
      { st3 with panic_gates :=
          { has_panicked := hp, panic_type := pt, start_line := sl,
            start_column := sc, end_line := el, end_column := ec } } := by
  rw [push_panic_if]
  simp only [hq1, hq2, hq3]

theorem wv_set_panic (st : CircuitBuilder) (P : PanicResult) (inp : Nat → Bool)
    (w : Nat) : wv { st with panic_gates := P } inp w = wv st inp w := rfl

theorem valsL_set_panic (st : CircuitBuilder) (P : PanicResult) (inp : Nat → Bool)
    (ws : List Nat) : valsL { st with panic_gates := P } inp ws = valsL st inp ws := rfl

theorem sound_set_panic {st : CircuitBuilder} {inp : Nat → Bool} (hs : Sound st inp)
    (P : PanicResult) : Sound { st with panic_gates := P } inp :=
  ⟨hs.hshift, hs.hcounter, hs.hwf, hs.hcache, hs.hneg⟩

theorem extOk_set_panic (st : CircuitBuilder) (P : PanicResult) :
    ExtOk st { st with panic_gates := P } := ⟨rfl, rfl, le_refl _, [], by simp⟩

/-- The invariant of the panic wires: the builder's panic state decodes to
the semantic panic `cur` (`none` = no panic recorded; `some (r, m)` = a
panic with reason `r` at span `m`). -/
structure PanicInv (st : CircuitBuilder) (inp : Nat → Bool)
    (cur : Option (PanicReason × MetaInfo)) : Prop where
  hhp : st.panic_gates.has_panicked < st.gate_counter
  hbt : BddL st.panic_gates.panic_type st.gate_counter
  hbsl : BddL st.panic_gates.start_line st.gate_counter
  hbsc : BddL st.panic_gates.start_column st.gate_counter
  hbel : BddL st.panic_gates.end_line st.gate_counter
  hbec : BddL st.panic_gates.end_column st.gate_counter
  hlt : st.panic_gates.panic_type.length = USIZE_BITS
  hlsl : st.panic_gates.start_line.length = USIZE_BITS
  hlsc : st.panic_gates.start_column.length = USIZE_BITS
  hlel : st.panic_gates.end_line.length = USIZE_BITS
  hlec : st.panic_gates.end_column.length = USIZE_BITS
  hhv : wv st inp st.panic_gates.has_panicked = cur.isSome
  hdec : ∀ r m, cur = some (r, m) →
    wires_as_unsigned (valsL st inp st.panic_gates.panic_type) = reason_num r ∧
    wires_as_unsigned (valsL st inp st.panic_gates.start_line) =
      m.start.1 % 2 ^ USIZE_BITS ∧
    wires_as_unsigned (valsL st inp st.panic_gates.start_column) =
      m.start.2 % 2 ^ USIZE_BITS ∧
    wires_as_unsigned (valsL st inp st.panic_gates.end_line) =
      m.end_.1 % 2 ^ USIZE_BITS ∧
    wires_as_unsigned (valsL st inp st.panic_gates.end_column) =
      m.end_.2 % 2 ^ USIZE_BITS

/-- One `push_panic_if` call: the recorded panic becomes the old one if
present, and otherwise the new reason/span guarded by the condition. -/
theorem push_panic_if_spec (cond : Nat) (reason : PanicReason) (meta : MetaInfo)
    (st : CircuitBuilder) (inp : Nat → Bool) (hs : Sound st inp)
    (cur : Option (PanicReason × MetaInfo)) (hinv : PanicInv st inp cur)
    (hc : cond < st.gate_counter) :
    Sound (push_panic_if cond reason meta st) inp ∧
      ExtOk st (push_panic_if cond reason meta st) ∧
      PanicInv (push_panic_if cond reason meta st) inp
        (match cur with
          | some x => some x
          | none => if wv st inp cond then some (reason, meta) else none) := by
  rcases hq1 : push_or st.panic_gates.has_panicked cond st with ⟨hp, st1⟩
  obtain ⟨hs1, he1, hp1, hhp1, hvhp⟩ :=
    push_or_spec st.panic_gates.has_panicked cond st inp hs hinv.hhp hc hp st1 hq1
  rcases hq2 : push_mux_quad st.panic_gates.has_panicked
      st.panic_gates.start_line st.panic_gates.start_column
      st.panic_gates.end_line st.panic_gates.end_column
      (unsigned_as_usize_bits meta.start.1) (unsigned_as_usize_bits meta.start.2)
      (unsigned_as_usize_bits meta.end_.1) (unsigned_as_usize_bits meta.end_.2) st1
    with ⟨⟨sl, sc, el, ec⟩, st2⟩
  obtain ⟨hs2, he2, hp2, hlsl, hlsc, hlel, hlec, hbsl, hbsc, hbel, hbec,
      hvsl, hvsc, hvel, hvec⟩ :=
    push_mux_quad_spec st.panic_gates.start_line st.panic_gates.start_column
      st.panic_gates.end_line st.panic_gates.end_column
      (unsigned_as_usize_bits meta.start.1) (unsigned_as_usize_bits meta.start.2)
      (unsigned_as_usize_bits meta.end_.1) (unsigned_as_usize_bits meta.end_.2)
      st.panic_gates.has_panicked st1 inp hs1
      (by rw [hinv.hlsc, hinv.hlsl]) (by rw [hinv.hlel, hinv.hlsl])
      (by rw [hinv.hlec, hinv.hlsl])
      (by rw [usize_bits_length, hinv.hlsl])
      (by rw [usize_bits_length, hinv.hlsl])
      (by rw [usize_bits_length, hinv.hlsl])
      (by rw [usize_bits_length, hinv.hlsl])
      (hinv.hbsl.mono he1.2.2.1) (hinv.hbsc.mono he1.2.2.1)
      (hinv.hbel.mono he1.2.2.1) (hinv.hbec.mono he1.2.2.1)
      (BddL_usize_bits _ _ hs1.cnt2) (BddL_usize_bits _ _ hs1.cnt2)
      (BddL_usize_bits _ _ hs1.cnt2) (BddL_usize_bits _ _ hs1.cnt2)
      (lt_of_lt_of_le hinv.hhp he1.2.2.1) sl sc el ec st2 hq2
  rcases hq3 : push_mux_vec st.panic_gates.has_panicked st.panic_gates.panic_type
      reason.as_bits st2 with ⟨pt, st3⟩
  obtain ⟨hs3, he3, hp3, hlpt, hbpt, hvpt⟩ :=
    push_mux_vec_spec st.panic_gates.panic_type reason.as_bits
      st.panic_gates.has_panicked st2 inp hs2
      (by rw [hinv.hlt, as_bits_length])
      (hinv.hbt.mono (he1.trans he2).2.2.1)
      (by rw [as_bits_eq]; exact BddL_usize_bits _ _ hs2.cnt2)
      (lt_of_lt_of_le hinv.hhp (he1.trans he2).2.2.1) pt st3 hq3
  rw [push_panic_if_eq cond reason meta st hp st1 hq1 sl sc el ec st2 hq2 pt st3 hq3]
  have hsel1 : wv st1 inp st.panic_gates.has_panicked =
      wv st inp st.panic_gates.has_panicked :=
    wv_frame inp hs he1 _ hinv.hhp
  have hsel2 : wv st2 inp st.panic_gates.has_panicked =
      wv st inp st.panic_gates.has_panicked := by
    rw [wv_frame inp hs1 he2 _ (lt_of_lt_of_le hinv.hhp he1.2.2.1), hsel1]
  have hvhp3 : wv st3 inp hp =
      (wv st inp st.panic_gates.has_panicked || wv st inp cond) := by
    rw [wv_frame inp hs1 (he2.trans he3) hp hhp1, hvhp]
  refine ⟨sound_set_panic hs3 _,
    (((he1.trans he2).trans he3).trans (extOk_set_panic st3 _)), ?_⟩
  refine ⟨?_, ?_, ?_, ?_, ?_, ?_, ?_, ?_, ?_, ?_, ?_, ?_, ?_⟩
  · show hp < st3.gate_counter
    exact lt_of_lt_of_le hhp1 (he2.trans he3).2.2.1
  · show BddL pt st3.gate_counter
    exact hbpt
  · show BddL sl st3.gate_counter
    exact hbsl.mono he3.2.2.1
  · show BddL sc st3.gate_counter
    exact hbsc.mono he3.2.2.1
  · show BddL el st3.gate_counter
    exact hbel.mono he3.2.2.1
  · show BddL ec st3.gate_counter
    exact hbec.mono he3.2.2.1
  · show pt.length = USIZE_BITS
    rw [hlpt, hinv.hlt]
  · show sl.length = USIZE_BITS
    rw [hlsl, hinv.hlsl]
  · show sc.length = USIZE_BITS
    rw [hlsc, hinv.hlsl]
  · show el.length = USIZE_BITS
    rw [hlel, hinv.hlsl]
  · show ec.length = USIZE_BITS
    rw [hlec, hinv.hlsl]
  · show wv _ inp hp = _
    rw [wv_set_panic, hvhp3, hinv.hhv]
    rcases cur with _ | x
    · simp only [Option.isSome_none, Bool.false_or]
      cases hcv : wv st inp cond
      · simp
      · simp
    · rfl
  · intro r m heq
    rcases cur with _ | ⟨r0, m0⟩
    · -- no previous panic: the mux selector is false, the new values land
      have hap : wv st inp st.panic_gates.has_panicked = false := hinv.hhv
      rcases hcv : wv st inp cond with _ | _
      · rw [hcv] at heq
        simp at heq
      · rw [hcv] at heq
        rw [if_pos rfl] at heq
        obtain ⟨rfl, rfl⟩ := Prod.mk.injEq .. |>.mp (Option.some.inj heq)
        have hffq : wv st1 inp st.panic_gates.has_panicked = false := by
          rw [hsel1, hap]
        have hffv : wv st2 inp st.panic_gates.has_panicked = false := by
          rw [hsel2, hap]
        refine ⟨?_, ?_, ?_, ?_, ?_⟩
        · rw [valsL_set_panic, hvpt, hffv, if_neg (by simp), as_bits_eq,
            usize_bits_value]
          exact Nat.mod_eq_of_lt (reason_num_lt reason)
        · rw [valsL_set_panic, valsL_frame inp hs2 he3 hbsl, hvsl, hffq,
            if_neg (by simp), usize_bits_value]
        · rw [valsL_set_panic, valsL_frame inp hs2 he3 hbsc, hvsc, hffq,
            if_neg (by simp), usize_bits_value]
        · rw [valsL_set_panic, valsL_frame inp hs2 he3 hbel, hvel, hffq,
            if_neg (by simp), usize_bits_value]
        · rw [valsL_set_panic, valsL_frame inp hs2 he3 hbec, hvec, hffq,
            if_neg (by simp), usize_bits_value]
    · -- a previous panic: the mux selector is true, the old values survive
      obtain ⟨rfl, rfl⟩ : r0 = r ∧ m0 = m := by
        have h0 := Option.some.inj heq
        exact ⟨congrArg Prod.fst h0, congrArg Prod.snd h0⟩
      have hap : wv st inp st.panic_gates.has_panicked = true := hinv.hhv
      have httq : wv st1 inp st.panic_gates.has_panicked = true := by
        rw [hsel1, hap]
      have httv : wv st2 inp st.panic_gates.has_panicked = true := by
        rw [hsel2, hap]
      obtain ⟨hd1, hd2, hd3, hd4, hd5⟩ := hinv.hdec r0 m0 rfl
      refine ⟨?_, ?_, ?_, ?_, ?_⟩
      · rw [valsL_set_panic, hvpt, httv, if_pos rfl,
          valsL_frame inp hs (he1.trans he2) hinv.hbt, hd1]
      · rw [valsL_set_panic, valsL_frame inp hs2 he3 hbsl, hvsl, httq,
          if_pos rfl, valsL_frame inp hs he1 hinv.hbsl, hd2]
      · rw [valsL_set_panic, valsL_frame inp hs2 he3 hbsc, hvsc, httq,
          if_pos rfl, valsL_frame inp hs he1 hinv.hbsc, hd3]
      · rw [valsL_set_panic, valsL_frame inp hs2 he3 hbel, hvel, httq,
          if_pos rfl, valsL_frame inp hs he1 hinv.hbel, hd4]
      · rw [valsL_set_panic, valsL_frame inp hs2 he3 hbec, hvec, httq,
          if_pos rfl, valsL_frame inp hs he1 hinv.hbec, hd5]

/-- Iterating `push_panic_if` over a list of calls (condition wire, reason,
span), in call order. -/
def push_panic_list :
    List (Nat × PanicReason × MetaInfo) → CircuitBuilder → CircuitBuilder
  | [], st => st
  | (c, r, m) :: rest, st => push_panic_list rest (push_panic_if c r m st)

/-- From the spec's words (panic ordering): the reported panic of a call
sequence is the first call, in call order, whose condition is true. -/
def spec_first_panic (st : CircuitBuilder) (inp : Nat → Bool) :
    List (Nat × PanicReason × MetaInfo) → Option (PanicReason × MetaInfo)
  | [] => none
  | hd :: rest =>
    if wv st inp hd.1 then some hd.2 else spec_first_panic st inp rest

/-- Accumulator form of `spec_first_panic`, matching the loop invariant. -/
def spec_fold (st : CircuitBuilder) (inp : Nat → Bool) :
    Option (PanicReason × MetaInfo) → List (Nat × PanicReason × MetaInfo) →
    Option (PanicReason × MetaInfo)
  | acc, [] => acc
  | some x, hd :: rest => spec_fold st inp (some x) rest
  | none, hd :: rest =>
    spec_fold st inp (if wv st inp hd.1 then some hd.2 else none) rest

theorem spec_fold_some (st : CircuitBuilder) (inp : Nat → Bool)
    (x : PanicReason × MetaInfo) :
    ∀ l, spec_fold st inp (some x) l = some x := by
  intro l
  induction l with
  | nil => rfl
  | cons hd rest ih =>
    rw [spec_fold]
    exact ih

theorem spec_fold_none_eq (st : CircuitBuilder) (inp : Nat → Bool) :
    ∀ l, spec_fold st inp none l = spec_first_panic st inp l := by
  intro l
  induction l with
  | nil => rfl
  | cons hd rest ih =>
    rw [spec_fold, spec_first_panic]
    cases hcv : wv st inp hd.1
    · rw [if_neg (by simp), if_neg (by simp)]
      exact ih
    · rw [if_pos rfl, if_pos rfl]
      exact spec_fold_some st inp hd.2 rest

/-- `spec_fold` only looks at condition wires, so it is stable under
extending the builder. -/
theorem spec_fold_frame (st st' : CircuitBuilder) (inp : Nat → Bool)
    (hs : Sound st inp) (he : ExtOk st st') :
    ∀ (l : List (Nat × PanicReason × MetaInfo)) (acc : Option (PanicReason × MetaInfo)),
      (∀ c ∈ l, c.1 < st.gate_counter) →
      spec_fold st' inp acc l = spec_fold st inp acc l := by
  intro l
  induction l with
  | nil => intro acc hb; rcases acc with _ | x <;> rfl
  | cons hd rest ih =>
    intro acc hb
    rcases acc with _ | x
    · rw [spec_fold, spec_fold,
        wv_frame inp hs he hd.1 (hb hd (List.mem_cons_self _ _))]
      exact ih _ (fun y hy => hb y (List.mem_cons_of_mem _ hy))
    · rw [spec_fold, spec_fold]
      exact ih _ (fun y hy => hb y (List.mem_cons_of_mem _ hy))

theorem spec_first_panic_isSome (st : CircuitBuilder) (inp : Nat → Bool) :
    ∀ calls, (spec_first_panic st inp calls).isSome =
      (calls.map (fun c => wv st inp c.1)).any id := by
  intro calls
  induction calls with
  | nil => rfl
  | cons hd rest ih =>
    rw [spec_first_panic]
    simp only [List.map_cons, List.any_cons, id_eq]
    cases hcv : wv st inp hd.1
    · rw [if_neg (by simp), Bool.false_or]
      exact ih
    · rw [if_pos rfl]
      simp

/-- A builder whose panic wires are the clean `PanicResult.ok` satisfies the
panic invariant with no recorded panic. -/
theorem panicInv_ok (st : CircuitBuilder) (inp : Nat → Bool) (hs : Sound st inp)
    (h : st.panic_gates = PanicResult.ok) : PanicInv st inp none := by
  refine ⟨?_, ?_, ?_, ?_, ?_, ?_, ?_, ?_, ?_, ?_, ?_, ?_, ?_⟩ <;> rw [h]
  · exact hs.cnt_pos
  · exact BddL_usize_bits 1 _ hs.cnt2
  · exact BddL.replicate_zero hs.cnt_pos _
  · exact BddL.replicate_zero hs.cnt_pos _
  · exact BddL.replicate_zero hs.cnt_pos _
  · exact BddL.replicate_zero hs.cnt_pos _
  · exact as_bits_length PanicReason.Overflow
  · exact List.length_replicate ..
  · exact List.length_replicate ..
  · exact List.length_replicate ..
  · exact List.length_replicate ..
  · exact wv_zero st inp
  · exact fun r m hx => nomatch hx

/-- Running `push_panic_if` over a whole call list carries the panic
invariant: the recorded panic is the fold of the calls. -/
theorem push_panic_list_spec :
    ∀ (calls : List (Nat × PanicReason × MetaInfo)) (st : CircuitBuilder)
      (inp : Nat → Bool) (cur : Option (PanicReason × MetaInfo)),
      Sound st inp → PanicInv st inp cur →
      (∀ c ∈ calls, c.1 < st.gate_counter) →
      Sound (push_panic_list calls st) inp ∧
        ExtOk st (push_panic_list calls st) ∧
        PanicInv (push_panic_list calls st) inp (spec_fold st inp cur calls) := by
  intro calls
  induction calls with
  | nil =>
    intro st inp cur hs hinv hb
    rcases cur with _ | x <;> exact ⟨hs, ExtOk.refl st, hinv⟩
  | cons hd rest ih =>
    intro st inp cur hs hinv hb
    rcases hd with ⟨c, r, m⟩
    obtain ⟨hs1, he1, hinv1⟩ :=
      push_panic_if_spec c r m st inp hs cur hinv
        (hb (c, r, m) (List.mem_cons_self _ _))
    obtain ⟨hs2, he2, hinv2⟩ :=
      ih (push_panic_if c r m st) inp _ hs1 hinv1
        (fun x hx => lt_of_lt_of_le (hb x (List.mem_cons_of_mem _ hx)) he1.2.2.1)
    rcases cur with _ | x
    · rw [push_panic_list, spec_fold]
      refine ⟨hs2, he1.trans he2, ?_⟩
      rw [← spec_fold_frame st (push_panic_if c r m st) inp hs he1 rest _
        (fun x hx => hb x (List.mem_cons_of_mem _ hx))]
      exact hinv2
    · rw [push_panic_list, spec_fold]
      refine ⟨hs2, he1.trans he2, ?_⟩
      rw [← spec_fold_frame st (push_panic_if c r m st) inp hs he1 rest _
        (fun y hy => hb y (List.mem_cons_of_mem _ hy))]
      exact hinv2

/-- C5: for any sequence of `push_panic_if` calls on a builder whose panic
wires are the clean `PanicResult.ok` (conditions allocated up front), the
final `has_panicked` wire denotes the OR of all conditions, and whenever
some condition is true the decoded reason and span are those of the first
call in call order whose condition is true — a recorded panic is never
overwritten by a later one. -/
theorem C5_push_panic_if_first_panic_wins
    (calls : List (Nat × PanicReason × MetaInfo)) (st0 : CircuitBuilder)
    (inp : Nat → Bool) (hs : Sound st0 inp)
    (hp0 : st0.panic_gates = PanicResult.ok)
    (hb : ∀ c ∈ calls, c.1 < st0.gate_counter)
    (stF : CircuitBuilder) (hF : push_panic_list calls st0 = stF) :
    wv stF inp stF.panic_gates.has_panicked =
      (calls.map (fun c => wv st0 inp c.1)).any id ∧
    ∀ r m, spec_first_panic st0 inp calls = some (r, m) →
      wires_as_unsigned (valsL stF inp stF.panic_gates.panic_type) =
        reason_num r ∧
      wires_as_unsigned (valsL stF inp stF.panic_gates.start_line) =
        m.start.1 % 2 ^ USIZE_BITS ∧
      wires_as_unsigned (valsL stF inp stF.panic_gates.start_column) =
        m.start.2 % 2 ^ USIZE_BITS ∧
      wires_as_unsigned (valsL stF inp stF.panic_gates.end_line) =
        m.end_.1 % 2 ^ USIZE_BITS ∧
      wires_as_unsigned (valsL stF inp stF.panic_gates.end_column) =
        m.end_.2 % 2 ^ USIZE_BITS := by
  subst hF
  obtain ⟨hsF, heF, hinvF⟩ :=
    push_panic_list_spec calls st0 inp none hs (panicInv_ok st0 inp hs hp0) hb
  rw [spec_fold_none_eq] at hinvF
  exact ⟨by rw [hinvF.hhv, spec_first_panic_isSome], fun r m heq => hinvF.hdec r m heq⟩

theorem C5_push_panic_if_first_panic_wins_witness :
    wv (push_panic_list [(2, PanicReason.DivByZero, ⟨(1, 2), (3, 4)⟩)]
          (CircuitBuilder.new [1])) (fun w => decide (w = 2))
        (push_panic_list [(2, PanicReason.DivByZero, ⟨(1, 2), (3, 4)⟩)]
          (CircuitBuilder.new [1])).panic_gates.has_panicked =
      ([(2, PanicReason.DivByZero, (⟨(1, 2), (3, 4)⟩ : MetaInfo))].map
        (fun c => wv (CircuitBuilder.new [1]) (fun w => decide (w = 2)) c.1)).any id ∧
    wires_as_unsigned (valsL
        (push_panic_list [(2, PanicReason.DivByZero, ⟨(1, 2), (3, 4)⟩)]
          (CircuitBuilder.new [1])) (fun w => decide (w = 2))
        (push_panic_list [(2, PanicReason.DivByZero, ⟨(1, 2), (3, 4)⟩)]
          (CircuitBuilder.new [1])).panic_gates.panic_type) =
      reason_num PanicReason.DivByZero ∧
    wires_as_unsigned (valsL
        (push_panic_list [(2, PanicReason.DivByZero, ⟨(1, 2), (3, 4)⟩)]
          (CircuitBuilder.new [1])) (fun w => decide (w = 2))
        (push_panic_list [(2, PanicReason.DivByZero, ⟨(1, 2), (3, 4)⟩)]
          (CircuitBuilder.new [1])).panic_gates.start_line) =
      1 % 2 ^ USIZE_BITS :=
  have h := C5_push_panic_if_first_panic_wins
    [(2, PanicReason.DivByZero, ⟨(1, 2), (3, 4)⟩)] (CircuitBuilder.new [1])
    (fun w => decide (w = 2)) (sound_new [1] _) rfl
    (by intro c hc; rw [List.mem_singleton] at hc; subst hc; decide) _ rfl
  ⟨h.1, (h.2 PanicReason.DivByZero ⟨(1, 2), (3, 4)⟩ rfl).1,
    (h.2 PanicReason.DivByZero ⟨(1, 2), (3, 4)⟩ rfl).2.1⟩

/-! ## The finished circuit (`Circuit` from `circuit.rs`) and its evaluator -/

/-- `Gate` from `circuit.rs`: the gates of a finished circuit. -/
inductive Gate where
  | Xor : Nat → Nat → Gate
  | And : Nat → Nat → Gate
  | Not : Nat → Gate
deriving DecidableEq, Repr

/-- `EvalPanic` from `circuit.rs`. -/
structure EvalPanic where
  reason : PanicReason
  panicked_at : MetaInfo
deriving DecidableEq, Repr

/-- `Circuit` from `circuit.rs`. -/
structure Circuit where
  input_gates : List Nat
  gates : List Gate
  output_gates : List Nat
  panic_gates : PanicResult
deriving Repr

/-- A generic wire-indexed node: a constant, a unary or a binary boolean
operation on earlier wires. -/
inductive WOp where
  | base : Bool → WOp
  | un : (Bool → Bool) → Nat → WOp
  | bin : (Bool → Bool → Bool) → Nat → Nat → WOp

/-- Fueled evaluation of a wire dag. -/
def evalGF (f : Nat → WOp) : Nat → Nat → Bool
  | 0, _ => false
  | fuel + 1, w =>
    match f w with
    | .base b => b
    | .un g x => g (evalGF f fuel x)
    | .bin g x y => g (evalGF f fuel x) (evalGF f fuel y)

def evalG (f : Nat → WOp) (w : Nat) : Bool := evalGF f (w + 1) w

/-- Topological well-formedness of a wire dag. -/
def GWf (f : Nat → WOp) : Prop :=
  ∀ w, match f w with
    | .base _ => True
    | .un _ x => x < w
    | .bin _ x y => x < w ∧ y < w

theorem evalGF_congr (f : Nat → WOp) (hwf : GWf f) :
    ∀ fuel1 fuel2 w, w < fuel1 → w < fuel2 →
      evalGF f fuel1 w = evalGF f fuel2 w := by
  intro fuel1
  induction fuel1 with
  | zero => intro fuel2 w h1 _; omega
  | succ fuel1 ih =>
    intro fuel2 w h1 h2
    match fuel2, h2 with
    | fuel2 + 1, h2 =>
      rw [evalGF, evalGF]
      have hw := hwf w
      cases hf : f w with
      | base b => rfl
      | un g x =>
        simp only [hf] at hw
        show g (evalGF f fuel1 x) = g (evalGF f fuel2 x)
        rw [ih fuel2 x (by omega) (by omega)]
      | bin g x y =>
        simp only [hf] at hw
        show g (evalGF f fuel1 x) (evalGF f fuel1 y) =
          g (evalGF f fuel2 x) (evalGF f fuel2 y)
        rw [ih fuel2 x (by omega) (by omega), ih fuel2 y (by omega) (by omega)]

/-- Unfolding of `evalG` at a node in terms of the node's operands. -/
theorem evalG_eq (f : Nat → WOp) (hwf : GWf f) (w : Nat) :
    evalG f w =
      (match f w with
        | .base b => b
        | .un g x => g (evalG f x)
        | .bin g x y => g (evalG f x) (evalG f y)) := by
  rw [evalG, evalGF]
  have hw := hwf w
  cases hf : f w with
  | base b => rfl
  | un g x =>
    simp only [hf] at hw
    show g (evalGF f w x) = g (evalG f x)
    rw [evalGF_congr f hwf w (x + 1) x (by omega) (by omega)]
    rfl
  | bin g x y =>
    simp only [hf] at hw
    show g (evalGF f w x) (evalGF f w y) = g (evalG f x) (evalG f y)
    rw [evalGF_congr f hwf w (x + 1) x (by omega) (by omega),
      evalGF_congr f hwf w (y + 1) y (by omega) (by omega)]
    rfl

/-- Operand bound for a finished-circuit gate. -/
def gate_ops_lt : Gate → Nat → Prop
  | .Xor x y, n => x < n ∧ y < n
  | .And x y, n => x < n ∧ y < n
  | .Not x, n => x < n

/-- Topological well-formedness of a finished circuit's gate list. -/
def CWf (input_len : Nat) (gates : List Gate) : Prop :=
  ∀ i g, gates.get? i = some g → gate_ops_lt g (input_len + i)

/-- The wire dag of a finished circuit over input bits `bits`. -/
def cwop (input_len : Nat) (gates : List Gate) (bits : List Bool) (w : Nat) : WOp :=
  if w < input_len then .base (bits.getD w false)
  else
    match gates.get? (w - input_len) with
    | some (.Xor x y) => .bin (fun a b => a ^^ b) x y
    | some (.And x y) => .bin (fun a b => a && b) x y
    | some (.Not x) => .un (fun a => ! a) x
    | none => .base false

/-- Denotation of wire `w` of a finished circuit. -/
def cwv (input_len : Nat) (gates : List Gate) (bits : List Bool) (w : Nat) : Bool :=
  evalG (cwop input_len gates bits) w

theorem cwop_wf (input_len : Nat) (gates : List Gate) (bits : List Bool)
    (hwf : CWf input_len gates) : GWf (cwop input_len gates bits) := by
  intro w
  rw [cwop]
  by_cases hlt : w < input_len
  · rw [if_pos hlt]
    trivial
  · rw [if_neg hlt]
    cases hg : gates.get? (w - input_len) with
    | none => trivial
    | some g =>
      have hb := hwf _ _ hg
      cases g with
      | Xor x y =>
        simp only [gate_ops_lt] at hb
        constructor <;> omega
      | And x y =>
        simp only [gate_ops_lt] at hb
        constructor <;> omega
      | Not x =>
        simp only [gate_ops_lt] at hb
        omega

theorem cwv_input (input_len : Nat) (gates : List Gate) (bits : List Bool)
    (w : Nat) (h : w < input_len) :
    cwv input_len gates bits w = bits.getD w false := by
  rw [cwv, evalG, evalGF, cwop, if_pos h]

/-- Rust `output[w].unwrap()`: fails when the index is out of range or the
entry is still `None`. -/
def getO (out : List (Option Bool)) (w : Nat) : Option Bool :=
  match out.get? w with
  | some (some b) => some b
  | _ => none

/-- The gate-evaluation loop of `Circuit::eval` (`w` is the running gate
position; fails when a gate reads an unset wire). -/
def eval_gates (input_len : Nat) :
    List Gate → List (Option Bool) → Nat → Option (List (Option Bool))
  | [], out, _ => some out
  | g :: rest, out, w =>
    let val :=
      match g with
      | .Xor x y =>
        match getO out x, getO out y with
        | some a, some b => some (a ^^ b)
        | _, _ => none
      | .And x y =>
        match getO out x, getO out y with
        | some a, some b => some (a && b)
        | _, _ => none
      | .Not x =>
        match getO out x with
        | some a => some (! a)
        | none => none
    match val with
    | none => none
    | some b => eval_gates input_len rest (out.set (input_len + w) (some b)) (w + 1)

/-- The unwrap-and-decode of a span/reason wire list
(`resolve_wires_as_usize` without the final numeric conversion). -/
def resolveW (out : List (Option Bool)) : List Nat → Option (List Bool)
  | [] => some []
  | w :: ws =>
    match getO out w, resolveW out ws with
    | some b, some bs => some (b :: bs)
    | _, _ => none

/-- The final masking loop of `Circuit::eval`: every index not listed in
`outs` is reset to `None`. -/
def clear_non_outputs (out : List (Option Bool)) (outs : List Nat) :
    List (Option Bool) :=
  (List.range out.length).map (fun w => if outs.contains w then out.getD w none else none)

/-- `Circuit::eval` from `circuit.rs`.  `none` models a Rust panic (party
count or bit-count mismatch, reading an unset wire, or an invalid panic
reason); `some (Except.error p)` is `Err(p)`; `some (Except.ok out)` is
`Ok(out)`. -/
def Circuit.eval (c : Circuit) (inputs : List (List Bool)) :
    Option (Except EvalPanic (List (Option Bool))) :=
  let input_len := c.input_gates.sum
  if c.input_gates.length ≠ inputs.length then none
  else if ¬ ((List.zip c.input_gates inputs).all (fun q => q.1 == q.2.length) = true)
  then none
  else
    let out0 : List (Option Bool) :=
      inputs.join.map some ++ List.replicate c.gates.length none
    match eval_gates input_len c.gates out0 0 with
    | none => none
    | some out =>
      match getO out c.panic_gates.has_panicked with
      | none => none
      | some hp =>
        if hp then
          match resolveW out c.panic_gates.panic_type with
          | none => none
          | some tbits =>
            match PanicReason.from_num (wires_as_unsigned tbits) with
            | none => none
            | some reason =>
              match resolveW out c.panic_gates.start_line,
                  resolveW out c.panic_gates.start_column,
                  resolveW out c.panic_gates.end_line,
                  resolveW out c.panic_gates.end_column with
              | some sl, some sc, some el, some ec =>
                some (Except.error
                  { reason := reason,
                    panicked_at :=
                      { start := (wires_as_unsigned sl, wires_as_unsigned sc),
                        end_ := (wires_as_unsigned el, wires_as_unsigned ec) } })
              | _, _, _, _ => none
        else
          some (Except.ok (clear_non_outputs out c.output_gates))

theorem set_append_at {α : Type} (A : List α) (b v : α) (B : List α) (i : Nat)
    (hi : i = A.length) : (A ++ b :: B).set i v = A ++ v :: B := by
  subst hi
  induction A with
  | nil => rfl
  | cons a A ih => simp [List.set, ih]

theorem getO_prefix (input_len : Nat) (gates : List Gate) (bits : List Bool)
    (k n x : Nat) (hx : x < k) :
    getO ((List.range k).map (fun i => some (cwv input_len gates bits i)) ++
      List.replicate n none) x = some (cwv input_len gates bits x) := by
  rw [getO, List.get?_append (by simp [hx]), List.get?_map, List.get?_range hx]
  rfl

theorem getO_full (input_len : Nat) (gates : List Gate) (bits : List Bool)
    (k x : Nat) (hx : x < k) :
    getO ((List.range k).map (fun i => some (cwv input_len gates bits i))) x =
      some (cwv input_len gates bits x) := by
  rw [getO, List.get?_map, List.get?_range hx]
  rfl

theorem cwv_gate (input_len : Nat) (gates : List Gate) (bits : List Bool)
    (hwf : CWf input_len gates) (w : Nat) (g : Gate)
    (hg : gates.get? w = some g) :
    cwv input_len gates bits (input_len + w) =
      (match g with
        | .Xor x y => cwv input_len gates bits x ^^ cwv input_len gates bits y
        | .And x y => cwv input_len gates bits x && cwv input_len gates bits y
        | .Not x => ! cwv input_len gates bits x) := by
  cases g with
  | Xor x y =>
    rw [cwv, evalG_eq _ (cwop_wf input_len gates bits hwf)]
    have hc : cwop input_len gates bits (input_len + w) =
        WOp.bin (fun a b => a ^^ b) x y := by
      rw [cwop, if_neg (by omega), Nat.add_sub_cancel_left, hg]
    rw [hc]
    rfl
  | And x y =>
    rw [cwv, evalG_eq _ (cwop_wf input_len gates bits hwf)]
    have hc : cwop input_len gates bits (input_len + w) =
        WOp.bin (fun a b => a && b) x y := by
      rw [cwop, if_neg (by omega), Nat.add_sub_cancel_left, hg]
    rw [hc]
    rfl
  | Not x =>
    rw [cwv, evalG_eq _ (cwop_wf input_len gates bits hwf)]
    have hc : cwop input_len gates bits (input_len + w) =
        WOp.un (fun a => ! a) x := by
      rw [cwop, if_neg (by omega), Nat.add_sub_cancel_left, hg]
    rw [hc]
    rfl

theorem step_out_shape (input_len : Nat) (gates : List Gate) (bits : List Bool)
    (w : Nat) (hw : w < gates.length) (b : Bool)
    (hb : b = cwv input_len gates bits (input_len + w)) :
    ((List.range (input_len + w)).map (fun i => some (cwv input_len gates bits i)) ++
      List.replicate (gates.length - w) none).set (input_len + w) (some b) =
    (List.range (input_len + w + 1)).map (fun i => some (cwv input_len gates bits i)) ++
      List.replicate (gates.length - (w + 1)) none := by
  subst hb
  have hrep : List.replicate (gates.length - w) (none : Option Bool) =
      none :: List.replicate (gates.length - (w + 1)) none := by
    have hsub : gates.length - w = (gates.length - (w + 1)) + 1 := by omega
    rw [hsub, List.replicate]
  rw [hrep, set_append_at _ _ _ _ _ (by rw [List.length_map, List.length_range]),
    List.range_succ, List.map_append, List.append_assoc]
  rfl

/-- The gate loop evaluates every gate wire: starting from position `w`
with the first `input_len + w` wires already computed, it fills out the
whole vector with the denotational wire values. -/
theorem eval_gates_spec (input_len : Nat) (gates : List Gate) (bits : List Bool)
    (hwf : CWf input_len gates) :
    ∀ (rest : List Gate) (w : Nat), gates.drop w = rest → w ≤ gates.length →
      eval_gates input_len rest
        ((List.range (input_len + w)).map (fun i => some (cwv input_len gates bits i)) ++
          List.replicate (gates.length - w) none) w =
      some ((List.range (input_len + gates.length)).map
        (fun i => some (cwv input_len gates bits i))) := by
  intro rest
  induction rest with
  | nil =>
    intro w hdrop hle
    have hwlen : gates.length ≤ w := by
      have hl := congrArg List.length hdrop
      rw [List.length_drop, List.length_nil] at hl
      omega
    have hwe : w = gates.length := le_antisymm hle hwlen
    subst hwe
    rw [eval_gates, Nat.sub_self]
    rw [show List.replicate 0 (none : Option Bool) = [] from rfl, List.append_nil]
  | cons g rest ih =>
    intro w hdrop hle
    have hg : gates.get? w = some g := by
      have h0 : (gates.drop w).get? 0 = some g := by rw [hdrop]; rfl
      rwa [List.get?_drop, Nat.add_zero] at h0
    have hw2 : w < gates.length := by
      by_contra hcon
      have hnil : gates.drop w = [] := List.drop_eq_nil_of_le (by omega)
      rw [hnil] at hdrop
      simp at hdrop
    have hdrop2 : gates.drop (w + 1) = rest := by
      rw [← List.drop_drop, hdrop]
      rfl
    cases g with
    | Xor x y =>
      obtain ⟨hx, hy⟩ : x < input_len + w ∧ y < input_len + w := hwf _ _ hg
      rw [eval_gates,
        getO_prefix input_len gates bits (input_len + w) (gates.length - w) x hx,
        getO_prefix input_len gates bits (input_len + w) (gates.length - w) y hy]
      show eval_gates input_len rest
        (((List.range (input_len + w)).map (fun i => some (cwv input_len gates bits i)) ++
          List.replicate (gates.length - w) none).set (input_len + w)
          (some (cwv input_len gates bits x ^^ cwv input_len gates bits y))) (w + 1) = _
      rw [step_out_shape input_len gates bits w hw2 _
        (cwv_gate input_len gates bits hwf w (Gate.Xor x y) hg).symm]
      exact ih (w + 1) hdrop2 (by omega)
    | And x y =>
      obtain ⟨hx, hy⟩ : x < input_len + w ∧ y < input_len + w := hwf _ _ hg
      rw [eval_gates,
        getO_prefix input_len gates bits (input_len + w) (gates.length - w) x hx,
        getO_prefix input_len gates bits (input_len + w) (gates.length - w) y hy]
      show eval_gates input_len rest
        (((List.range (input_len + w)).map (fun i => some (cwv input_len gates bits i)) ++
          List.replicate (gates.length - w) none).set (input_len + w)
          (some (cwv input_len gates bits x && cwv input_len gates bits y))) (w + 1) = _
      rw [step_out_shape input_len gates bits w hw2 _
        (cwv_gate input_len gates bits hwf w (Gate.And x y) hg).symm]
      exact ih (w + 1) hdrop2 (by omega)
    | Not x =>
      have hx : x < input_len + w := hwf _ _ hg
      rw [eval_gates,
        getO_prefix input_len gates bits (input_len + w) (gates.length - w) x hx]
      show eval_gates input_len rest
        (((List.range (input_len + w)).map (fun i => some (cwv input_len gates bits i)) ++
          List.replicate (gates.length - w) none).set (input_len + w)
          (some (! cwv input_len gates bits x))) (w + 1) = _
      rw [step_out_shape input_len gates bits w hw2 _
        (cwv_gate input_len gates bits hwf w (Gate.Not x) hg).symm]
      exact ih (w + 1) hdrop2 (by omega)

theorem join_len (ps : List Nat) (xs : List (List Bool)) (hc : ps.length = xs.length)
    (hall : (List.zip ps xs).all (fun q => q.1 == q.2.length) = true) :
    xs.join.length = ps.sum := by
  induction ps generalizing xs with
  | nil =>
    match xs, hc with
    | [], _ => rfl
  | cons p ps ih =>
    match xs, hc with
    | x :: xs, hc =>
      simp only [List.zip_cons_cons, List.all_cons, Bool.and_eq_true, beq_iff_eq] at hall
      have hj : (x :: xs).join = x ++ xs.join := rfl
      rw [hj, List.length_append, List.sum_cons,
        ih xs (by simpa using hc) hall.2, hall.1]

theorem join_map_eq (input_len : Nat) (gates : List Gate) (bits : List Bool)
    (hlen : bits.length = input_len) :
    bits.map some = (List.range input_len).map
      (fun i => some (cwv input_len gates bits i)) := by
  apply List.ext_get?
  intro i
  by_cases hi : i < input_len
  · rw [List.get?_map, List.get?_map, List.get?_range hi]
    show Option.map some (bits.get? i) = some (some (cwv input_len gates bits i))
    rw [cwv_input _ _ _ _ hi]
    cases hbg : bits.get? i with
    | none =>
      have hni := List.get?_eq_none.mp hbg
      omega
    | some b =>
      have hgd : bits.getD i false = b := by
        rw [List.getD_eq_getElem?_getD, ← List.get?_eq_getElem?, hbg]
        rfl
      rw [hgd]
      rfl
  · rw [List.get?_map, List.get?_map, List.get?_eq_none.mpr (by omega),
      List.get?_eq_none.mpr (by rw [List.length_range]; omega)]
    rfl

theorem clear_non_outputs_full (input_len : Nat) (gates : List Gate) (bits : List Bool)
    (k : Nat) (outs : List Nat) :
    clear_non_outputs
        ((List.range k).map (fun i => some (cwv input_len gates bits i))) outs =
      (List.range k).map (fun w => if outs.contains w
        then some (cwv input_len gates bits w) else none) := by
  rw [clear_non_outputs, List.length_map, List.length_range]
  apply List.map_congr_left
  intro i hi
  rw [List.mem_range] at hi
  have hgd : (Option.map (fun i => some (cwv input_len gates bits i))
      (List.range k)[i]?).getD none = some (cwv input_len gates bits i) := by
    rw [List.getElem?_range hi]
    rfl
  cases hc : outs.contains i
  · simp
  · simp [hgd]

/-- C4: for a well-formed finished circuit and inputs whose party count and
per-party bit-counts match `input_gates`, if the `has_panicked` wire
evaluates to false then `eval` returns `Ok` of a vector whose length is the
total wire count, holding `Some` (with the computed wire bit) exactly at
the indices listed in `output_gates` and `None` everywhere else. -/
theorem C4_eval_ok_masks_outputs (c : Circuit) (inputs : List (List Bool))
    (hcount : c.input_gates.length = inputs.length)
    (hall : (List.zip c.input_gates inputs).all (fun q => q.1 == q.2.length) = true)
    (hwf : CWf c.input_gates.sum c.gates)
    (hplt : c.panic_gates.has_panicked < c.input_gates.sum + c.gates.length)
    (hpf : cwv c.input_gates.sum c.gates inputs.join
      c.panic_gates.has_panicked = false) :
    c.eval inputs =
      some (Except.ok ((List.range (c.input_gates.sum + c.gates.length)).map
        (fun w => if c.output_gates.contains w
          then some (cwv c.input_gates.sum c.gates inputs.join w) else none))) ∧
    ((List.range (c.input_gates.sum + c.gates.length)).map
        (fun w => if c.output_gates.contains w
          then some (cwv c.input_gates.sum c.gates inputs.join w) else none)).length =
      c.input_gates.sum + c.gates.length := by
  have hjoin : inputs.join.length = c.input_gates.sum := join_len _ _ hcount hall
  constructor
  · rw [Circuit.eval, if_neg (not_not_intro hcount), if_neg (not_not_intro hall)]
    have hev := eval_gates_spec c.input_gates.sum c.gates inputs.join hwf c.gates 0
      rfl (by omega)
    rw [Nat.add_zero, Nat.sub_zero] at hev
    rw [join_map_eq c.input_gates.sum c.gates inputs.join hjoin]
    simp only [hev]
    rw [getO_full c.input_gates.sum c.gates inputs.join _ _ hplt]
    simp only [hpf]
    rw [if_neg (by simp)]
    rw [clear_non_outputs_full]
  · rw [List.length_map, List.length_range]

theorem C4_eval_ok_masks_outputs_witness :
    (Circuit.mk [1] [Gate.Not 0] [1] PanicResult.ok).eval [[false]] =
      some (Except.ok ((List.range
          ((Circuit.mk [1] [Gate.Not 0] [1] PanicResult.ok).input_gates.sum +
            (Circuit.mk [1] [Gate.Not 0] [1] PanicResult.ok).gates.length)).map
        (fun w => if (Circuit.mk [1] [Gate.Not 0] [1] PanicResult.ok).output_gates.contains w
          then some (cwv (Circuit.mk [1] [Gate.Not 0] [1] PanicResult.ok).input_gates.sum
            (Circuit.mk [1] [Gate.Not 0] [1] PanicResult.ok).gates
            ([[false]] : List (List Bool)).join w)
          else none))) ∧
    ((List.range ((Circuit.mk [1] [Gate.Not 0] [1] PanicResult.ok).input_gates.sum +
          (Circuit.mk [1] [Gate.Not 0] [1] PanicResult.ok).gates.length)).map
        (fun w => if (Circuit.mk [1] [Gate.Not 0] [1] PanicResult.ok).output_gates.contains w
          then some (cwv (Circuit.mk [1] [Gate.Not 0] [1] PanicResult.ok).input_gates.sum
            (Circuit.mk [1] [Gate.Not 0] [1] PanicResult.ok).gates
            ([[false]] : List (List Bool)).join w)
          else none)).length =
      (Circuit.mk [1] [Gate.Not 0] [1] PanicResult.ok).input_gates.sum +
        (Circuit.mk [1] [Gate.Not 0] [1] PanicResult.ok).gates.length :=
  C4_eval_ok_masks_outputs (Circuit.mk [1] [Gate.Not 0] [1] PanicResult.ok) [[false]]
    rfl (by decide)
    (by
      intro i g hg
      match i, hg with
      | 0, hg =>
        obtain rfl := Option.some.inj hg
        show (0 : Nat) < 1 + 0
        decide
      | i + 1, hg => exact nomatch hg)
    (by decide) (by decide)

/-! ## The older two-party compiler (`compiler.rs`) -/

/-- Modelled from the spec: the legacy gate type that `compiler.rs` imports
from a `circuit` module predating the one in the repository — party-input
gates plus XOR/AND over wire indices; wires 0 and 1 are the reserved
constant false/true wires and the gate at position `i` drives wire `i + 2`
(spec §2, `push_gate` comment in `compiler.rs`). -/
inductive OldGate where
  | InA : OldGate
  | InB : OldGate
  | Xor : Nat → Nat → OldGate
  | And : Nat → Nat → OldGate
deriving DecidableEq, Repr

/-- Modelled from the spec: the legacy circuit — a gate list and the output
wire indices. -/
structure OldCircuit where
  gates : List OldGate
  output_gates : List Nat
deriving DecidableEq, Repr

/-- The number of party-A input gates (the counting loop of
`Computation::run`). -/
def countInA (gates : List OldGate) : Nat := gates.count OldGate.InA

/-- The number of party-B input gates. -/
def countInB (gates : List OldGate) : Nat := gates.count OldGate.InB

/-- Modelled from the spec: the wire dag of a legacy circuit — wire 0 is
constant false, wire 1 constant true, and the gate at position `i` (wire
`i + 2`) is either the next unread input bit of its party or a boolean
operation on earlier wires. -/
def oldwop (gates : List OldGate) (in_a in_b : List Bool) (w : Nat) : WOp :=
  if w = 0 then .base false
  else if w = 1 then .base true
  else
    match gates.get? (w - 2) with
    | some .InA => .base (in_a.getD (countInA (gates.take (w - 2))) false)
    | some .InB => .base (in_b.getD (countInB (gates.take (w - 2))) false)
    | some (.Xor x y) => .bin (fun a b => a ^^ b) x y
    | some (.And x y) => .bin (fun a b => a && b) x y
    | none => .base false

/-- Modelled from the spec: the legacy `Circuit::eval` — one value per wire
(constants, inputs and gates). -/
def old_eval (c : OldCircuit) (in_a in_b : List Bool) : List (Option Bool) :=
  (List.range (c.gates.length + 2)).map
    (fun w => some (evalG (oldwop c.gates in_a in_b) w))

/-- `Computation` from `compiler.rs`. -/
structure Computation where
  circuit : OldCircuit
  in_a : List Bool
  in_b : List Bool
  output : Option (List (Option Bool))

/-- `ComputeError` from `compiler.rs` (the `expected` type of
`OutputTypeMismatch` is elided; only the bit count is kept). -/
inductive ComputeError where
  | UnexpectedNumberOfInputsFromPartyA : Nat → ComputeError
  | UnexpectedNumberOfInputsFromPartyB : Nat → ComputeError
  | OutputHasNotBeenComputed : ComputeError
  | OutputTypeMismatch : Nat → ComputeError
deriving DecidableEq, Repr

/-- `Computation::run` from `compiler.rs`: check both parties' input
lengths against the number of their input gates, then evaluate, store the
output and clear the input buffers.  The Rust method mutates `self` and
returns `Result<(), _>`; the embedding returns the new state on success. -/
def Computation.run (comp : Computation) : Except ComputeError Computation :=
  if comp.in_a.length ≠ countInA comp.circuit.gates then
    .error (.UnexpectedNumberOfInputsFromPartyA comp.in_a.length)
  else if comp.in_b.length ≠ countInB comp.circuit.gates then
    .error (.UnexpectedNumberOfInputsFromPartyB comp.in_b.length)
  else
    .ok { comp with
      output := some (old_eval comp.circuit comp.in_a comp.in_b),
      in_a := [], in_b := [] }

/-- C10: a successful `run` leaves both input buffers empty, sets the
output, and leaves the circuit unchanged; consequently a second `run`
without re-supplying inputs fails with the per-party
`UnexpectedNumberOfInputs` error whenever the circuit has input gates. -/
theorem C10_run_ok_clears_inputs_and_sets_output (comp comp2 : Computation)
    (h : comp.run = Except.ok comp2) :
    comp2.in_a = [] ∧ comp2.in_b = [] ∧ comp2.output.isSome = true ∧
      comp2.circuit = comp.circuit ∧
      (1 ≤ countInA comp.circuit.gates →
        comp2.run = Except.error (ComputeError.UnexpectedNumberOfInputsFromPartyA 0)) ∧
      (countInA comp.circuit.gates = 0 → 1 ≤ countInB comp.circuit.gates →
        comp2.run = Except.error (ComputeError.UnexpectedNumberOfInputsFromPartyB 0)) := by
  rw [Computation.run] at h
  by_cases hA : comp.in_a.length ≠ countInA comp.circuit.gates
  · rw [if_pos hA] at h
    cases h
  rw [if_neg hA] at h
  by_cases hB : comp.in_b.length ≠ countInB comp.circuit.gates
  · rw [if_pos hB] at h
    cases h
  rw [if_neg hB] at h
  obtain rfl := Except.ok.inj h
  refine ⟨rfl, rfl, rfl, rfl, ?_, ?_⟩
  · intro hA1
    rw [Computation.run]
    rw [if_pos (show ([] : List Bool).length ≠ countInA comp.circuit.gates by
      rw [List.length_nil]; omega)]
    rfl
  · intro hA0 hB1
    rw [Computation.run]
    rw [if_neg (show ¬ (([] : List Bool).length ≠ countInA comp.circuit.gates) by
      rw [List.length_nil]; omega)]
    rw [if_pos (show ([] : List Bool).length ≠ countInB comp.circuit.gates by
      rw [List.length_nil]; omega)]
    rfl

theorem C10_run_ok_clears_inputs_and_sets_output_witness :
    (Computation.mk (OldCircuit.mk [OldGate.InA] [2]) [] []
        (some (old_eval (OldCircuit.mk [OldGate.InA] [2]) [true] []))).in_a = [] ∧
      (Computation.mk (OldCircuit.mk [OldGate.InA] [2]) [] []
        (some (old_eval (OldCircuit.mk [OldGate.InA] [2]) [true] []))).in_b = [] ∧
      (Computation.mk (OldCircuit.mk [OldGate.InA] [2]) [] []
        (some (old_eval (OldCircuit.mk [OldGate.InA] [2]) [true] []))).output.isSome
        = true ∧
      (Computation.mk (OldCircuit.mk [OldGate.InA] [2]) [] []
          (some (old_eval (OldCircuit.mk [OldGate.InA] [2]) [true] []))).circuit =
        (Computation.mk (OldCircuit.mk [OldGate.InA] [2]) [true] [] none).circuit ∧
      (Computation.mk (OldCircuit.mk [OldGate.InA] [2]) [] []
          (some (old_eval (OldCircuit.mk [OldGate.InA] [2]) [true] []))).run =
        Except.error (ComputeError.UnexpectedNumberOfInputsFromPartyA 0) :=
  have h := C10_run_ok_clears_inputs_and_sets_output
    (Computation.mk (OldCircuit.mk [OldGate.InA] [2]) [true] [] none)
    (Computation.mk (OldCircuit.mk [OldGate.InA] [2]) [] []
      (some (old_eval (OldCircuit.mk [OldGate.InA] [2]) [true] []))) rfl
  ⟨h.1, h.2.1, h.2.2.1, h.2.2.2.1, h.2.2.2.2.1 (by decide)⟩

/-- Topological well-formedness of a legacy gate list: every XOR/AND operand
refers to an earlier wire. -/
def OldWf (gates : List OldGate) : Prop :=
  ∀ i g, gates.get? i = some g →
    match g with
    | OldGate.Xor x y => x < i + 2 ∧ y < i + 2
    | OldGate.And x y => x < i + 2 ∧ y < i + 2
    | _ => True

/-- Extension relation between legacy gate lists. -/
def OExt (g1 g2 : List OldGate) : Prop := ∃ ext, g2 = g1 ++ ext

theorem OExt_refl (g : List OldGate) : OExt g g := ⟨[], by simp⟩

theorem OExt_trans {g1 g2 g3 : List OldGate} (h1 : OExt g1 g2) (h2 : OExt g2 g3) :
    OExt g1 g3 := by
  obtain ⟨e1, rfl⟩ := h1
  obtain ⟨e2, rfl⟩ := h2
  exact ⟨e1 ++ e2, by rw [List.append_assoc]⟩

theorem OExt.len_le {g1 g2 : List OldGate} (h : OExt g1 g2) :
    g1.length ≤ g2.length := by
  obtain ⟨e, rfl⟩ := h
  simp

/-- Wire denotation for the legacy circuit under construction. -/
def owv (gates : List OldGate) (in_a in_b : List Bool) (w : Nat) : Bool :=
  evalG (oldwop gates in_a in_b) w

def valsO (gates : List OldGate) (in_a in_b : List Bool) (ws : List Nat) : List Bool :=
  ws.map (owv gates in_a in_b)

theorem owv_zero (gates : List OldGate) (a b : List Bool) : owv gates a b 0 = false := rfl

theorem owv_one (gates : List OldGate) (a b : List Bool) : owv gates a b 1 = true := rfl

theorem oldwop_gwf (gates : List OldGate) (a b : List Bool) (hwf : OldWf gates) :
    GWf (oldwop gates a b) := by
  intro w
  rw [oldwop]
  by_cases h0 : w = 0
  · rw [if_pos h0]; trivial
  rw [if_neg h0]
  by_cases h1 : w = 1
  · rw [if_pos h1]; trivial
  rw [if_neg h1]
  cases hg : gates.get? (w - 2) with
  | none => trivial
  | some g =>
    have hb := hwf _ _ hg
    cases g with
    | InA => trivial
    | InB => trivial
    | Xor x y =>
      simp only at hb
      constructor <;> omega
    | And x y =>
      simp only at hb
      constructor <;> omega

/-- Two dags that agree on all wires up to `w` evaluate wire `w` equally. -/
theorem evalGF_congr_f (f f2 : Nat → WOp) (hwf : GWf f) :
    ∀ fuel w, (∀ v, v ≤ w → f v = f2 v) → evalGF f fuel w = evalGF f2 fuel w := by
  intro fuel
  induction fuel with
  | zero => intro w _; rfl
  | succ fuel ih =>
    intro w h
    rw [evalGF, evalGF, ← h w (le_refl w)]
    have hw := hwf w
    cases hf : f w with
    | base b => rfl
    | un g x =>
      simp only [hf] at hw
      show g (evalGF f fuel x) = g (evalGF f2 fuel x)
      rw [ih x (fun v hv => h v (by omega))]
    | bin g x y =>
      simp only [hf] at hw
      show g (evalGF f fuel x) (evalGF f fuel y) =
        g (evalGF f2 fuel x) (evalGF f2 fuel y)
      rw [ih x (fun v hv => h v (by omega)), ih y (fun v hv => h v (by omega))]

theorem oldwop_frame (gates ext : List OldGate) (a b : List Bool) (w : Nat)
    (hw : w < gates.length + 2) :
    oldwop (gates ++ ext) a b w = oldwop gates a b w := by
  by_cases h0 : w = 0
  · subst h0; rfl
  by_cases h1 : w = 1
  · subst h1; rfl
  rw [oldwop, oldwop, if_neg h0, if_neg h0, if_neg h1, if_neg h1]
  rw [List.get?_append (by omega), List.take_append_of_le_length (by omega)]

theorem owv_frame {gates gates2 : List OldGate} (he : OExt gates gates2)
    (a b : List Bool) (hwf : OldWf gates) (w : Nat) (hw : w < gates.length + 2) :
    owv gates2 a b w = owv gates a b w := by
  obtain ⟨ext, rfl⟩ := he
  rw [owv, owv, evalG, evalG]
  exact (evalGF_congr_f (oldwop gates a b) (oldwop (gates ++ ext) a b)
    (oldwop_gwf gates a b hwf) (w + 1) w
    (fun v hv => (oldwop_frame gates ext a b v (by omega)).symm)).symm

theorem valsO_frame {gates gates2 : List OldGate} (he : OExt gates gates2)
    (a b : List Bool) (hwf : OldWf gates) (ws : List Nat)
    (hb : ∀ w ∈ ws, w < gates.length + 2) :
    valsO gates2 a b ws = valsO gates a b ws := by
  rw [valsO, valsO]
  apply List.map_congr_left
  intro w hw
  exact owv_frame he a b hwf w (hb w hw)

theorem valsO_getD (gates : List OldGate) (a b : List Bool) (ws : List Nat) (i : Nat) :
    (valsO gates a b ws).getD i false = owv gates a b (ws.getD i 0) := by
  by_cases hi : i < ws.length
  · rw [valsO, List.getD_eq_getElem?_getD, List.getElem?_map,
      List.getD_eq_getElem?_getD]
    cases hg : ws[i]? with
    | none =>
      rw [List.getElem?_eq_none_iff] at hg
      omega
    | some w => rfl
  · rw [valsO, List.getD_eq_getElem?_getD, List.getElem?_map,
      List.getElem?_eq_none_iff.mpr (by omega),
      List.getD_eq_getElem?_getD, List.getElem?_eq_none_iff.mpr (by omega)]
    exact (owv_zero gates a b).symm

/-- `push_gate` from `compiler.rs`: append the gate; the new wire index is
`gates.len() + 1` after the push, i.e. position + 2 (wires 0 and 1 are the
reserved constants). -/
def old_push_gate (gates : List OldGate) (g : OldGate) : Nat × List OldGate :=
  let gates2 := gates ++ [g]
  (gates2.length + 1, gates2)

/-- `push_not` from `compiler.rs`: `XOR` with the constant-true wire 1. -/
def old_push_not (gates : List OldGate) (x : Nat) : Nat × List OldGate :=
  old_push_gate gates (OldGate.Xor x 1)

/-- `push_mux` from `compiler.rs`: returns `x0` directly when `x0 == x1`,
otherwise `XOR(AND(x0, s), AND(x1, NOT s))` — `x0` if `s` else `x1`. -/
def old_push_mux (gates : List OldGate) (s x0 x1 : Nat) : Nat × List OldGate :=
  if x0 = x1 then (x0, gates)
  else
    let p1 := old_push_not gates s
    let p2 := old_push_gate p1.2 (OldGate.And x0 s)
    let p3 := old_push_gate p2.2 (OldGate.And x1 p1.1)
    old_push_gate p3.2 (OldGate.Xor p2.1 p3.1)

theorem old_push_gate_def (gates : List OldGate) (g : OldGate) :
    old_push_gate gates g = (gates.length + 2, gates ++ [g]) := by
  rw [old_push_gate]
  simp

theorem oldwf_append (gates : List OldGate) (g : OldGate) (hwf : OldWf gates)
    (hg : match g with
      | OldGate.Xor x y => x < gates.length + 2 ∧ y < gates.length + 2
      | OldGate.And x y => x < gates.length + 2 ∧ y < gates.length + 2
      | _ => True) : OldWf (gates ++ [g]) := by
  intro i g2 hget
  by_cases hi : i < gates.length
  · rw [List.get?_append hi] at hget
    exact hwf i g2 hget
  · have hilen : i = gates.length := by
      by_contra hne
      rw [List.get?_eq_none.mpr (by simp; omega)] at hget
      exact Option.noConfusion hget
    subst hilen
    rw [List.get?_concat_length] at hget
    obtain rfl : g = g2 := by injection hget
    cases g with
    | InA => trivial
    | InB => trivial
    | Xor x y => exact hg
    | And x y => exact hg

/-- The wire appended by `push_gate` for an `XOR` gate denotes the xor of its
operands' denotations in the original list. -/
theorem owv_new_xor (gates : List OldGate) (a b : List Bool) (x y : Nat)
    (hwf : OldWf gates) (hx : x < gates.length + 2) (hy : y < gates.length + 2) :
    owv (gates ++ [OldGate.Xor x y]) a b (gates.length + 2) =
      (owv gates a b x ^^ owv gates a b y) := by
  have hwf2 : OldWf (gates ++ [OldGate.Xor x y]) := oldwf_append _ _ hwf ⟨hx, hy⟩
  rw [owv, evalG_eq _ (oldwop_gwf _ a b hwf2)]
  have hop : oldwop (gates ++ [OldGate.Xor x y]) a b (gates.length + 2) =
      WOp.bin (fun a b => a ^^ b) x y := by
    rw [oldwop, if_neg (by omega), if_neg (by omega)]
    have hidx : gates.length + 2 - 2 = gates.length := by omega
    rw [hidx, List.get?_concat_length]
  rw [hop]
  show (evalG _ x ^^ evalG _ y) = _
  rw [show evalG (oldwop (gates ++ [OldGate.Xor x y]) a b) x =
        owv (gates ++ [OldGate.Xor x y]) a b x from rfl,
    show evalG (oldwop (gates ++ [OldGate.Xor x y]) a b) y =
        owv (gates ++ [OldGate.Xor x y]) a b y from rfl,
    owv_frame ⟨[OldGate.Xor x y], rfl⟩ a b hwf x hx,
    owv_frame ⟨[OldGate.Xor x y], rfl⟩ a b hwf y hy]

/-- The wire appended by `push_gate` for an `AND` gate denotes the conjunction
of its operands' denotations in the original list. -/
theorem owv_new_and (gates : List OldGate) (a b : List Bool) (x y : Nat)
    (hwf : OldWf gates) (hx : x < gates.length + 2) (hy : y < gates.length + 2) :
    owv (gates ++ [OldGate.And x y]) a b (gates.length + 2) =
      (owv gates a b x && owv gates a b y) := by
  have hwf2 : OldWf (gates ++ [OldGate.And x y]) := oldwf_append _ _ hwf ⟨hx, hy⟩
  rw [owv, evalG_eq _ (oldwop_gwf _ a b hwf2)]
  have hop : oldwop (gates ++ [OldGate.And x y]) a b (gates.length + 2) =
      WOp.bin (fun a b => a && b) x y := by
    rw [oldwop, if_neg (by omega), if_neg (by omega)]
    have hidx : gates.length + 2 - 2 = gates.length := by omega
    rw [hidx, List.get?_concat_length]
  rw [hop]
  show (evalG _ x && evalG _ y) = _
  rw [show evalG (oldwop (gates ++ [OldGate.And x y]) a b) x =
        owv (gates ++ [OldGate.And x y]) a b x from rfl,
    show evalG (oldwop (gates ++ [OldGate.And x y]) a b) y =
        owv (gates ++ [OldGate.And x y]) a b y from rfl,
    owv_frame ⟨[OldGate.And x y], rfl⟩ a b hwf x hx,
    owv_frame ⟨[OldGate.And x y], rfl⟩ a b hwf y hy]

/-- Specification of the legacy `push_mux`: the returned wire denotes
`if s then x0 else x1`. -/
theorem old_push_mux_spec (gates : List OldGate) (a b : List Bool) (s x0 x1 : Nat)
    (hwf : OldWf gates) (hs : s < gates.length + 2) (h0 : x0 < gates.length + 2)
    (h1 : x1 < gates.length + 2) :
    OldWf (old_push_mux gates s x0 x1).2 ∧
    OExt gates (old_push_mux gates s x0 x1).2 ∧
    (old_push_mux gates s x0 x1).1 < (old_push_mux gates s x0 x1).2.length + 2 ∧
    owv (old_push_mux gates s x0 x1).2 a b (old_push_mux gates s x0 x1).1 =
      (if owv gates a b s then owv gates a b x0 else owv gates a b x1) := by
  rw [old_push_mux]
  by_cases he : x0 = x1
  · rw [if_pos he]
    refine ⟨hwf, OExt_refl gates, h0, ?_⟩
    subst he
    cases owv gates a b s <;> simp
  rw [if_neg he]
  simp only [old_push_not, old_push_gate_def]
  set g1 := gates ++ [OldGate.Xor s 1] with hg1
  set g2 := g1 ++ [OldGate.And x0 s] with hg2
  set g3 := g2 ++ [OldGate.And x1 (gates.length + 2)] with hg3
  set g4 := g3 ++ [OldGate.Xor (g1.length + 2) (g2.length + 2)] with hg4
  have hl1 : g1.length = gates.length + 1 := by rw [hg1]; simp
  have hl2 : g2.length = gates.length + 2 := by rw [hg2]; simp [hl1]
  have hl3 : g3.length = gates.length + 3 := by rw [hg3]; simp [hl2]
  have hl4 : g4.length = gates.length + 4 := by rw [hg4]; simp [hl3]
  have hwf1 : OldWf g1 := oldwf_append _ _ hwf ⟨hs, by omega⟩
  have hwf2 : OldWf g2 := oldwf_append _ _ hwf1 ⟨by omega, by omega⟩
  have hwf3 : OldWf g3 := oldwf_append _ _ hwf2 ⟨by omega, by omega⟩
  have hwf4 : OldWf g4 := oldwf_append _ _ hwf3 ⟨by omega, by omega⟩
  have hv1 : owv g1 a b (gates.length + 2) = (owv gates a b s ^^ true) := by
    rw [hg1, owv_new_xor gates a b s 1 hwf hs (by omega)]
    rw [owv_one]
  have hv2 : owv g2 a b (g1.length + 2) = (owv gates a b x0 && owv gates a b s) := by
    rw [hg2, owv_new_and g1 a b x0 s hwf1 (by omega) (by omega),
      owv_frame ⟨[OldGate.Xor s 1], rfl⟩ a b hwf x0 h0,
      owv_frame ⟨[OldGate.Xor s 1], rfl⟩ a b hwf s hs]
  have hv3 : owv g3 a b (g2.length + 2) =
      (owv gates a b x1 && (owv gates a b s ^^ true)) := by
    rw [hg3, owv_new_and g2 a b x1 (gates.length + 2) hwf2 (by omega) (by omega)]
    have he21 : OExt g1 g2 := ⟨[OldGate.And x0 s], rfl⟩
    rw [owv_frame he21 a b hwf1 (gates.length + 2) (by omega), hv1]
    rw [owv_frame (OExt_trans ⟨[OldGate.Xor s 1], rfl⟩ he21 : OExt gates g2) a b hwf x1 h1]
  have hv4 : owv g4 a b (g3.length + 2) =
      ((owv gates a b x0 && owv gates a b s) ^^
        (owv gates a b x1 && (owv gates a b s ^^ true))) := by
    rw [hg4, owv_new_xor g3 a b (g1.length + 2) (g2.length + 2) hwf3 (by omega) (by omega)]
    have he32 : OExt g2 g3 := ⟨[OldGate.And x1 (gates.length + 2)], rfl⟩
    rw [owv_frame he32 a b hwf2 (g1.length + 2) (by omega), hv2, hv3]
  refine ⟨hwf4, ?_, by omega, ?_⟩
  · exact ⟨[OldGate.Xor s 1] ++ [OldGate.And x0 s] ++ [OldGate.And x1 (gates.length + 2)]
      ++ [OldGate.Xor (g1.length + 2) (g2.length + 2)], by
        rw [hg4, hg3, hg2, hg1]; simp⟩
  · rw [hv4]
    cases owv gates a b s <;> cases owv gates a b x0 <;> cases owv gates a b x1 <;> rfl

/-- `Op::ShiftLeft` / `Op::ShiftRight`. -/
inductive ShiftOp where
  | ShiftLeft : ShiftOp
  | ShiftRight : ShiftOp
deriving DecidableEq, Repr

/-- The inner `for i in 0..bits` loop of the shift lowering in `compiler.rs`
as a recursion over the list of remaining bit positions `i`: the shifted
source bit is `0` past the top for left shifts and `bit_to_shift_in` (here
`b2s`) below the bottom for right shifts, and each output bit is
`push_mux(s, shifted, unshifted)`. -/
def shift_src (op : ShiftOp) (b2s bits shift : Nat) (unsh : List Nat) (i : Nat) : Nat :=
  match op with
  | ShiftOp.ShiftLeft => if bits ≤ i + shift then 0 else unsh.getD (i + shift) 0
  | ShiftOp.ShiftRight => if i < shift then b2s else unsh.getD (i - shift) 0

def shift_layer (op : ShiftOp) (b2s bits shift s : Nat) (unsh : List Nat) :
    List Nat → List OldGate → List Nat × List OldGate
  | [], gates => ([], gates)
  | i :: rest, gates =>
    let p := old_push_mux gates s (shift_src op b2s bits shift unsh i) (unsh.getD i 0)
    let q := shift_layer op b2s bits shift s unsh rest p.2
    (p.1 :: q.1, q.2)

/-- The `for layer in (0..8).rev()` loop of the shift lowering: the first
argument is the number of remaining layers, so a call with `layer + 1` uses
the selector `y[layer]` and doubles `shift` for the rest. -/
def shift_layers (op : ShiftOp) (b2s bits : Nat) (y : List Nat) :
    Nat → Nat → List Nat → List OldGate → List Nat × List OldGate
  | 0, _, unsh, gates => (unsh, gates)
  | layer + 1, shift, unsh, gates =>
    let s := y.getD layer 0
    let p := shift_layer op b2s bits shift s unsh (List.range bits) gates
    shift_layers op b2s bits y layer (shift * 2) p.1 p.2

/-- The shift lowering from `compiler.rs` (`ExprEnum::Op` with `ShiftLeft` or
`ShiftRight`): `bit_to_shift_in = x[0]`, then eight mux layers selected by
the bits of `y`, starting at shift amount 1. -/
def compile_shift (op : ShiftOp) (x y : List Nat) (gates : List OldGate) :
    List Nat × List OldGate :=
  shift_layers op (x.headD 0) x.length y 8 1 x gates

/-- Value-level description of one shift mux layer: when the selector is set,
left shifts read from `shift` positions later (or `false` past the end) and
right shifts read from `shift` positions earlier (or `fill` before the
start). -/
def spec_shift_layer (op : ShiftOp) (fill : Bool) (bits shift : Nat) (sv : Bool)
    (v : List Bool) : List Bool :=
  (List.range bits).map (fun i =>
    if sv then
      match op with
      | ShiftOp.ShiftLeft => if bits ≤ i + shift then false else v.getD (i + shift) false
      | ShiftOp.ShiftRight => if i < shift then fill else v.getD (i - shift) false
    else v.getD i false)

/-- Value-level description of the layered barrel shifter. -/
def spec_shift_layers (op : ShiftOp) (fill : Bool) (bits : Nat) (svals : List Bool) :
    Nat → Nat → List Bool → List Bool
  | 0, _, v => v
  | layer + 1, shift, v =>
    spec_shift_layers op fill bits svals layer (shift * 2)
      (spec_shift_layer op fill bits shift (svals.getD layer false) v)

theorem getD_wire_bound (ws : List Nat) (n L : Nat) (hb : ∀ w ∈ ws, w < L)
    (hL : 0 < L) : ws.getD n 0 < L := by
  rw [List.getD_eq_getElem?_getD]
  cases hg : ws[n]? with
  | none => exact hL
  | some w => exact hb w (List.getElem?_mem hg)

theorem shift_layer_spec (op : ShiftOp) (b2s bits shift s : Nat) (unsh : List Nat) :
    ∀ (idxs : List Nat) (gates : List OldGate) (a b : List Bool),
      OldWf gates → s < gates.length + 2 → b2s < gates.length + 2 →
      (∀ w ∈ unsh, w < gates.length + 2) →
      OldWf (shift_layer op b2s bits shift s unsh idxs gates).2 ∧
      OExt gates (shift_layer op b2s bits shift s unsh idxs gates).2 ∧
      (shift_layer op b2s bits shift s unsh idxs gates).1.length = idxs.length ∧
      (∀ w ∈ (shift_layer op b2s bits shift s unsh idxs gates).1,
        w < (shift_layer op b2s bits shift s unsh idxs gates).2.length + 2) ∧
      valsO (shift_layer op b2s bits shift s unsh idxs gates).2 a b
          (shift_layer op b2s bits shift s unsh idxs gates).1 =
        idxs.map (fun i =>
          if owv gates a b s then
            match op with
            | ShiftOp.ShiftLeft =>
                if bits ≤ i + shift then false
                else owv gates a b (unsh.getD (i + shift) 0)
            | ShiftOp.ShiftRight =>
                if i < shift then owv gates a b b2s
                else owv gates a b (unsh.getD (i - shift) 0)
          else owv gates a b (unsh.getD i 0)) := by
  intro idxs
  induction idxs with
  | nil =>
    intro gates a b hwf hs hb2s hbu
    exact ⟨hwf, OExt_refl gates, rfl, by intro w hw; exact absurd hw (List.not_mem_nil w), rfl⟩
  | cons i rest ih =>
    intro gates a b hwf hs hb2s hbu
    simp only [shift_layer]
    have hLpos : (0 : Nat) < gates.length + 2 := by omega
    have hsh : shift_src op b2s bits shift unsh i < gates.length + 2 := by
      rw [shift_src.eq_def]
      cases op with
      | ShiftLeft =>
        by_cases hc : bits ≤ i + shift
        · simp only [if_pos hc]; omega
        · simp only [if_neg hc]; exact getD_wire_bound unsh _ _ hbu hLpos
      | ShiftRight =>
        by_cases hc : i < shift
        · simp only [if_pos hc]; exact hb2s
        · simp only [if_neg hc]; exact getD_wire_bound unsh _ _ hbu hLpos
    have hun : unsh.getD i 0 < gates.length + 2 := getD_wire_bound unsh _ _ hbu hLpos
    obtain ⟨hwfp, hep, hrp, hvp⟩ := old_push_mux_spec gates a b s _ _ hwf hs hsh hun
    set p := old_push_mux gates s (shift_src op b2s bits shift unsh i)
      (unsh.getD i 0) with hp
    have hsb : s < p.2.length + 2 := by have := hep.len_le; omega
    have hb2sb : b2s < p.2.length + 2 := by have := hep.len_le; omega
    have hbub : ∀ w ∈ unsh, w < p.2.length + 2 := by
      intro w hw
      have := hep.len_le
      have := hbu w hw
      omega
    obtain ⟨hwfq, heq, hlq, hbq, hvq⟩ := ih p.2 a b hwfp hsb hb2sb hbub
    set q := shift_layer op b2s bits shift s unsh rest p.2 with hq
    refine ⟨hwfq, OExt_trans hep heq, by simp [hlq], ?_, ?_⟩
    · intro w hw
      rcases List.mem_cons.mp hw with hw | hw
      · subst hw
        have := heq.len_le
        omega
      · exact hbq w hw
    · have hfr : ∀ w : Nat, w < gates.length + 2 → owv p.2 a b w = owv gates a b w := by
        intro w hw
        exact owv_frame hep a b hwf w hw
      rw [valsO, List.map_cons, List.map_cons]
      congr 1
      · rw [show owv q.2 a b p.1 = owv p.2 a b p.1 from
          owv_frame heq a b hwfp p.1 hrp, hvp, shift_src.eq_def]
        cases op with
        | ShiftLeft =>
          by_cases hc : bits ≤ i + shift
          · simp only [if_pos hc]
            cases owv gates a b s <;> simp [owv_zero]
          · simp only [if_neg hc]
        | ShiftRight =>
          by_cases hc : i < shift
          · simp only [if_pos hc]
          · simp only [if_neg hc]
      · show valsO q.2 a b q.1 = _
        rw [hvq]
        apply List.map_congr_left
        intro j hj
        have hb2sf := hfr b2s hb2s
        have hsf := hfr s hs
        rw [hsf]
        cases hsv : owv gates a b s with
        | false =>
          rw [if_neg (by decide : ¬(false = true)),
            if_neg (by decide : ¬(false = true))]
          exact hfr _ (getD_wire_bound unsh _ _ hbu hLpos)
        | true =>
          rw [if_pos (by decide : true = true), if_pos (by decide : true = true)]
          cases op with
          | ShiftLeft =>
            by_cases hc : bits ≤ j + shift
            · rw [if_pos hc, if_pos hc]
            · rw [if_neg hc, if_neg hc]
              exact hfr _ (getD_wire_bound unsh _ _ hbu hLpos)
          | ShiftRight =>
            by_cases hc : j < shift
            · rw [if_pos hc, if_pos hc]
              exact hb2sf
            · rw [if_neg hc, if_neg hc]
              exact hfr _ (getD_wire_bound unsh _ _ hbu hLpos)

theorem shift_layers_spec (op : ShiftOp) (b2s bits : Nat) (y : List Nat) :
    ∀ (n shift : Nat) (unsh : List Nat) (gates : List OldGate) (a b : List Bool),
      OldWf gates → b2s < gates.length + 2 →
      (∀ w ∈ y, w < gates.length + 2) →
      (∀ w ∈ unsh, w < gates.length + 2) → unsh.length = bits →
      OldWf (shift_layers op b2s bits y n shift unsh gates).2 ∧
      OExt gates (shift_layers op b2s bits y n shift unsh gates).2 ∧
      (shift_layers op b2s bits y n shift unsh gates).1.length = bits ∧
      (∀ w ∈ (shift_layers op b2s bits y n shift unsh gates).1,
        w < (shift_layers op b2s bits y n shift unsh gates).2.length + 2) ∧
      valsO (shift_layers op b2s bits y n shift unsh gates).2 a b
          (shift_layers op b2s bits y n shift unsh gates).1 =
        spec_shift_layers op (owv gates a b b2s) bits (valsO gates a b y) n shift
          (valsO gates a b unsh) := by
  intro n
  induction n with
  | zero =>
    intro shift unsh gates a b hwf hb2s hby hbu hlen
    exact ⟨hwf, OExt_refl gates, hlen, fun w hw => hbu w hw, rfl⟩
  | succ layer ih =>
    intro shift unsh gates a b hwf hb2s hby hbu hlen
    simp only [shift_layers]
    have hLpos : (0 : Nat) < gates.length + 2 := by omega
    have hs : y.getD layer 0 < gates.length + 2 := getD_wire_bound y _ _ hby hLpos
    obtain ⟨hwfp, hep, hlp, hbp, hvp⟩ :=
      shift_layer_spec op b2s bits shift (y.getD layer 0) unsh (List.range bits)
        gates a b hwf hs hb2s hbu
    set p := shift_layer op b2s bits shift (y.getD layer 0) unsh (List.range bits)
      gates with hp
    have hvp2 : valsO p.2 a b p.1 =
        spec_shift_layer op (owv gates a b b2s) bits shift
          ((valsO gates a b y).getD layer false) (valsO gates a b unsh) := by
      rw [hvp, spec_shift_layer, valsO_getD]
      apply List.map_congr_left
      intro j hj
      cases op with
      | ShiftLeft => simp only [valsO_getD]
      | ShiftRight => simp only [valsO_getD]
    have hb2sp : b2s < p.2.length + 2 := by have := hep.len_le; omega
    have hbyp : ∀ w ∈ y, w < p.2.length + 2 := by
      intro w hw
      have := hep.len_le
      have := hby w hw
      omega
    have hlenp : p.1.length = bits := by rw [hlp, List.length_range]
    obtain ⟨hwfq, heq, hlq, hbq, hvq⟩ :=
      ih (shift * 2) p.1 p.2 a b hwfp hb2sp hbyp hbp hlenp
    refine ⟨hwfq, OExt_trans hep heq, hlq, hbq, ?_⟩
    rw [hvq, spec_shift_layers]
    rw [owv_frame hep a b hwf b2s hb2s,
      valsO_frame hep a b hwf y hby, hvp2]

theorem oldwf_of_inputs (gates : List OldGate)
    (h : ∀ g ∈ gates, g = OldGate.InA ∨ g = OldGate.InB) : OldWf gates := by
  intro i g hget
  rcases h g (List.get?_mem hget) with rfl | rfl <;> trivial

/-- C2 (amended): the shift lowering in `compiler.rs` is a single function with
no signedness input. Its evaluated output is the layered barrel shift of the
operand values in which left shifts fill vacated positions with `false` and
right shifts fill with the value of wire `x[0]` — the operand's top bit — for
signed and unsigned operands alike, so the claim's unsigned case (shifting in
0) fails whenever the top bit is set. -/
theorem C2_shift_lowering_fill (op : ShiftOp) (x y : List Nat)
    (gates : List OldGate) (a b : List Bool) (hwf : OldWf gates)
    (hbx : ∀ w ∈ x, w < gates.length + 2) (hby : ∀ w ∈ y, w < gates.length + 2) :
    (compile_shift op x y gates).1.length = x.length ∧
    valsO (compile_shift op x y gates).2 a b (compile_shift op x y gates).1 =
      spec_shift_layers op (owv gates a b (x.headD 0)) x.length
        (valsO gates a b y) 8 1 (valsO gates a b x) := by
  have hb2s : x.headD 0 < gates.length + 2 := by
    cases x with
    | nil => show (0 : Nat) < gates.length + 2; omega
    | cons hd tl => exact hbx hd (List.mem_cons_self hd tl)
  obtain ⟨_, _, hlen, _, hv⟩ :=
    shift_layers_spec op (x.headD 0) x.length y 8 1 x gates a b hwf hb2s hby hbx rfl
  exact ⟨hlen, hv⟩

theorem C2_shift_lowering_fill_witness :
    OldWf [OldGate.InA] ∧
    ((compile_shift ShiftOp.ShiftRight [2] [0, 0, 0, 0, 0, 0, 0, 0]
        [OldGate.InA]).1.length = [2].length ∧
      valsO (compile_shift ShiftOp.ShiftRight [2] [0, 0, 0, 0, 0, 0, 0, 0]
          [OldGate.InA]).2 [true] []
          (compile_shift ShiftOp.ShiftRight [2] [0, 0, 0, 0, 0, 0, 0, 0]
            [OldGate.InA]).1 =
        spec_shift_layers ShiftOp.ShiftRight
          (owv [OldGate.InA] [true] [] ([2].headD 0)) [2].length
          (valsO [OldGate.InA] [true] [] [0, 0, 0, 0, 0, 0, 0, 0]) 8 1
          (valsO [OldGate.InA] [true] [] [2])) :=
  ⟨oldwf_of_inputs _ (by decide),
    C2_shift_lowering_fill ShiftOp.ShiftRight [2] [0, 0, 0, 0, 0, 0, 0, 0]
      [OldGate.InA] [true] [] (oldwf_of_inputs _ (by decide)) (by decide) (by decide)⟩

/-- C2 counterexample to the original claim: a 1-bit unsigned operand of value
1 (one party-A input wire, set to true) right-shifted by the constant amount 1
(`y` encodes 1 via the constant wires) evaluates to 1, because the vacated
position is filled from wire `x[0]`; the claim's unsigned semantics demand
`1 >> 1 = 0`. -/
theorem C2_shift_counterexample :
    wires_as_unsigned (valsO
        (compile_shift ShiftOp.ShiftRight [2] [0, 0, 0, 0, 0, 0, 0, 1]
          [OldGate.InA]).2 [true] []
        (compile_shift ShiftOp.ShiftRight [2] [0, 0, 0, 0, 0, 0, 0, 1]
          [OldGate.InA]).1) = 1 ∧
    wires_as_unsigned (valsO [OldGate.InA] [true] [] [2]) = 1 ∧
    wires_as_unsigned (valsO [OldGate.InA] [true] []
      [0, 0, 0, 0, 0, 0, 0, 1]) = 1 ∧
    1 / 2 ^ 1 = 0 := by
  refine ⟨?_, ?_, ?_, rfl⟩ <;> decide

/-- `extend_to_bits` from `compiler.rs` for an unsigned type (the
`Type::Usize` call site of the array-access lowering): resize, move the old
wires to the tail and fill the freed prefix with the constant-false wire 0. -/
def extend_to_usize_bits (v : List Nat) : List Nat :=
  if v.length = USIZE_BITS then v
  else List.replicate (USIZE_BITS - v.length) 0 ++ v

/-- The per-bit filler pushes of one array-access mux layer when only one
element block remains (`i + elem_bits >= array.len()` but `i < array.len()`):
each bit is muxed against `out_of_bounds_elem = 1`, the constant-true wire. -/
def mux_filler_bits (s : Nat) : List Nat → List OldGate → List Nat × List OldGate
  | [], gates => ([], gates)
  | a0 :: rest, gates =>
    let p := old_push_mux gates s 1 a0
    let q := mux_filler_bits s rest p.2
    (p.1 :: q.1, q.2)

/-- The per-bit pair pushes of one array-access mux layer
(`push_mux(gates, s, a1, a0)` over the bits of two adjacent element blocks). -/
def mux_pair_bits (s : Nat) : List Nat → List Nat → List OldGate →
    List Nat × List OldGate
  | a0 :: rest0, a1 :: rest1, gates =>
    let p := old_push_mux gates s a1 a0
    let q := mux_pair_bits s rest0 rest1 p.2
    (p.1 :: q.1, q.2)
  | _, _, gates => ([], gates)

/-- One `mux_layer` iteration of the array-access lowering: consume the array
two element blocks at a time, muxing adjacent blocks, and mux a leftover block
against the constant-true out-of-bounds filler. The first argument is fuel
(the lowering's `while i < array.len()` loop, which always advances for
non-empty blocks). -/
def array_access_layer (eb s : Nat) : Nat → List Nat → List OldGate →
    List Nat × List OldGate
  | 0, _, gates => ([], gates)
  | _ + 1, [], gates => ([], gates)
  | fuel + 1, a0 :: arr, gates =>
    if (a0 :: arr).length ≤ eb then mux_filler_bits s (a0 :: arr) gates
    else
      let p := mux_pair_bits s ((a0 :: arr).take eb) (((a0 :: arr).drop eb).take eb)
        gates
      let q := array_access_layer eb s fuel ((a0 :: arr).drop (2 * eb)) p.2
      (p.1 ++ q.1, q.2)

/-- The `for mux_layer in (0..index.len()).rev()` loop of the array-access
lowering: the first argument counts the remaining layers, so a call with
`layer + 1` selects with `index[layer]`. -/
def array_access_layers (eb : Nat) (index : List Nat) :
    Nat → List Nat → List OldGate → List Nat × List OldGate
  | 0, arr, gates => (arr, gates)
  | layer + 1, arr, gates =>
    let s := index.getD layer 0
    let p := array_access_layer eb s arr.length arr gates
    array_access_layers eb index layer p.1 p.2

/-- The `ExprEnum::ArrayAccess` lowering of `compiler.rs`: extend the index to
usize width, then run one mux layer per index bit, from the low bit upward. -/
def compile_array_access (eb : Nat) (arr index : List Nat)
    (gates : List OldGate) : List Nat × List OldGate :=
  let index2 := extend_to_usize_bits index
  array_access_layers eb index2 index2.length arr gates

theorem mux_filler_bits_spec (s : Nat) :
    ∀ (arr : List Nat) (gates : List OldGate) (a b : List Bool),
      OldWf gates → s < gates.length + 2 → (∀ w ∈ arr, w < gates.length + 2) →
      OldWf (mux_filler_bits s arr gates).2 ∧
      OExt gates (mux_filler_bits s arr gates).2 ∧
      (mux_filler_bits s arr gates).1.length = arr.length ∧
      (∀ w ∈ (mux_filler_bits s arr gates).1,
        w < (mux_filler_bits s arr gates).2.length + 2) ∧
      valsO (mux_filler_bits s arr gates).2 a b (mux_filler_bits s arr gates).1 =
        arr.map (fun w => if owv gates a b s then true else owv gates a b w) := by
  intro arr
  induction arr with
  | nil =>
    intro gates a b hwf hs hb
    exact ⟨hwf, OExt_refl gates, rfl,
      by intro w hw; exact absurd hw (List.not_mem_nil w), rfl⟩
  | cons a0 rest ih =>
    intro gates a b hwf hs hb
    simp only [mux_filler_bits]
    have ha0 : a0 < gates.length + 2 := hb a0 (List.mem_cons_self a0 rest)
    obtain ⟨hwfp, hep, hrp, hvp⟩ :=
      old_push_mux_spec gates a b s 1 a0 hwf hs (by omega) ha0
    set p := old_push_mux gates s 1 a0 with hp
    have hsb : s < p.2.length + 2 := by have := hep.len_le; omega
    have hbb : ∀ w ∈ rest, w < p.2.length + 2 := by
      intro w hw
      have := hep.len_le
      have := hb w (List.mem_cons_of_mem a0 hw)
      omega
    obtain ⟨hwfq, heq, hlq, hbq, hvq⟩ := ih p.2 a b hwfp hsb hbb
    set q := mux_filler_bits s rest p.2 with hq
    refine ⟨hwfq, OExt_trans hep heq, by simp [hlq], ?_, ?_⟩
    · intro w hw
      rcases List.mem_cons.mp hw with hw | hw
      · subst hw
        have := heq.len_le
        omega
      · exact hbq w hw
    · rw [valsO, List.map_cons, List.map_cons]
      congr 1
      · rw [show owv q.2 a b p.1 = owv p.2 a b p.1 from
          owv_frame heq a b hwfp p.1 hrp, hvp, owv_one]
      · show valsO q.2 a b q.1 = _
        rw [hvq]
        apply List.map_congr_left
        intro w hw
        rw [owv_frame hep a b hwf s hs]
        cases owv gates a b s with
        | false =>
          rw [if_neg (by decide : ¬(false = true)),
            if_neg (by decide : ¬(false = true))]
          exact owv_frame hep a b hwf w (hb w (List.mem_cons_of_mem a0 hw))
        | true =>
          rw [if_pos (by decide : true = true), if_pos (by decide : true = true)]

theorem array_access_layer_filler (eb s : Nat) (arr : List Nat)
    (gates : List OldGate) (hne : arr ≠ []) (hlen : arr.length ≤ eb) (fuel : Nat) :
    array_access_layer eb s (fuel + 1) arr gates = mux_filler_bits s arr gates := by
  cases arr with
  | nil => exact absurd rfl hne
  | cons a0 rest =>
    simp only [array_access_layer]
    rw [if_pos hlen]

theorem any_take_succ (index : List Nat) (f : Nat → Bool) (h0 : f 0 = false)
    (n : Nat) :
    ((index.take (n + 1)).map f).any id =
      (((index.take n).map f).any id || f (index.getD n 0)) := by
  by_cases hn : n < index.length
  · rw [List.take_succ, List.map_append, List.any_append]
    cases hg : index[n]? with
    | none =>
      rw [List.getElem?_eq_none_iff] at hg
      omega
    | some v =>
      have hgd : index.getD n 0 = v := by
        rw [List.getD_eq_getElem?_getD, hg]
        rfl
      rw [hgd]
      simp
  · rw [List.take_of_length_le (by omega), List.take_of_length_le (by omega),
      List.getD_eq_default _ _ (by omega), h0, Bool.or_false]

theorem aa_layers_filler (eb : Nat) (index : List Nat) :
    ∀ (n : Nat) (arr : List Nat) (gates : List OldGate) (a b : List Bool),
      OldWf gates → arr ≠ [] → arr.length ≤ eb →
      (∀ w ∈ index, w < gates.length + 2) →
      (∀ w ∈ arr, w < gates.length + 2) →
      OldWf (array_access_layers eb index n arr gates).2 ∧
      OExt gates (array_access_layers eb index n arr gates).2 ∧
      (array_access_layers eb index n arr gates).1.length = arr.length ∧
      (∀ w ∈ (array_access_layers eb index n arr gates).1,
        w < (array_access_layers eb index n arr gates).2.length + 2) ∧
      valsO (array_access_layers eb index n arr gates).2 a b
          (array_access_layers eb index n arr gates).1 =
        (if ((index.take n).map (owv gates a b)).any id
          then List.replicate arr.length true
          else valsO gates a b arr) := by
  intro n
  induction n with
  | zero =>
    intro arr gates a b hwf hne hlen hbi hba
    refine ⟨hwf, OExt_refl gates, rfl, fun w hw => hba w hw, ?_⟩
    rw [List.take_zero, List.map_nil, List.any_nil,
      if_neg (by decide : ¬(false = true))]
    rfl
  | succ layer ih =>
    intro arr gates a b hwf hne hlen hbi hba
    simp only [array_access_layers]
    have hLpos : (0 : Nat) < gates.length + 2 := by omega
    have hs : index.getD layer 0 < gates.length + 2 :=
      getD_wire_bound index _ _ hbi hLpos
    have hfuel : ∃ m, arr.length = m + 1 := by
      cases arr with
      | nil => exact absurd rfl hne
      | cons a0 rest => exact ⟨rest.length, by simp⟩
    obtain ⟨m, hm⟩ := hfuel
    have hlayer : array_access_layer eb (index.getD layer 0) arr.length arr gates =
        mux_filler_bits (index.getD layer 0) arr gates := by
      rw [hm]
      exact array_access_layer_filler eb _ arr gates hne hlen m
    rw [hlayer]
    obtain ⟨hwfp, hep, hlp, hbp, hvp⟩ :=
      mux_filler_bits_spec (index.getD layer 0) arr gates a b hwf hs hba
    set p := mux_filler_bits (index.getD layer 0) arr gates with hp
    have hnep : p.1 ≠ [] := by
      intro hc
      rw [hc] at hlp
      cases arr with
      | nil => exact hne rfl
      | cons a0 rest => exact Nat.noConfusion hlp
    have hbip : ∀ w ∈ index, w < p.2.length + 2 := by
      intro w hw
      have := hep.len_le
      have := hbi w hw
      omega
    obtain ⟨hwfq, heq, hlq, hbq, hvq⟩ :=
      ih p.1 p.2 a b hwfp hnep (by rw [hlp]; exact hlen) hbip hbp
    refine ⟨hwfq, OExt_trans hep heq, by rw [hlq, hlp], hbq, ?_⟩
    rw [hvq, hvp, hlp]
    have hframe : (index.take layer).map (owv p.2 a b) =
        (index.take layer).map (owv gates a b) := by
      apply List.map_congr_left
      intro w hw
      exact owv_frame hep a b hwf w (hbi w (List.take_subset layer index hw))
    rw [hframe, any_take_succ index (owv gates a b) (owv_zero gates a b) layer]
    cases hsv : owv gates a b (index.getD layer 0) with
    | false =>
      have hmap : List.map
          (fun w => if (false : Bool) = true then true else owv gates a b w) arr =
          valsO gates a b arr :=
        List.map_congr_left (fun w hw => if_neg (by decide))
      rw [Bool.or_false, hmap]
    | true =>
      have hmap : List.map
          (fun w => if (true : Bool) = true then true else owv gates a b w) arr =
          List.replicate arr.length true := by
        rw [List.eq_replicate_iff]
        refine ⟨by rw [List.length_map], ?_⟩
        intro x hx
        obtain ⟨w, _, hw⟩ := List.mem_map.mp hx
        rw [← hw, if_pos (by decide : (true : Bool) = true)]
      rw [Bool.or_true, hmap, if_pos (by decide : (true : Bool) = true)]
      cases ((index.take layer).map (owv gates a b)).any id with
      | false => rw [if_neg (by decide : ¬((false : Bool) = true))]
      | true => rw [if_pos (by decide : (true : Bool) = true)]

theorem compile_array_access_of_full (eb : Nat) (arr index : List Nat)
    (gates : List OldGate) (hil : index.length = USIZE_BITS) :
    compile_array_access eb arr index gates =
      array_access_layers eb index index.length arr gates := by
  simp only [compile_array_access, extend_to_usize_bits, if_pos hil]

/-- The legacy gate language: only input and XOR/AND gates exist, so a
lowering into it cannot push a panic of any kind. -/
def isLogicGate : OldGate → Bool
  | OldGate.Xor _ _ => true
  | OldGate.And _ _ => true
  | _ => false

/-- C3 (amended): the `ExprEnum::ArrayAccess` lowering pushes no panic of any
kind — the legacy gate language has no panic construct — and for a
single-element-block array (`N = 1`, so every index value `>= 1` is out of
range) an out-of-range index makes the access denote the all-true
`out_of_bounds_elem = 1` filler, not element 0: the result is the element
exactly when the index value is 0 and `replicate true` otherwise. -/
theorem C3_array_access_oob_filler (eb : Nat) (arr index : List Nat)
    (gates : List OldGate) (a b : List Bool) (hwf : OldWf gates)
    (hne : arr ≠ []) (hlen : arr.length ≤ eb) (hil : index.length = USIZE_BITS)
    (hbi : ∀ w ∈ index, w < gates.length + 2)
    (hba : ∀ w ∈ arr, w < gates.length + 2) :
    (compile_array_access eb arr index gates).1.length = arr.length ∧
    valsO (compile_array_access eb arr index gates).2 a b
        (compile_array_access eb arr index gates).1 =
      (if (index.map (owv gates a b)).any id
        then List.replicate arr.length true
        else valsO gates a b arr) ∧
    (wires_as_unsigned (valsO gates a b index) ≠ 0 →
      valsO (compile_array_access eb arr index gates).2 a b
        (compile_array_access eb arr index gates).1 =
        List.replicate arr.length true) := by
  rw [compile_array_access_of_full eb arr index gates hil]
  obtain ⟨_, _, hl, _, hv⟩ := aa_layers_filler eb index index.length arr gates a b
    hwf hne hlen hbi hba
  rw [List.take_length] at hv
  refine ⟨hl, hv, ?_⟩
  intro hnz
  rw [hv]
  rw [Ne, wires_as_unsigned_eq_zero_iff] at hnz
  cases hany : (index.map (owv gates a b)).any id with
  | false => exact absurd hany hnz
  | true => rw [if_pos (by decide : (true : Bool) = true)]

theorem C3_array_access_oob_filler_witness :
    OldWf [OldGate.InA, OldGate.InA] ∧
    (([3] : List Nat) ≠ [] ∧ ([3] : List Nat).length ≤ 1 ∧
      (List.replicate 63 0 ++ [2] : List Nat).length = USIZE_BITS) ∧
    ((compile_array_access 1 [3] (List.replicate 63 0 ++ [2])
        [OldGate.InA, OldGate.InA]).1.length = ([3] : List Nat).length ∧
      valsO (compile_array_access 1 [3] (List.replicate 63 0 ++ [2])
          [OldGate.InA, OldGate.InA]).2 [true, false] []
        (compile_array_access 1 [3] (List.replicate 63 0 ++ [2])
          [OldGate.InA, OldGate.InA]).1 =
        (if ((List.replicate 63 0 ++ [2]).map
            (owv [OldGate.InA, OldGate.InA] [true, false] [])).any id
          then List.replicate ([3] : List Nat).length true
          else valsO [OldGate.InA, OldGate.InA] [true, false] [] [3]) ∧
      (wires_as_unsigned (valsO [OldGate.InA, OldGate.InA] [true, false] []
          (List.replicate 63 0 ++ [2])) ≠ 0 →
        valsO (compile_array_access 1 [3] (List.replicate 63 0 ++ [2])
            [OldGate.InA, OldGate.InA]).2 [true, false] []
          (compile_array_access 1 [3] (List.replicate 63 0 ++ [2])
            [OldGate.InA, OldGate.InA]).1 =
          List.replicate ([3] : List Nat).length true)) :=
  ⟨oldwf_of_inputs _ (by decide), ⟨by decide, by decide, by decide⟩,
    C3_array_access_oob_filler 1 [3] (List.replicate 63 0 ++ [2])
      [OldGate.InA, OldGate.InA] [true, false] [] (oldwf_of_inputs _ (by decide))
      (by decide) (by decide) (by decide) (by decide) (by decide)⟩

set_option maxRecDepth 8000 in
/-- C3 counterexample to the original claim: a 1-element array of one 1-bit
element (wire 3, a party-A input set to false) accessed at the 64-bit wire
index encoding 1 (an out-of-range index for `N = 1`). The access result
denotes `[true]` — the constant-true `out_of_bounds_elem` filler — which is
not element 0 (`[false]`) nor any in-range element, and the gates appended by
the lowering are XOR/AND gates only: no out-of-bounds panic of any kind is
pushed. -/
theorem C3_array_access_counterexample :
    wires_as_unsigned (valsO [OldGate.InA, OldGate.InA] [true, false] []
      (List.replicate 63 0 ++ [2])) = 1 ∧
    ([3] : List Nat).length ≤ 1 ∧
    valsO (compile_array_access 1 [3] (List.replicate 63 0 ++ [2])
        [OldGate.InA, OldGate.InA]).2 [true, false] []
      (compile_array_access 1 [3] (List.replicate 63 0 ++ [2])
        [OldGate.InA, OldGate.InA]).1 = [true] ∧
    valsO [OldGate.InA, OldGate.InA] [true, false] [] [3] = [false] ∧
    ((compile_array_access 1 [3] (List.replicate 63 0 ++ [2])
        [OldGate.InA, OldGate.InA]).2.drop 2).all isLogicGate = true := by
  refine ⟨by decide, by decide, ?_, by decide, by decide⟩
  rw [compile_array_access_of_full 1 [3] (List.replicate 63 0 ++ [2])
    [OldGate.InA, OldGate.InA] (by decide)]
  obtain ⟨_, _, _, _, hv⟩ := aa_layers_filler 1 (List.replicate 63 0 ++ [2])
    (List.replicate 63 0 ++ [2] : List Nat).length [3] [OldGate.InA, OldGate.InA]
    [true, false] [] (oldwf_of_inputs _ (by decide)) (by decide) (by decide)
    (by decide) (by decide)
  rw [hv, List.take_length, if_pos (by decide)]
  rfl

/-- `CircuitBuilder::replace_panic_with` from `circuit.rs`:
`mem::replace(&mut self.panic_gates, p)` — the caller-supplied `PanicResult`
is installed verbatim (no validity check of any kind) and the previous one is
returned. -/
def replace_panic_with (p : PanicResult) (st : CircuitBuilder) :
    PanicResult × CircuitBuilder :=
  (st.panic_gates, { st with panic_gates := p })

/-- The used-gate marking loop of `remove_unused_gates`
(`while let Some(gate_index) = output_gate_stack.pop()`): pop from the end of
the stack, mark the popped gate used, and push its not-yet-used operands.
The loop is fuelled; the caller passes a fuel that the loop cannot exhaust
(every pop consumes one stack entry and each gate pushes at most two). -/
def mark_used (shift : Nat) (gates : List BuilderGate) :
    Nat → List Nat → List Bool → List Bool
  | 0, _, used => used
  | fuel + 1, stack, used =>
    match stack.getLast? with
    | none => used
    | some gate_index =>
      let stack := stack.dropLast
      if shift ≤ gate_index then
        let shifted_index := gate_index - shift
        let used := used.set shifted_index true
        match gates.get? shifted_index with
        | none => mark_used shift gates fuel stack used
        | some g =>
          let x := match g with
            | BuilderGate.Xor x _ => x
            | BuilderGate.And x _ => x
          let y := match g with
            | BuilderGate.Xor _ y => y
            | BuilderGate.And _ y => y
          let stack := if shift ≤ x then
              (if used.getD (x - shift) false then stack else stack ++ [x])
            else stack
          let stack := if shift ≤ y then
              (if used.getD (y - shift) false then stack else stack ++ [y])
            else stack
          mark_used shift gates fuel stack used
      else mark_used shift gates fuel stack used

/-- `unused_before_gate` of `remove_unused_gates`: entry `w` counts the
unused gates at positions `0..=w`. -/
def unused_before (used : List Bool) : List Nat :=
  (List.range used.length).map
    (fun w => ((used.take (w + 1)).filter (fun u => ! u)).length)

/-- `shift_gate_index_if_necessary` of `remove_unused_gates` (note the
strict `index > shift`). -/
def shift_idx (shift : Nat) (ub : List Nat) (index : Nat) : Nat :=
  if shift < index then index - ub.getD (index - shift) 0 else index

/-- `CircuitBuilder::remove_unused_gates` from `circuit.rs`: mark the gates
reachable from the outputs and the panic wires, renumber every wire to skip
the unused gates, and drop the unused gates. -/
def remove_unused_gates (output_gates : List Nat) (st : CircuitBuilder) :
    List Nat × CircuitBuilder :=
  let shift := st.shift
  let stack := output_gates ++ [st.panic_gates.has_panicked] ++
    st.panic_gates.panic_type ++ st.panic_gates.start_line ++
    st.panic_gates.start_column ++ st.panic_gates.end_line ++
    st.panic_gates.end_column
  let used := mark_used shift st.gates
    (stack.length + 2 * st.gates.length * st.gates.length + 2 * st.gates.length + 1)
    stack (List.replicate st.gates.length false)
  let ub := unused_before used
  let unused_gates := (used.filter (fun u => ! u)).length
  let gates2 := st.gates.map (fun g => match g with
    | BuilderGate.Xor x y => BuilderGate.Xor (shift_idx shift ub x) (shift_idx shift ub y)
    | BuilderGate.And x y => BuilderGate.And (shift_idx shift ub x) (shift_idx shift ub y))
  let pg := st.panic_gates
  let pg2 : PanicResult :=
    { has_panicked := shift_idx shift ub pg.has_panicked
      panic_type := pg.panic_type.map (shift_idx shift ub)
      start_line := pg.start_line.map (shift_idx shift ub)
      start_column := pg.start_column.map (shift_idx shift ub)
      end_line := pg.end_line.map (shift_idx shift ub)
      end_column := pg.end_column.map (shift_idx shift ub) }
  let kept := (List.zip gates2 used).filterMap
    (fun q => if q.2 then some q.1 else none)
  let st2 := { st with
    gates := kept
    gates_optimized := st.gates_optimized + unused_gates
    panic_gates := pg2 }
  (output_gates.map (shift_idx shift ub), st2)

/-- `CircuitBuilder::build` from `circuit.rs`: prune unused gates, then
translate from the builder representation (wires 0/1 constant, inputs from 2)
to the final representation (inputs from 0, the constants rebuilt as the
first two gates `Xor(0,0)` and `Not(input_shift)`). -/
def CircuitBuilder.build (st : CircuitBuilder) (output_gates : List Nat) :
    Circuit :=
  let pr := remove_unused_gates output_gates st
  let output_gates2 := pr.1
  let st2 := pr.2
  let input_shift := st2.shift - 2
  let sidx := fun (i : Nat) =>
    if i ≤ 1 then i + input_shift
    else if i < input_shift + 2 then i - 2
    else i
  let sgate := fun (g : BuilderGate) => match g with
    | BuilderGate.Xor x y =>
      if x = 1 then Gate.Not (sidx y)
      else if y = 1 then Gate.Not (sidx x)
      else Gate.Xor (sidx x) (sidx y)
    | BuilderGate.And x y => Gate.And (sidx x) (sidx y)
  { input_gates := st2.input_gates
    gates := [Gate.Xor 0 0, Gate.Not input_shift] ++ st2.gates.map sgate
    output_gates := output_gates2.map sidx
    panic_gates :=
      { has_panicked := sidx st2.panic_gates.has_panicked
        panic_type := st2.panic_gates.panic_type.map sidx
        start_line := st2.panic_gates.start_line.map sidx
        start_column := st2.panic_gates.start_column.map sidx
        end_line := st2.panic_gates.end_line.map sidx
        end_column := st2.panic_gates.end_column.map sidx } }

/-- C8 (amended): for every builder state whose panic wires satisfy the panic
invariant `PanicInv` — established by `PanicResult::ok` at construction and
preserved by `push_panic_if` — every input that sets the `has_panicked` wire
makes the `panic_type` wires decode to `reason_num r ∈ {1, 2, 3}` of the
recorded panic, so `PanicReason::from_num` succeeds and its
`Invalid panic reason` panic is unreachable.  (The original claim's
quantification over arbitrary interleavings fails at `replace_panic_with`,
which installs a caller-supplied `PanicResult` verbatim; see the
counterexample.) -/
theorem C8_panic_reason_validity (st : CircuitBuilder) (inp : Nat → Bool)
    (cur : Option (PanicReason × MetaInfo)) (hinv : PanicInv st inp cur)
    (hp : wv st inp st.panic_gates.has_panicked = true) :
    ∃ r m, cur = some (r, m) ∧
      wires_as_unsigned (valsL st inp st.panic_gates.panic_type) = reason_num r ∧
      PanicReason.from_num
        (wires_as_unsigned (valsL st inp st.panic_gates.panic_type)) = some r ∧
      1 ≤ reason_num r ∧ reason_num r ≤ 3 := by
  have hhv := hinv.hhv
  rw [hp] at hhv
  cases cur with
  | none => exact absurd hhv.symm (by simp)
  | some rm =>
    obtain ⟨r, m⟩ := rm
    obtain ⟨hdec, _⟩ := hinv.hdec r m rfl
    refine ⟨r, m, rfl, hdec, ?_, ?_, ?_⟩
    · rw [hdec]
      cases r <;> rfl
    · cases r <;> decide
    · cases r <;> decide

theorem C8_panic_reason_validity_witness :
    PanicInv
      { CircuitBuilder.new [1] with panic_gates :=
          { has_panicked := 1, panic_type := unsigned_as_usize_bits 2,
            start_line := List.replicate USIZE_BITS 0,
            start_column := List.replicate USIZE_BITS 0,
            end_line := List.replicate USIZE_BITS 0,
            end_column := List.replicate USIZE_BITS 0 } }
      (fun _ => false)
      (some (PanicReason.DivByZero, ⟨(0, 0), (0, 0)⟩)) ∧
    wv { CircuitBuilder.new [1] with panic_gates :=
          { has_panicked := 1, panic_type := unsigned_as_usize_bits 2,
            start_line := List.replicate USIZE_BITS 0,
            start_column := List.replicate USIZE_BITS 0,
            end_line := List.replicate USIZE_BITS 0,
            end_column := List.replicate USIZE_BITS 0 } }
      (fun _ => false)
      ({ CircuitBuilder.new [1] with panic_gates :=
          { has_panicked := 1, panic_type := unsigned_as_usize_bits 2,
            start_line := List.replicate USIZE_BITS 0,
            start_column := List.replicate USIZE_BITS 0,
            end_line := List.replicate USIZE_BITS 0,
            end_column := List.replicate USIZE_BITS 0 } }
        : CircuitBuilder).panic_gates.has_panicked = true ∧
    (∃ r m, (some (PanicReason.DivByZero, (⟨(0, 0), (0, 0)⟩ : MetaInfo))) =
        some (r, m) ∧
      wires_as_unsigned (valsL
        { CircuitBuilder.new [1] with panic_gates :=
            { has_panicked := 1, panic_type := unsigned_as_usize_bits 2,
              start_line := List.replicate USIZE_BITS 0,
              start_column := List.replicate USIZE_BITS 0,
              end_line := List.replicate USIZE_BITS 0,
              end_column := List.replicate USIZE_BITS 0 } }
        (fun _ => false)
        ({ CircuitBuilder.new [1] with panic_gates :=
            { has_panicked := 1, panic_type := unsigned_as_usize_bits 2,
              start_line := List.replicate USIZE_BITS 0,
              start_column := List.replicate USIZE_BITS 0,
              end_line := List.replicate USIZE_BITS 0,
              end_column := List.replicate USIZE_BITS 0 } }
          : CircuitBuilder).panic_gates.panic_type) = reason_num r ∧
      PanicReason.from_num (wires_as_unsigned (valsL
        { CircuitBuilder.new [1] with panic_gates :=
            { has_panicked := 1, panic_type := unsigned_as_usize_bits 2,
              start_line := List.replicate USIZE_BITS 0,
              start_column := List.replicate USIZE_BITS 0,
              end_line := List.replicate USIZE_BITS 0,
              end_column := List.replicate USIZE_BITS 0 } }
        (fun _ => false)
        ({ CircuitBuilder.new [1] with panic_gates :=
            { has_panicked := 1, panic_type := unsigned_as_usize_bits 2,
              start_line := List.replicate USIZE_BITS 0,
              start_column := List.replicate USIZE_BITS 0,
              end_line := List.replicate USIZE_BITS 0,
              end_column := List.replicate USIZE_BITS 0 } }
          : CircuitBuilder).panic_gates.panic_type)) = some r ∧
      1 ≤ reason_num r ∧ reason_num r ≤ 3) := by
  refine ⟨⟨?_, ?_, ?_, ?_, ?_, ?_, ?_, ?_, ?_, ?_, ?_, ?_, ?_⟩, rfl, ?_⟩
  · decide
  · intro w hw
    rw [show ({ CircuitBuilder.new [1] with panic_gates :=
        { has_panicked := 1, panic_type := unsigned_as_usize_bits 2,
          start_line := List.replicate USIZE_BITS 0,
          start_column := List.replicate USIZE_BITS 0,
          end_line := List.replicate USIZE_BITS 0,
          end_column := List.replicate USIZE_BITS 0 } }
      : CircuitBuilder).panic_gates.panic_type = unsigned_as_usize_bits 2 from rfl]
      at hw
    exact BddL_usize_bits 2 _ (by decide) w hw
  · intro w hw
    have : w = 0 := by
      rcases List.eq_of_mem_replicate hw with rfl
      rfl
    subst this
    decide
  · intro w hw
    have : w = 0 := by
      rcases List.eq_of_mem_replicate hw with rfl
      rfl
    subst this
    decide
  · intro w hw
    have : w = 0 := by
      rcases List.eq_of_mem_replicate hw with rfl
      rfl
    subst this
    decide
  · intro w hw
    have : w = 0 := by
      rcases List.eq_of_mem_replicate hw with rfl
      rfl
    subst this
    decide
  · decide
  · decide
  · decide
  · decide
  · decide
  · rfl
  · intro r m h
    obtain ⟨rfl, rfl⟩ : PanicReason.DivByZero = r ∧
        (⟨(0, 0), (0, 0)⟩ : MetaInfo) = m := by
      injection h with h2
      injection h2 with ha hb
      exact ⟨ha, hb⟩
    refine ⟨by decide, by decide, by decide, by decide, by decide⟩
  · exact C8_panic_reason_validity _ (fun _ => false)
      (some (PanicReason.DivByZero, ⟨(0, 0), (0, 0)⟩))
      (by
        refine ⟨?_, ?_, ?_, ?_, ?_, ?_, ?_, ?_, ?_, ?_, ?_, ?_, ?_⟩
        · decide
        · intro w hw
          rw [show ({ CircuitBuilder.new [1] with panic_gates :=
              { has_panicked := 1, panic_type := unsigned_as_usize_bits 2,
                start_line := List.replicate USIZE_BITS 0,
                start_column := List.replicate USIZE_BITS 0,
                end_line := List.replicate USIZE_BITS 0,
                end_column := List.replicate USIZE_BITS 0 } }
            : CircuitBuilder).panic_gates.panic_type = unsigned_as_usize_bits 2
            from rfl] at hw
          exact BddL_usize_bits 2 _ (by decide) w hw
        · intro w hw
          have : w = 0 := by
            rcases List.eq_of_mem_replicate hw with rfl
            rfl
          subst this
          decide
        · intro w hw
          have : w = 0 := by
            rcases List.eq_of_mem_replicate hw with rfl
            rfl
          subst this
          decide
        · intro w hw
          have : w = 0 := by
            rcases List.eq_of_mem_replicate hw with rfl
            rfl
          subst this
          decide
        · intro w hw
          have : w = 0 := by
            rcases List.eq_of_mem_replicate hw with rfl
            rfl
          subst this
          decide
        · decide
        · decide
        · decide
        · decide
        · decide
        · rfl
        · intro r m h
          obtain ⟨rfl, rfl⟩ : PanicReason.DivByZero = r ∧
              (⟨(0, 0), (0, 0)⟩ : MetaInfo) = m := by
            injection h with h2
            injection h2 with ha hb
            exact ⟨ha, hb⟩
          refine ⟨by decide, by decide, by decide, by decide, by decide⟩)
      rfl

/-- A `PanicResult` with `has_panicked` hard-wired to the constant-true wire
and all `panic_type` wires constant-false: `replace_panic_with` accepts it
unchecked. -/
def c8_bad_panic : PanicResult :=
  { has_panicked := 1, panic_type := List.replicate USIZE_BITS 0,
    start_line := List.replicate USIZE_BITS 0,
    start_column := List.replicate USIZE_BITS 0,
    end_line := List.replicate USIZE_BITS 0,
    end_column := List.replicate USIZE_BITS 0 }

/-- A circuit built (through the full `remove_unused_gates` + `build`
pipeline) after a `replace_panic_with` call installed `c8_bad_panic`. -/
def c8_bad_circuit : Circuit :=
  CircuitBuilder.build (replace_panic_with c8_bad_panic (CircuitBuilder.new [1])).2 [2]

set_option maxRecDepth 8000 in
/-- C8 counterexample to the original claim: building after an interleaving
that ends with `replace_panic_with c8_bad_panic` yields a circuit whose
evaluation reaches the panic-decoding branch (the `has_panicked` wire is
true) with `panic_type` wires decoding to 0, so `PanicReason::from_num`
receives 0 and the `Invalid panic reason` panic fires (`eval = none`). -/
theorem C8_panic_reason_counterexample :
    (Circuit.eval c8_bad_circuit [[false]]).isNone = true ∧
    eval_gates 1 c8_bad_circuit.gates
        ([some false] ++ List.replicate c8_bad_circuit.gates.length none) 0 =
      some [some false, some false, some true] ∧
    getO [some false, some false, some true]
        c8_bad_circuit.panic_gates.has_panicked = some true ∧
    resolveW [some false, some false, some true]
        c8_bad_circuit.panic_gates.panic_type =
      some (List.replicate USIZE_BITS false) ∧
    wires_as_unsigned (List.replicate USIZE_BITS false) = 0 ∧
    PanicReason.from_num 0 = none := by
  refine ⟨?_, ?_, ?_, ?_, ?_, rfl⟩ <;> decide

end Garble
